import Mathlib

/-!
Shallow embedding of `src/TexasHoldem.py` (class `TexasHoldem`, class `Player`).

Cards are namedtuples `Card(rank, suit)` in the source, with ranks drawn from
`RANKS = ['A','2',...,'10','J','Q','K']` and suits from
`SUITS = ['spades','clubs','diamonds','hearts']`.  Rank values are converted to
numbers via `rank_to_number` (dictionary lookup for the face cards, `int(rank)`
otherwise).  We model the 52-card domain with an inductive `Rank` and `Suit`;
`rank_to_number` on that domain is total and lands in 2..14.  The string-level
versions of `rank_to_number` / `number_to_rank` (which can raise `ValueError`
through `int(...)`) are embedded separately for the error-handling claim.

Python truthiness: the source's `royal_flush` has a bare `False` expression on
its false path (not `return False`), so it returns `None` there; `None` is
falsy, so every *use* of `royal_flush` sees `False`.  We embed the raw return
value as `royal_flush_py : Option Bool` (with `none` standing for Python
`None`) and the truthiness actually used in all boolean contexts as
`royal_flush : Bool`.
-/

set_option maxRecDepth 2048

namespace TH

/-- Suits, from `SUITS = ['spades', 'clubs', 'diamonds', 'hearts']`. -/
inductive Suit
  | spades | clubs | diamonds | hearts
deriving DecidableEq, Repr, Fintype

/-- Ranks, from `RANKS = ['A', '2', ..., '10', 'J', 'Q', 'K']`. -/
inductive Rank
  | rA | r2 | r3 | r4 | r5 | r6 | r7 | r8 | r9 | r10 | rJ | rQ | rK
deriving DecidableEq, Repr, Fintype

/-- One playing card, `Card = namedtuple('card', 'rank suit')`. -/
structure Card where
  rank : Rank
  suit : Suit
deriving DecidableEq, Repr, Fintype

/-- Value of `rank_to_number` restricted to the 13-rank card domain:
`RANK_NUM = {'A': 14, 'K': 13, 'Q': 12, 'J': 11}` for face cards,
`int(rank)` for the numeric ranks `'2'..'10'`. -/
def rank_to_number : Rank → Nat
  | .rA => 14
  | .r2 => 2
  | .r3 => 3
  | .r4 => 4
  | .r5 => 5
  | .r6 => 6
  | .r7 => 7
  | .r8 => 8
  | .r9 => 9
  | .r10 => 10
  | .rJ => 11
  | .rQ => 12
  | .rK => 13

/-- Numeric rank values of a hand, `[self.rank_to_number(card.rank) for card in hand]`. -/
def card_nums (hand : List Card) : List Nat :=
  hand.map fun c => rank_to_number c.rank

/-- Source `one_suit`: `len(set(card_suits)) == 1` (len of a Python set is the
number of distinct elements, i.e. the length of the deduplicated list). -/
def one_suit (hand : List Card) : Bool :=
  ((hand.map Card.suit).dedup).length == 1

/-- Source `get_high_card`: `max` of the numeric rank values.  (Python `max`
raises on an empty list; the embedding returns 0 there, and every use in the
source and in the claims is on a non-empty hand.) -/
def get_high_card (hand : List Card) : Nat :=
  ((card_nums hand).max?).getD 0

/-- Source `get_matched_cards`:
`list(set([RankCount(card_num.count(rank), rank) for rank in card_num if card_num.count(rank) > 1]))`.
A `RankCount` namedtuple `(count, rank)` is embedded as a pair `(count, rank)`;
the Python `set` is embedded as `List.dedup` (the predicates that consume this
list only depend on the underlying set of pairs). -/
def get_matched_cards (hand : List Card) : List (Nat × Nat) :=
  let card_num := card_nums hand
  (((card_num.filter fun r => card_num.count r > 1).map
      fun r => (card_num.count r, r))).dedup

/-- Source `get_matched_cards2`: as `get_matched_cards` but without the
`count > 1` filter, so every distinct rank contributes a `(count, rank)` pair. -/
def get_matched_cards2 (hand : List Card) : List (Nat × Nat) :=
  let card_num := card_nums hand
  ((card_num.map fun r => (card_num.count r, r))).dedup

/-- Raw return value of the source `royal_flush`: `True` when
`min(ranks) >= 10 and self.one_suit(hand)`, and Python `None` (embedded as
`none`) otherwise, because the false branch is the bare expression `False`,
not `return False`. -/
def royal_flush_py (hand : List Card) : Option Bool :=
  if ((card_nums hand).min?.getD 0) ≥ 10 && one_suit hand then some true else none

/-- Truthiness of the source `royal_flush` (Python `None` is falsy): this is
the value every boolean context in the source observes. -/
def royal_flush (hand : List Card) : Bool :=
  (royal_flush_py hand).getD false

/-- Helper for the numpy idiom `(np.diff(sorted_list) == 1).all()`: all
consecutive differences of the (already sorted) list are exactly 1. -/
def diffs_all_one : List Nat → Bool
  | a :: b :: rest => (b == a + 1) && diffs_all_one (b :: rest)
  | _ => true

/-- Source `is_high_ace_straight`: sort the numeric ranks ascending (Ace=14)
and require all consecutive differences to be 1.  Python's `list.sort()` on a
list of ints produces the unique ascending reordering, which is what
`List.insertionSort (· ≤ ·)` computes. -/
def is_high_ace_straight (hand : List Card) : Bool :=
  diffs_all_one ((card_nums hand).insertionSort (· ≤ ·))

/-- Source `is_low_ace_straight`: replace 14 by 1 (ace low), sort ascending
and require all consecutive differences to be 1. -/
def is_low_ace_straight (hand : List Card) : Bool :=
  let low := (card_nums hand).map fun n => if n == 14 then 1 else n
  diffs_all_one (low.insertionSort (· ≤ ·))

/-- Source `straight`: false when `royal_flush` or `one_suit` is truthy,
otherwise `is_high_ace_straight or is_low_ace_straight`. -/
def straight (hand : List Card) : Bool :=
  if royal_flush hand || one_suit hand then false
  else is_high_ace_straight hand || is_low_ace_straight hand

/-- Source `straight_flush`: if not royal flush and some straight condition
holds, return `one_suit`, else `False`. -/
def straight_flush (hand : List Card) : Bool :=
  let straights := is_high_ace_straight hand || is_low_ace_straight hand
  if !(royal_flush hand) && straights then one_suit hand else false

/-- Source `flush`: `one_suit and not (straight_flush or royal_flush)`. -/
def flush (hand : List Card) : Bool :=
  let other_flush := straight_flush hand || royal_flush hand
  one_suit hand && !other_flush

/-- Source `pair`: exactly one matched `(count, rank)` entry, not a flush,
and that entry's count is 2. -/
def pair (hand : List Card) : Bool :=
  let matched_cards := get_matched_cards hand
  if matched_cards.length != 1 || flush hand then false
  else if (matched_cards.headD (0, 0)).1 != 2 then false
  else true

/-- Source `two_pairs`: exactly two matched entries, not a flush, and both
entries have count 2. -/
def two_pairs (hand : List Card) : Bool :=
  let matched_cards := get_matched_cards hand
  if matched_cards.length != 2 || flush hand then false
  else if (matched_cards.headD (0, 0)).1 == 2 && (matched_cards.getD 1 (0, 0)).1 == 2 then true
  else false

/-- Source `three_of_a_kind`: exactly one matched entry, not a flush, and that
entry's count is 3. -/
def three_of_a_kind (hand : List Card) : Bool :=
  let matched_cards := get_matched_cards hand
  if matched_cards.length != 1 || flush hand then false
  else if (matched_cards.headD (0, 0)).1 != 3 then false
  else true

/-- Source `four_of_a_kind`: exactly one matched entry, not a flush, and that
entry's count is 4. -/
def four_of_a_kind (hand : List Card) : Bool :=
  let matched_cards := get_matched_cards hand
  if matched_cards.length != 1 || flush hand then false
  else if (matched_cards.headD (0, 0)).1 != 4 then false
  else true

/-- Source `full_house`: false unless there are exactly two matched entries;
true if one of them has count 3; otherwise the `else` branch is the bare
expression `False` (a no-op), and control falls through to
`return (self.pair(hand) and self.three_of_a_kind(hand))`. -/
def full_house (hand : List Card) : Bool :=
  let matched_cards := get_matched_cards hand
  if matched_cards.length != 2 then false
  else if !(matched_cards.filter fun rc => rc.1 == 3).isEmpty then true
  else pair hand && three_of_a_kind hand

/-- The source's ordered list of the nine classifier predicates, from
`poker_hands = [royal_flush, straight_flush, four_of_a_kind, full_house,
flush, straight, three_of_a_kind, two_pairs, pair]` in `winner`. -/
def poker_hands : List (List Card → Bool) :=
  [royal_flush, straight_flush, four_of_a_kind, full_house, flush, straight,
   three_of_a_kind, two_pairs, pair]

/-- A `PlayerFiveCards` namedtuple from `get_five_cards`: a player name paired
with one five-card combination. -/
structure PlayerFiveCards where
  player : String
  five_cards : List Card
deriving DecidableEq, Repr

/-- Result of `tiebreaker` / `highcard_showdown` / `winner`.  In Python these
return (respectively) a `PlayerFiveCards` namedtuple or the string `'Tie'`, a
player-name string or `'Tie'`, and any of those; the embedding separates the
`'Tie'` string from player names with its own constructor (no player in the
claims is named `'Tie'`). -/
inductive ShowdownResult
  | combo (pfc : PlayerFiveCards)
  | playerName (name : String)
  | tie
deriving DecidableEq, Repr

/-- Descending order on `(count, rank)` pairs: the comparison used to embed
Python's `card.sort(key=attrgetter('count', 'rank'), reverse=True)`
(descending lexicographic by count then rank).  `rc_ge a b` means `a` sorts
no later than `b`. -/
def rc_ge (a b : Nat × Nat) : Prop :=
  b.1 < a.1 ∨ (b.1 = a.1 ∧ b.2 ≤ a.2)

instance : DecidableRel rc_ge := fun a b => by
  unfold rc_ge; infer_instance

/-- Per-hand body of the source `sort_card_count`: the `(count, rank)` pairs
of `get_matched_cards2`, sorted descending by count then rank.  (The entries
are pairwise distinct pairs, so the sorted order is unique and Python's
stable sort and `insertionSort` agree.) -/
def sort_rank_count (hand : List Card) : List (Nat × Nat) :=
  (get_matched_cards2 hand).insertionSort rc_ge

/-- Source `sort_card_count`: the sorted `(count, rank)` signature of each
hand in the pool. -/
def sort_card_count (hands : List PlayerFiveCards) : List (List (Nat × Nat)) :=
  hands.map fun h => sort_rank_count h.five_cards

/-- Rank-only signature of one hand: the source `tiebreaker` computes
`np.transpose(self.sort_card_count(hands))[1]`, which keeps only the `rank`
component of every sorted `(count, rank)` pair. -/
def rank_signature (hand : List Card) : List Nat :=
  (sort_rank_count hand).map Prod.snd

/-- Embedding of `np.max` on a list of naturals (the source only applies it
to non-empty rows). -/
def npmax : List Nat → Nat
  | [] => 0
  | x :: xs => xs.foldl max x

/-- Embedding of `np.argmax`: index of the first occurrence of the maximum. -/
def np_argmax (l : List Nat) : Nat :=
  l.indexOf (npmax l)

/-- One filtering step of the source `tiebreaker` loop: among the surviving
candidates (original index paired with rank-only signature), keep exactly
those whose signature value in column `row` equals the maximum of that column
over the survivors (`col_filter = sorted_hands[idx] == np.max(sorted_hands[idx])`). -/
def tb_filter (cands : List (Nat × List Nat)) (row : Nat) : List (Nat × List Nat) :=
  let m := npmax (cands.map fun c => c.2.getD row 0)
  cands.filter fun c => c.2.getD row 0 == m

/-- Source `tiebreaker`.  The numpy code transposes the pool's sorted
signatures, keeps the rank row (`[1]`), stacks an index row on top
(`np.vstack((columns_idx, sorted_hands))`), and then filters the hand columns
row by row against the row maximum; a unique surviving column returns
`hands[int(...)]`, otherwise the string `'Tie'` is returned.  The embedding
carries the original index of each hand alongside its rank-only signature and
filters position by position.  (numpy needs the signatures to be equally long
to build a rectangular array; the source only calls `tiebreaker` on pools of
one category, where that holds, and the embedding reads the number of rows
off the first signature.) -/
def tiebreaker (hands : List PlayerFiveCards) : ShowdownResult :=
  let sigs := hands.map fun h => rank_signature h.five_cards
  let rows := (sigs.headD []).length
  let init := (List.range hands.length).map fun i => (i, sigs.getD i [])
  let final := (List.range rows).foldl tb_filter init
  match final with
  | [(i, _)] => .combo (hands.getD i ⟨"", []⟩)
  | _ => .tie

/-- Showdown-relevant state of one `Player` object.  (The unused `hand`
attribute, which stays `None` on every path exercised here, is omitted.) -/
structure PlayerState where
  name : String
  cards : List Card
  fortune : Int
  bet : Int
  folded : Bool
  max_win : Int

/-- State of one `TexasHoldem` table object.  `table` embeds the Python dict
`{name: Player}` as a function from names; `small_blind` is `big_blind / 2`
under Python true division, hence a rational. -/
structure GameState where
  players : List String
  buy_in : Int
  deck : List Card
  table : String → PlayerState
  community_cards : List Card
  big_blind : Int
  small_blind : Rat
  pot : Int
  hands_played : Nat
  small_blind_player : String
  big_blind_player : String

/-- All `k`-element combinations of a list, in the order produced by Python's
`itertools.combinations` (combinations that start with an earlier element
come first). -/
def combinationsN {α : Type} : Nat → List α → List (List α)
  | 0, _ => [[]]
  | _ + 1, [] => []
  | k + 1, x :: xs => ((combinationsN k xs).map (x :: ·)) ++ combinationsN (k + 1) xs

/-- Source `get_five_cards`: every 5-card combination of the player's hole
cards plus the community cards, each tagged with the player's name. -/
def get_five_cards (s : GameState) (player : String) : List PlayerFiveCards :=
  let player_cards := (s.table player).cards
  (combinationsN 5 (player_cards ++ s.community_cards)).map fun comb => ⟨player, comb⟩

/-- Source `showdown_cards`: the five-card combinations of every non-folded
player, concatenated in seating order (`chain.from_iterable`). -/
def showdown_cards (s : GameState) : List PlayerFiveCards :=
  ((s.players.filter fun p => !(s.table p).folded).map (get_five_cards s)).flatten

/-- Source `highcard_showdown`: compare the hole cards of EVERY player in
`self.players` (the folded flag is not consulted here).  If the highest hole
ranks are not all equal, `np.argmax` picks the first player attaining the
maximum; otherwise, if the minima (kickers) are not all equal, `np.argmax`
picks the first player attaining the maximal kicker; otherwise `'Tie'`. -/
def highcard_showdown (s : GameState) : ShowdownResult :=
  let high_card := s.players.map fun p => get_high_card (s.table p).cards
  let kicker := s.players.map fun p => ((card_nums (s.table p).cards).min?).getD 0
  if high_card.dedup.length != 1 then .playerName (s.players.getD (np_argmax high_card) "")
  else if kicker.dedup.length != 1 then .playerName (s.players.getD (np_argmax kicker) "")
  else .tie

/-- The category scan of the source `winner`: try each of the nine predicates
in precedence order over the pooled combinations; the first predicate with a
non-empty filter wins and its survivors go to `tiebreaker`.  `none` means the
loop fell through (no combination satisfies any predicate). -/
def winner_loop (possible_hands : List PlayerFiveCards) :
    List (List Card → Bool) → Option ShowdownResult
  | [] => none
  | p :: rest =>
    let top_hands := possible_hands.filter fun pfc => p pfc.five_cards
    if top_hands.isEmpty then winner_loop possible_hands rest
    else some (tiebreaker top_hands)

/-- Source `winner`: scan the nine categories over the non-folded players'
pooled combinations; fall back to `highcard_showdown` when no combination
satisfies any predicate. -/
def winner (s : GameState) : ShowdownResult :=
  (winner_loop (showdown_cards s) poker_hands).getD (highcard_showdown s)

/-- Python exception kinds relevant to the embedded operations.
`deckExhausted` stands for the `DeckExhaustedError` named by the spec; no such
class exists anywhere in the source, the constructor exists only so the
spec's claim about it can be stated. -/
inductive PyErr
  | indexError | valueError | deckExhausted
deriving DecidableEq, Repr

/-- Embedding of Python `list.pop()` (no argument): remove and return the last
element, raising `IndexError` on an empty list. -/
def pop_last {α : Type} (l : List α) : Except PyErr (α × List α) :=
  match l.getLast? with
  | some x => .ok (x, l.dropLast)
  | none => .error .indexError

/-- Loop body of the source `get_cards`: `count` times, `pop` the last card
off the deck and append it to `card_set`. -/
def get_cards_loop : Nat → List Card → List Card → Except PyErr (List Card × List Card)
  | 0, deck, card_set => .ok (card_set, deck)
  | n + 1, deck, card_set =>
    match pop_last deck with
    | .ok (c, deck2) => get_cards_loop n deck2 (card_set ++ [c])
    | .error e => .error e

/-- Source `get_cards`: returns the list of popped cards together with the
remaining deck, or the `IndexError` that `pop` raises when the deck runs out. -/
def get_cards (count : Nat) (deck : List Card) : Except PyErr (List Card × List Card) :=
  get_cards_loop count deck []

/-- Source `deal_board`: burn one card (`self.deck.pop()`, value discarded),
then deal 3 cards (flop) or 1 card onto `community_cards` via `get_cards`. -/
def deal_board (s : GameState) (flop : Bool) : Except PyErr GameState :=
  match pop_last s.deck with
  | .error e => .error e
  | .ok (_, deck1) =>
    match get_cards (if flop then 3 else 1) deck1 with
    | .error e => .error e
    | .ok (card_set, deck2) =>
      .ok { s with deck := deck2, community_cards := s.community_cards ++ card_set }

/-- Decidable equality for `Except` results (needed to state and decide facts
about `get_cards` and `rank_to_number`). -/
instance {e a : Type} [DecidableEq e] [DecidableEq a] : DecidableEq (Except e a) := fun x y =>
  match x, y with
  | .ok u, .ok v =>
    if h : u = v then isTrue (by rw [h]) else isFalse (by simp [h])
  | .error u, .error v =>
    if h : u = v then isTrue (by rw [h]) else isFalse (by simp [h])
  | .ok _, .error _ => isFalse (by simp)
  | .error _, .ok _ => isFalse (by simp)

/-- A Python value that is either a string or an int: `number_to_rank` returns
a string for the four face values and `int(number)` (the int itself) for
everything else. -/
inductive PyVal
  | str (s : String)
  | int (n : Int)
deriving DecidableEq, Repr

/-- Source constant `RANK_NUM = {'A': 14, 'K': 13, 'Q': 12, 'J': 11}`. -/
def RANK_NUM : List (String × Int) := [("A", 14), ("K", 13), ("Q", 12), ("J", 11)]

/-- Source constant `NUM_RANK = {14: 'A', 13: 'K', 12: 'Q', 11: 'J'}`. -/
def NUM_RANK : List (Int × String) := [(14, "A"), (13, "K"), (12, "Q"), (11, "J")]

/-- Decimal digit value of a character, used to embed Python `int(...)`. -/
def digit_val (ch : Char) : Option Nat :=
  if 48 ≤ ch.toNat && ch.toNat ≤ 57 then some (ch.toNat - 48) else none

/-- Accumulate decimal digits; `none` as soon as a non-digit appears. -/
def parse_digits : List Char → Nat → Option Nat
  | [], acc => some acc
  | ch :: rest, acc =>
    match digit_val ch with
    | some d => parse_digits rest (acc * 10 + d)
    | none => none

/-- Embedding of Python `int(s)` on a string: an optional sign followed by at
least one decimal digit parses to that integer, anything else raises
`ValueError` (embedded as `none`).  (Python additionally tolerates surrounding
whitespace and underscores between digits; no input exercised by the source or
the claims uses those.) -/
def py_int_of_string (s : String) : Option Int :=
  match s.data with
  | [] => none
  | '-' :: rest =>
    if rest.isEmpty then none
    else (parse_digits rest 0).map fun n => -(n : Int)
  | '+' :: rest =>
    if rest.isEmpty then none
    else (parse_digits rest 0).map fun n => (n : Int)
  | l => (parse_digits l 0).map fun n => (n : Int)

/-- String-level source `rank_to_number`: dictionary lookup for the face
cards, otherwise `int(rank)`.  `int` on a non-numeric string raises
`ValueError`. -/
def rank_to_number_str (rank : String) : Except PyErr Int :=
  match RANK_NUM.lookup rank with
  | some v => .ok v
  | none =>
    match py_int_of_string rank with
    | some n => .ok n
    | none => .error .valueError

/-- String-level source `number_to_rank`: dictionary lookup for 11..14,
otherwise `int(number)`, which on an int is the int itself — NOT the rank
string. -/
def number_to_rank_py (number : Int) : PyVal :=
  match NUM_RANK.lookup number with
  | some s => .str s
  | none => .int number

/-- The string of each rank in the source's `RANKS` list. -/
def Rank.toStr : Rank → String
  | .rA => "A"
  | .r2 => "2"
  | .r3 => "3"
  | .r4 => "4"
  | .r5 => "5"
  | .r6 => "6"
  | .r7 => "7"
  | .r8 => "8"
  | .r9 => "9"
  | .r10 => "10"
  | .rJ => "J"
  | .rQ => "Q"
  | .rK => "K"

/-- The nine classifier values of a hand, in the precedence order of the
source's `poker_hands` list. -/
def category_flags (hand : List Card) : List Bool :=
  [royal_flush hand, straight_flush hand, four_of_a_kind hand, full_house hand,
   flush hand, straight hand, three_of_a_kind hand, two_pairs hand, pair hand]

/-- The high-card fallback of `winner`: none of the nine predicates is truthy. -/
def high_card_fallback (hand : List Card) : Bool :=
  !(category_flags hand).any (fun b => b)

/-! Definitions modelled from the spec's words (for the refinement claims
about `tiebreaker` and the high-card showdown); they are compared against the
source embeddings above. -/

/-- Lexicographic maximum of a list of `(count, rank)` pairs (count before
rank), as used by the spec-side tiebreaker: `(0, 0)` on an empty list. -/
def lexmax : List (Nat × Nat) → Nat × Nat
  | [] => (0, 0)
  | x :: xs => xs.foldl (fun a b => if rc_ge b a then b else a) x

/-- Spec-side tiebreaker loop (from the words of §4.4): at each column retain
exactly the candidates whose `(count, rank)` value in that column equals the
maximum over the remaining candidates; stop as soon as one candidate remains
(its pair is the winner) or all columns are exhausted (tie). -/
def tb_spec_go : Nat → List (PlayerFiveCards × List (Nat × Nat)) → Nat → ShowdownResult
  | _, [cand], _ => .combo cand.1
  | 0, _, _ => .tie
  | fuel + 1, cands, col =>
    let m := lexmax (cands.map fun cand => cand.2.getD col (0, 0))
    tb_spec_go fuel (cands.filter fun cand => decide (cand.2.getD col (0, 0) = m)) (col + 1)

/-- Spec-side tiebreaker (from the words of the claim): signature of each
combination is its `(count, rank)` list sorted descending by count then rank;
filter column by column; unique survivor wins, otherwise tie.  (The tie
result carries no players: that is the amendment forced by the source, which
returns the bare string `'Tie'`.) -/
def tiebreaker_spec (hands : List PlayerFiveCards) : ShowdownResult :=
  let cands := hands.map fun h => (h, sort_rank_count h.five_cards)
  tb_spec_go (sort_rank_count ((hands.headD ⟨"", []⟩).five_cards)).length cands 0

/-- All entries of the list are equal (to the first one). -/
def all_equal (l : List Nat) : Bool :=
  l.all fun x => x == l.headD 0

/-- Spec-side selection of "the earliest player attaining the maximum value":
scan positions in seating order and pick the first whose value equals the
maximum. -/
def first_max_player (players : List String) (vals : List Nat) : ShowdownResult :=
  match (List.range players.length).find? (fun i => vals.getD i 0 == npmax vals) with
  | some i => .playerName (players.getD i "")
  | none => .tie

/-- Spec-side high-card showdown, in the amended wording of the claim: if the
players' highest hole ranks are not all equal, the earliest player attaining
the maximal highest rank wins (kickers are NOT consulted); if all highest
ranks are equal and the lower hole ranks are not all equal, the earliest
player attaining the maximal lower rank wins; otherwise tie.  Every player in
seating order participates, folded or not. -/
def highcard_spec (s : GameState) : ShowdownResult :=
  let highs := s.players.map fun p => get_high_card (s.table p).cards
  let lows := s.players.map fun p => ((card_nums (s.table p).cards).min?).getD 0
  if !(all_equal highs) then first_max_player s.players highs
  else if !(all_equal lows) then first_max_player s.players lows
  else .tie

/-! Concrete cards, hands and game states used by witnesses, counterexamples
and failing-input evaluations. -/

/-- Shorthand card constructor. -/
def cd (r : Rank) (s : Suit) : Card := ⟨r, s⟩

/-- A default player record (fortune 100, no bet, given folded flag). -/
def mkPlayer (n : String) (cs : List Card) (f : Bool) : PlayerState :=
  ⟨n, cs, 100, 0, f, 0⟩

/-- A pair of fives with three distinct kickers. -/
def pair_hand : List Card :=
  [cd .r5 .spades, cd .r5 .clubs, cd .r7 .diamonds, cd .r9 .hearts, cd .rJ .hearts]

/-- A no-category hand (2,5,7,9,J of mixed suits). -/
def high_card_hand : List Card :=
  [cd .r2 .spades, cd .r5 .clubs, cd .r7 .diamonds, cd .r9 .hearts, cd .rJ .hearts]

/-- Three-player state with no category anywhere: P1 holds A spades + 2 clubs,
P2 holds A hearts + K diamonds (same top rank as P1 but a far better kicker),
P3 holds 9 spades + 3 hearts; the board pairs nobody and allows no flush or
straight. -/
def hc_state : GameState :=
  { players := ["P1", "P2", "P3"]
    buy_in := 100
    deck := []
    table := fun n =>
      if n = "P1" then mkPlayer "P1" [cd .rA .spades, cd .r2 .clubs] false
      else if n = "P2" then mkPlayer "P2" [cd .rA .hearts, cd .rK .diamonds] false
      else mkPlayer "P3" [cd .r9 .spades, cd .r3 .hearts] false
    community_cards :=
      [cd .r4 .clubs, cd .r6 .diamonds, cd .r8 .clubs, cd .rJ .diamonds, cd .rQ .clubs]
    big_blind := 2
    small_blind := 1
    pot := 0
    hands_played := 0
    small_blind_player := "P1"
    big_blind_player := "P2" }

/-- Two-player state where ANDREW has folded and only TUDOR is live; TUDOR's
pool has no category, while the folded ANDREW holds the highest hole cards. -/
def folded_state : GameState :=
  { players := ["TUDOR", "ANDREW"]
    buy_in := 100
    deck := []
    table := fun n =>
      if n = "TUDOR" then mkPlayer "TUDOR" [cd .r2 .clubs, cd .r3 .diamonds] false
      else mkPlayer "ANDREW" [cd .rA .spades, cd .rK .spades] true
    community_cards :=
      [cd .r5 .hearts, cd .r7 .spades, cd .r9 .clubs, cd .rJ .diamonds, cd .rQ .spades]
    big_blind := 2
    small_blind := 1
    pot := 0
    hands_played := 0
    small_blind_player := "TUDOR"
    big_blind_player := "ANDREW" }

/-- Pool of two one-pair combinations, held by P1 and P2, with identical
rank signatures. -/
def tie_poolA : List PlayerFiveCards :=
  [⟨"P1", [cd .r5 .spades, cd .r5 .hearts, cd .r7 .clubs, cd .r9 .diamonds, cd .rJ .spades]⟩,
   ⟨"P2", [cd .r5 .diamonds, cd .r5 .clubs, cd .r7 .hearts, cd .r9 .spades, cd .rJ .hearts]⟩]

/-- The same two rank signatures, held by the different players P3 and P4. -/
def tie_poolB : List PlayerFiveCards :=
  [⟨"P3", [cd .r5 .spades, cd .r5 .hearts, cd .r7 .clubs, cd .r9 .diamonds, cd .rJ .spades]⟩,
   ⟨"P4", [cd .r5 .diamonds, cd .r5 .clubs, cd .r7 .hearts, cd .r9 .spades, cd .rJ .hearts]⟩]

/-- A pool where P2's pair outkicks P1's identical pair (queen vs jack). -/
def kicker_pool : List PlayerFiveCards :=
  [⟨"P1", [cd .r5 .spades, cd .r5 .hearts, cd .r7 .clubs, cd .r9 .diamonds, cd .rJ .spades]⟩,
   ⟨"P2", [cd .r5 .diamonds, cd .r5 .clubs, cd .r7 .hearts, cd .r9 .spades, cd .rQ .hearts]⟩]

/-- The deck suffix A, K, Q of spades (popped from the right end). -/
def small_deck : List Card := [cd .rA .spades, cd .rK .spades, cd .rQ .spades]

/-- A state ready for `deal_board`: six cards in the deck, one community
card already out, two players holding cards disjoint from the deck. -/
def deal_state : GameState :=
  { players := ["P1", "P2"]
    buy_in := 100
    deck := [cd .r2 .hearts, cd .r3 .hearts, cd .r4 .hearts, cd .r5 .hearts,
             cd .r6 .hearts, cd .r7 .hearts]
    table := fun n =>
      if n = "P1" then mkPlayer "P1" [cd .rA .spades, cd .rK .spades] false
      else mkPlayer "P2" [cd .rA .clubs, cd .rK .clubs] false
    community_cards := [cd .r9 .diamonds]
    big_blind := 2
    small_blind := 1
    pot := 3
    hands_played := 1
    small_blind_player := "P1"
    big_blind_player := "P2" }

/-- The count column of a hand's sorted signature: the `count` components of
`sort_card_count`, highest first.  Within one category this column is the same
for every hand, which is why the source `tiebreaker` can drop it
(`np.transpose(...)[1]` keeps only the ranks). -/
def count_column (hand : List Card) : List Nat :=
  (sort_rank_count hand).map Prod.fst

/-- Interpretation of the final candidate matrix of `tiebreaker`: a unique
surviving column returns `hands[idx]` (recovered through `pf`), anything else
is the string `'Tie'`. -/
def tb_match (pf : Nat → PlayerFiveCards) (final : List (Nat × List Nat)) : ShowdownResult :=
  match final with
  | [(i, _)] => .combo (pf i)
  | _ => .tie

instance : IsTotal (Nat × Nat) rc_ge :=
  ⟨fun a b => by unfold rc_ge; omega⟩

instance : IsTrans (Nat × Nat) rc_ge :=
  ⟨fun a b c hab hbc => by unfold rc_ge at *; omega⟩

/-- Numeric key of a suit. -/
def suit_num : Suit → Nat
  | .spades => 0
  | .clubs => 1
  | .diamonds => 2
  | .hearts => 3

/-- Injective key of a card. -/
def card_key (c : Card) : Nat := 4 * rank_to_number c.rank + suit_num c.suit

/-- Canonical order on cards (by key). -/
def card_le (c₁ c₂ : Card) : Prop := card_key c₁ ≤ card_key c₂

instance : DecidableRel card_le := fun c₁ c₂ => by unfold card_le; infer_instance

instance : IsTrans Card card_le := ⟨fun _ _ _ h₁ h₂ => le_trans h₁ h₂⟩

instance : IsTotal Card card_le := ⟨fun a b => le_total (card_key a) (card_key b)⟩

instance : IsAntisymm Card card_le :=
  ⟨fun a b h₁ h₂ =>
    (by decide : ∀ c₁ c₂ : Card, card_key c₁ = card_key c₂ → c₁ = c₂) a b
      (le_antisymm h₁ h₂)⟩

/-- Canonical list of a hand (sorted by card key). -/
def hand_list (h : Finset Card) : List Card := h.sort card_le

/-- The classifier predicates on unordered hands, evaluated on the canonical
list (all nine are order-independent). -/
def royal_flushF (h : Finset Card) : Bool := royal_flush (hand_list h)
def straight_flushF (h : Finset Card) : Bool := straight_flush (hand_list h)
def four_of_a_kindF (h : Finset Card) : Bool := four_of_a_kind (hand_list h)
def full_houseF (h : Finset Card) : Bool := full_house (hand_list h)
def flushF (h : Finset Card) : Bool := flush (hand_list h)
def straightF (h : Finset Card) : Bool := straight (hand_list h)
def three_of_a_kindF (h : Finset Card) : Bool := three_of_a_kind (hand_list h)
def two_pairsF (h : Finset Card) : Bool := two_pairs (hand_list h)
def pairF (h : Finset Card) : Bool := pair (hand_list h)

/-- All C(52,5) five-card hands. -/
def all_hands : Finset (Finset Card) := (Finset.univ : Finset Card).powersetCard 5

/-- Rank multiset of a hand. -/
def rmul (h : Finset Card) : Multiset Rank := h.val.map Card.rank

/-- All hands with a prescribed rank multiset. -/
def rank_fiber (M : Multiset Rank) : Finset (Finset Card) :=
  (Finset.univ : Finset (Finset Card)).filter fun h => rmul h = M

/-- The thirteen ranks in deck order. -/
def rank_list : List Rank :=
  [.rA, .r2, .r3, .r4, .r5, .r6, .r7, .r8, .r9, .r10, .rJ, .rQ, .rK]

/-- Canonical ascending numeric values of a set of ranks. -/
def nums_of (R : Finset Rank) : List Nat :=
  (rank_list.filter fun r => decide (r ∈ R)).map rank_to_number

/-- The straight test (high-ace or low-ace) as a function of a rank set. -/
def straightsR (R : Finset Rank) : Bool :=
  diffs_all_one ((nums_of R).insertionSort (· ≤ ·)) ||
    diffs_all_one (((nums_of R).map fun n => if n == 14 then 1 else n).insertionSort (· ≤ ·))

/-- The royal-flush minimum test as a function of a rank set. -/
def minge10 (R : Finset Rank) : Bool := decide (10 ≤ (nums_of R).min?.getD 0)

/-- The one-suited hand with rank set `R` and suit `s`. -/
def psi (R : Finset Rank) (s : Suit) : Finset Card := R.image fun r => ⟨r, s⟩

/-- The ten rank sets forming a straight (wheel through broadway). -/
def run_sets : Finset (Finset Rank) :=
  {({.rA, .r2, .r3, .r4, .r5} : Finset Rank),
   {.r2, .r3, .r4, .r5, .r6}, {.r3, .r4, .r5, .r6, .r7}, {.r4, .r5, .r6, .r7, .r8},
   {.r5, .r6, .r7, .r8, .r9}, {.r6, .r7, .r8, .r9, .r10}, {.r7, .r8, .r9, .r10, .rJ},
   {.r8, .r9, .r10, .rJ, .rQ}, {.r9, .r10, .rJ, .rQ, .rK}, {.r10, .rJ, .rQ, .rK, .rA}}

/-- The broadway rank set 10-J-Q-K-A of a royal flush. -/
def royal_set : Finset Rank := {.r10, .rJ, .rQ, .rK, .rA}

/-- The ace-low numeric value of a rank (14 is replaced by 1). -/
def g_low (r : Rank) : Nat := if rank_to_number r == 14 then 1 else rank_to_number r

/-! Helper lemmas. -/

theorem rank_to_number_inj :
    ∀ r₁ r₂ : Rank, rank_to_number r₁ = rank_to_number r₂ → r₁ = r₂ := by
  decide

theorem eq_of_dedup_length_eq_one {α : Type} [DecidableEq α] {l : List α}
    (h : l.dedup.length = 1) : ∀ a ∈ l, ∀ b ∈ l, a = b := by
  obtain ⟨x, hx⟩ := List.length_eq_one.mp h
  intro a ha b hb
  have ha2 : a ∈ l.dedup := List.mem_dedup.mpr ha
  have hb2 : b ∈ l.dedup := List.mem_dedup.mpr hb
  rw [hx] at ha2 hb2
  simp only [List.mem_singleton] at ha2 hb2
  rw [ha2, hb2]

theorem one_suit_suits_eq {hand : List Card} (h : one_suit hand = true) :
    ∀ c₁ ∈ hand, ∀ c₂ ∈ hand, c₁.suit = c₂.suit := by
  intro c₁ h₁ c₂ h₂
  have hlen : ((hand.map Card.suit).dedup).length = 1 := by
    simpa [one_suit] using h
  exact eq_of_dedup_length_eq_one hlen _ (List.mem_map_of_mem Card.suit h₁) _
    (List.mem_map_of_mem Card.suit h₂)

theorem nodup_card_nums_of_one_suit {hand : List Card} (hnd : hand.Nodup)
    (hos : one_suit hand = true) : (card_nums hand).Nodup := by
  refine List.Nodup.map_on ?_ hnd
  intro c₁ h₁ c₂ h₂ heq
  have hr : c₁.rank = c₂.rank := rank_to_number_inj _ _ heq
  have hs : c₁.suit = c₂.suit := one_suit_suits_eq hos c₁ h₁ c₂ h₂
  cases c₁; cases c₂
  simp_all

theorem pairwise_lt_of_diffs_all_one :
    ∀ {l : List Nat}, diffs_all_one l = true → l.Pairwise (· < ·)
  | [], _ => List.Pairwise.nil
  | [_], _ => List.pairwise_singleton _ _
  | a :: b :: rest, h => by
    have hab : b = a + 1 ∧ diffs_all_one (b :: rest) = true := by
      simpa [diffs_all_one, Bool.and_eq_true] using h
    have ih : (b :: rest).Pairwise (· < ·) := pairwise_lt_of_diffs_all_one hab.2
    refine List.Pairwise.cons ?_ ih
    intro x hx
    rcases List.mem_cons.mp hx with hb | hr
    · omega
    · have hbx : b < x := (List.pairwise_cons.mp ih).1 x hr
      omega

theorem nodup_of_sorted_diffs {l : List Nat}
    (h : diffs_all_one (l.insertionSort (· ≤ ·)) = true) : l.Nodup := by
  have hp : (l.insertionSort (· ≤ ·)).Pairwise (· < ·) := pairwise_lt_of_diffs_all_one h
  have hnd : (l.insertionSort (· ≤ ·)).Nodup := hp.imp Nat.ne_of_lt
  exact (List.perm_insertionSort (· ≤ ·) l).nodup_iff.mp hnd

theorem nodup_card_nums_of_high {hand : List Card}
    (h : is_high_ace_straight hand = true) : (card_nums hand).Nodup :=
  nodup_of_sorted_diffs (by simpa [is_high_ace_straight] using h)

theorem nodup_card_nums_of_low {hand : List Card}
    (h : is_low_ace_straight hand = true) : (card_nums hand).Nodup := by
  have hlow : ((card_nums hand).map fun n => if n == 14 then 1 else n).Nodup :=
    nodup_of_sorted_diffs (by simpa [is_low_ace_straight] using h)
  exact List.Nodup.of_map _ hlow

theorem matched_nil_of_nodup {hand : List Card}
    (h : (card_nums hand).Nodup) : get_matched_cards hand = [] := by
  unfold get_matched_cards
  have hf : (card_nums hand).filter (fun r => (card_nums hand).count r > 1) = [] := by
    refine List.filter_eq_nil_iff.mpr ?_
    intro a _
    have := List.nodup_iff_count_le_one.mp h a
    simp only [decide_eq_true_eq]
    omega
  simp [hf]

theorem bool_count_ten (l : List Bool) (h : l.count true ≤ 1) :
    (l ++ [!l.any fun b => b]).count true = 1 := by
  rcases hany : l.any fun b => b with hfalse | htrue
  · have hzero : l.count true = 0 := by
      rw [List.count_eq_zero]
      intro hmem
      have : l.any (fun b => b) = true := List.any_eq_true.mpr ⟨true, hmem, rfl⟩
      simp [this] at hany
    simp [List.count_append, hzero, hany]
  · have hpos : 0 < l.count true := by
      obtain ⟨b, hb, hbt⟩ := List.any_eq_true.mp hany
      have : b = true := by simpa using hbt
      subst this
      exact List.count_pos_iff.mpr hb
    have : l.count true = 1 := by omega
    simp [List.count_append, this, hany]

theorem nine_count_le_one (hand : List Card) (hnd : hand.Nodup) :
    (category_flags hand).count true ≤ 1 := by
  by_cases hos : one_suit hand = true
  · -- one-suited: ranks distinct, matched empty; exactly one of rf/sf/fl
    have hnn := nodup_card_nums_of_one_suit hnd hos
    have hm := matched_nil_of_nodup hnn
    have hpair : pair hand = false := by simp [pair, hm]
    have htp : two_pairs hand = false := by simp [two_pairs, hm]
    have h3 : three_of_a_kind hand = false := by simp [three_of_a_kind, hm]
    have h4 : four_of_a_kind hand = false := by simp [four_of_a_kind, hm]
    have hfh : full_house hand = false := by simp [full_house, hm]
    have hst : straight hand = false := by simp [straight, hos]
    by_cases hrf : royal_flush hand = true
    · have hsf : straight_flush hand = false := by simp [straight_flush, hrf]
      have hfl : flush hand = false := by simp [flush, hrf]
      simp [category_flags, hpair, htp, h3, h4, hfh, hst, hrf, hsf, hfl]
    · rw [Bool.not_eq_true] at hrf
      by_cases hstr : (is_high_ace_straight hand || is_low_ace_straight hand) = true
      · have hsf : straight_flush hand = true := by
          simp [straight_flush, hrf, hos, hstr]
        have hfl : flush hand = false := by simp [flush, hsf]
        simp [category_flags, hpair, htp, h3, h4, hfh, hst, hrf, hsf, hfl]
      · rw [Bool.not_eq_true] at hstr
        have hsf : straight_flush hand = false := by
          simp [straight_flush, hstr, hrf]
        have hfl : flush hand = true := by simp [flush, hsf, hrf, hos]
        simp [category_flags, hpair, htp, h3, h4, hfh, hst, hrf, hsf, hfl]
  · rw [Bool.not_eq_true] at hos
    have hrf : royal_flush hand = false := by
      simp [royal_flush, royal_flush_py, hos]
    have hsf : straight_flush hand = false := by
      simp [straight_flush, hos, hrf]
    have hfl : flush hand = false := by simp [flush, hos]
    by_cases hstr : (is_high_ace_straight hand || is_low_ace_straight hand) = true
    · have hst : straight hand = true := by simp [straight, hrf, hos, hstr]
      have hnn : (card_nums hand).Nodup := by
        rcases Bool.or_eq_true_iff.mp hstr with h | h
        · exact nodup_card_nums_of_high h
        · exact nodup_card_nums_of_low h
      have hm := matched_nil_of_nodup hnn
      have hpair : pair hand = false := by simp [pair, hm]
      have htp : two_pairs hand = false := by simp [two_pairs, hm]
      have h3 : three_of_a_kind hand = false := by simp [three_of_a_kind, hm]
      have h4 : four_of_a_kind hand = false := by simp [four_of_a_kind, hm]
      have hfh : full_house hand = false := by simp [full_house, hm]
      simp [category_flags, hpair, htp, h3, h4, hfh, hst, hrf, hsf, hfl]
    · rw [Bool.not_eq_true] at hstr
      have hst : straight hand = false := by simp [straight, hrf, hos, hstr]
      rcases hm : get_matched_cards hand with _ | ⟨a, _ | ⟨b, rest⟩⟩
      · have hpair : pair hand = false := by simp [pair, hm]
        have htp : two_pairs hand = false := by simp [two_pairs, hm]
        have h3 : three_of_a_kind hand = false := by simp [three_of_a_kind, hm]
        have h4 : four_of_a_kind hand = false := by simp [four_of_a_kind, hm]
        have hfh : full_house hand = false := by simp [full_house, hm]
        simp [category_flags, hpair, htp, h3, h4, hfh, hst, hrf, hsf, hfl]
      · -- one matched entry: at most one of pair/trips/quads
        have htp : two_pairs hand = false := by simp [two_pairs, hm]
        have hfh : full_house hand = false := by simp [full_house, hm]
        have hpair : pair hand = decide (a.1 = 2) := by simp [pair, hm, hfl]
        have h3 : three_of_a_kind hand = decide (a.1 = 3) := by
          simp [three_of_a_kind, hm, hfl]
        have h4 : four_of_a_kind hand = decide (a.1 = 4) := by
          simp [four_of_a_kind, hm, hfl]
        simp only [category_flags, hpair, htp, h3, h4, hfh, hst, hrf, hsf, hfl]
        by_cases h2 : a.1 = 2 <;> by_cases h3b : a.1 = 3 <;> by_cases h4b : a.1 = 4 <;>
          simp_all
      · rcases rest with _ | ⟨c, rest2⟩
        · -- two matched entries: two_pairs and full_house are mutually exclusive
          have hpair : pair hand = false := by simp [pair, hm]
          have h3 : three_of_a_kind hand = false := by simp [three_of_a_kind, hm]
          have h4 : four_of_a_kind hand = false := by simp [four_of_a_kind, hm]
          have htp : two_pairs hand = (decide (a.1 = 2) && decide (b.1 = 2)) := by
            simp [two_pairs, hm, hfl]
          have hfh : full_house hand = (decide (a.1 = 3) || decide (b.1 = 3)) := by
            by_cases ha : a.1 = 3 <;> by_cases hb : b.1 = 3 <;>
              simp [full_house, hm, hpair, List.filter_cons, ha, hb]
          simp only [category_flags, hpair, htp, h3, h4, hfh, hst, hrf, hsf, hfl]
          by_cases ha3 : a.1 = 3 <;> by_cases hb3 : b.1 = 3 <;>
            by_cases ha2 : a.1 = 2 <;> by_cases hb2 : b.1 = 2 <;> simp_all
        · have hpair : pair hand = false := by simp [pair, hm]
          have h3 : three_of_a_kind hand = false := by simp [three_of_a_kind, hm]
          have h4 : four_of_a_kind hand = false := by simp [four_of_a_kind, hm]
          have htp : two_pairs hand = false := by simp [two_pairs, hm]
          have hfh : full_house hand = false := by simp [full_house, hm]
          simp [category_flags, hpair, htp, h3, h4, hfh, hst, hrf, hsf, hfl]


/-- C1: on every hand of exactly 5 pairwise-distinct cards from the 52-card
domain, exactly one of the ten categories holds: the nine classifier
predicates `royal_flush, straight_flush, four_of_a_kind, full_house, flush,
straight, three_of_a_kind, two_pairs, pair` together with the high-card
fallback (none of the nine truthy) have exactly one truthy member; in
particular no two of the nine predicates are simultaneously truthy. -/
theorem c1_exactly_one_category (hand : List Card) (_hlen : hand.length = 5)
    (hnd : hand.Nodup) :
    ((category_flags hand) ++ [high_card_fallback hand]).count true = 1 :=
  bool_count_ten _ (nine_count_le_one hand hnd)

/-- Witness for C1 at a concrete one-pair hand. -/
theorem c1_exactly_one_category_witness :
    pair_hand.length = 5 ∧ pair_hand.Nodup ∧
      ((category_flags pair_hand) ++ [high_card_fallback pair_hand]).count true = 1 :=
  ⟨by decide, by decide, c1_exactly_one_category pair_hand (by decide) (by decide)⟩

/-- Popping the last element of a non-empty list. -/
theorem pop_last_concat {α : Type} (l : List α) (x : α) : pop_last (l ++ [x]) = .ok (x, l) := by
  simp [pop_last]

/-- Behaviour of the `get_cards` loop: with enough cards it returns the
accumulated pops (the deck suffix, reversed) and the shrunken deck; otherwise
the IndexError from popping an empty list. -/
theorem get_cards_loop_spec : ∀ (n : Nat) (deck acc : List Card),
    (n ≤ deck.length →
      get_cards_loop n deck acc =
        .ok (acc ++ deck.reverse.take n, deck.take (deck.length - n))) ∧
    (deck.length < n → get_cards_loop n deck acc = .error .indexError)
  | 0, deck, acc => by
    constructor
    · intro _
      simp [get_cards_loop]
    · intro h
      omega
  | n + 1, deck, acc => by
    rcases List.eq_nil_or_concat deck with rfl | ⟨l, x, rfl⟩
    · constructor
      · intro h
        simp at h
      · intro _
        simp [get_cards_loop, pop_last]
    · simp only [List.concat_eq_append]
      have ih := get_cards_loop_spec n l (acc ++ [x])
      constructor
      · intro h
        have hn : n ≤ l.length := by
          simp [List.length_append] at h
          omega
        have step : get_cards_loop (n + 1) (l ++ [x]) acc = get_cards_loop n l (acc ++ [x]) := by
          simp [get_cards_loop, pop_last_concat]
        rw [step, ih.1 hn]
        congr 1
        simp only [Prod.mk.injEq]
        constructor
        · rw [List.reverse_concat]
          simp [List.append_assoc]
        · have hlen : (l ++ [x]).length - (n + 1) = l.length - n := by
            simp [List.length_append]
        
          rw [hlen]
          exact (List.take_append_of_le_length (by omega)).symm
      · intro h
        have hn : l.length < n := by
          simp [List.length_append] at h
          omega
        have step : get_cards_loop (n + 1) (l ++ [x]) acc = get_cards_loop n l (acc ++ [x]) := by
          simp [get_cards_loop, pop_last_concat]
        rw [step, ih.2 hn]


/-- C8 (amended): for every deck and every n, when at least n cards remain
`get_cards` removes exactly the last n cards (popping from the right end) and
returns exactly those removed cards; when fewer than n remain it fails with
IndexError (pop from empty list) - there is no DeckExhaustedError in the
program. -/
theorem c8_get_cards_amended (n : Nat) (deck : List Card) :
    (n ≤ deck.length →
      get_cards n deck = .ok (deck.reverse.take n, deck.take (deck.length - n))) ∧
    (deck.length < n → get_cards n deck = .error .indexError) := by
  have h := get_cards_loop_spec n deck []
  simpa [get_cards] using h

/-- Witness for the amended C8 on the concrete three-card deck. -/
theorem c8_get_cards_amended_witness :
    (small_deck.length < 4 ∧ get_cards 4 small_deck = .error .indexError) ∧
      (2 ≤ small_deck.length ∧
        get_cards 2 small_deck = .ok (small_deck.reverse.take 2, small_deck.take 1)) :=
  ⟨⟨by decide, (c8_get_cards_amended 4 small_deck).2 (by decide)⟩,
   ⟨by decide, (c8_get_cards_amended 2 small_deck).1 (by decide)⟩⟩

/-- Counterexample to C8 as stated: dealing from an exhausted deck raises
IndexError, not the DeckExhaustedError the claim names. -/
theorem c8_empty_deck_raises_index_error :
    get_cards 1 ([] : List Card) = .error .indexError ∧
      get_cards 1 ([] : List Card) ≠ .error .deckExhausted := by
  constructor
  · rfl
  · intro h
    simp [get_cards, get_cards_loop, pop_last] at h

/-- C6 (code bug): `royal_flush` does NOT return a boolean on every path: on
any non-royal hand (here the concrete high-card hand 2S 5C 7D 9H JH) its false
branch is the bare expression `False`, so the function returns Python `None` -
not `False` and not any boolean. -/
theorem c6_royal_flush_returns_none :
    royal_flush_py high_card_hand = none ∧ ∀ b : Bool, royal_flush_py high_card_hand ≠ some b := by
  constructor
  · rfl
  · intro b h
    rw [show royal_flush_py high_card_hand = none from rfl] at h
    exact Option.noConfusion h

/-- Counterexample to C7 as stated: `number_to_rank` is not an inverse of
`rank_to_number` on the numeric ranks - the round trip on '10' produces the
int 10, not the string '10'; and `rank_to_number` does not fail on the
out-of-domain input '15', it returns 15. -/
theorem c7_number_to_rank_not_inverse_on_ten :
    rank_to_number_str "10" = .ok 10 ∧ number_to_rank_py 10 = .int 10 ∧
      PyVal.int 10 ≠ PyVal.str "10" ∧ rank_to_number_str "15" = .ok 15 := by
  refine ⟨rfl, rfl, ?_, rfl⟩
  intro h
  exact PyVal.noConfusion h

/-- C7 (amended): `rank_to_number` is total and pure on the 13-rank domain
with values in [2,14]; `number_to_rank` inverts it on the four face ranks
A/K/Q/J (values 11..14) but returns the bare integer for the numeric ranks
2..10; outside the domain no InvalidRankError exists: `rank_to_number`
succeeds on numeric strings such as '15' and raises ValueError (from
`int(...)`) on non-numeric strings such as 'QQ'. -/
theorem c7_rank_conversions_amended :
    (∀ r : Rank,
      rank_to_number_str r.toStr = .ok (rank_to_number r : Int) ∧
      2 ≤ rank_to_number r ∧ rank_to_number r ≤ 14 ∧
      number_to_rank_py (rank_to_number r : Int) =
        (if 11 ≤ rank_to_number r then .str r.toStr else .int (rank_to_number r : Int))) ∧
    rank_to_number_str "15" = .ok 15 ∧
    rank_to_number_str "QQ" = .error .valueError := by
  refine ⟨?_, rfl, rfl⟩
  decide

/-- C5 (code bug), evaluated at the failing input: in `folded_state` exactly
one player (TUDOR) is non-folded, yet `winner` returns the FOLDED player
ANDREW: the category scan only pools non-folded players, but the high-card
fallback `highcard_showdown` iterates over all of `self.players` and ANDREW
holds the highest hole card.  The claim says the sole non-folded player wins
unconditionally; the code has no such rule. -/
theorem c5_folded_player_wins_at_failing_input :
    (folded_state.players.filter fun p => !(folded_state.table p).folded) = ["TUDOR"] ∧
      (folded_state.table "ANDREW").folded = true ∧
      winner folded_state = .playerName "ANDREW" :=
  ⟨by decide, by decide, by decide⟩

/-- Counterexample to C4 as stated: in `hc_state` no combination of any
non-folded player satisfies any predicate, P1 and P2 share the same highest
hole rank (ace) and P2's kicker (king) beats P1's (two), so the claim requires
P2 to win; the code's `np.argmax` returns the first maximum, P1, never
consulting kickers unless ALL highs are equal. -/
theorem c4_argmax_ignores_kicker :
    (∀ pfc ∈ showdown_cards hc_state, ∀ p ∈ poker_hands, p pfc.five_cards = false) ∧
      get_high_card (hc_state.table "P1").cards = get_high_card (hc_state.table "P2").cards ∧
      ((card_nums (hc_state.table "P2").cards).min?.getD 0) >
        ((card_nums (hc_state.table "P1").cards).min?.getD 0) ∧
      winner hc_state = .playerName "P1" :=
  ⟨by decide, by decide, by decide, by decide⟩


theorem perm_pair_cases {α : Type} {a b : α} {l : List α} (h : List.Perm [a, b] l) :
    l = [a, b] ∨ l = [b, a] := by
  have hlen : l.length = 2 := by
    have h2 := h.length_eq
    simp only [List.length_cons, List.length_singleton, List.length_nil] at h2
    omega
  obtain ⟨c, d, rfl⟩ := List.length_eq_two.mp hlen
  have hc : c = a ∨ c = b := by
    have hx : c ∈ [a, b] := h.mem_iff.mpr (by simp)
    simpa using hx
  have hd : d = a ∨ d = b := by
    have hx : d ∈ [a, b] := h.mem_iff.mpr (by simp)
    simpa using hx
  have ha : a = c ∨ a = d := by
    have hx : a ∈ [c, d] := h.mem_iff.mp (by simp)
    simpa using hx
  have hb : b = c ∨ b = d := by
    have hx : b ∈ [c, d] := h.mem_iff.mp (by simp)
    simpa using hx
  rcases hc with rfl | rfl
  · rcases hd with rfl | rfl
    · rcases hb with rfl | rfl <;> exact Or.inl rfl
    · exact Or.inl rfl
  · rcases hd with rfl | rfl
    · exact Or.inr rfl
    · rcases ha with rfl | rfl <;> exact Or.inl rfl

theorem one_suit_perm {h₁ h₂ : List Card} (hp : h₁.Perm h₂) : one_suit h₁ = one_suit h₂ := by
  unfold one_suit
  rw [((hp.map Card.suit).dedup).length_eq]

theorem card_nums_perm {h₁ h₂ : List Card} (hp : h₁.Perm h₂) :
    (card_nums h₁).Perm (card_nums h₂) := hp.map _

theorem insertionSort_eq_of_perm {l₁ l₂ : List Nat} (hp : l₁.Perm l₂) :
    l₁.insertionSort (· ≤ ·) = l₂.insertionSort (· ≤ ·) := by
  refine List.eq_of_perm_of_sorted ?_ (List.sorted_insertionSort _ _) (List.sorted_insertionSort _ _)
  exact ((List.perm_insertionSort _ l₁).trans hp).trans (List.perm_insertionSort _ l₂).symm

theorem high_straight_perm {h₁ h₂ : List Card} (hp : h₁.Perm h₂) :
    is_high_ace_straight h₁ = is_high_ace_straight h₂ := by
  unfold is_high_ace_straight
  rw [insertionSort_eq_of_perm (card_nums_perm hp)]

theorem low_straight_perm {h₁ h₂ : List Card} (hp : h₁.Perm h₂) :
    is_low_ace_straight h₁ = is_low_ace_straight h₂ := by
  simp only [is_low_ace_straight]
  rw [insertionSort_eq_of_perm ((card_nums_perm hp).map _)]

theorem min_perm {l₁ l₂ : List Nat} (hp : l₁.Perm l₂) : l₁.min? = l₂.min? := by
  cases hm : l₁.min? with
  | none =>
    have he : l₁ = [] := List.min?_eq_none_iff.mp hm
    subst he
    rw [← hp.nil_eq]
    rfl
  | some a =>
    obtain ⟨hmem, hle⟩ := List.min?_eq_some_iff'.mp hm
    exact (List.min?_eq_some_iff'.mpr
      ⟨hp.mem_iff.mp hmem, fun b hb => hle b (hp.mem_iff.mpr hb)⟩).symm

theorem royal_flush_perm {h₁ h₂ : List Card} (hp : h₁.Perm h₂) :
    royal_flush h₁ = royal_flush h₂ := by
  unfold royal_flush royal_flush_py
  rw [min_perm (card_nums_perm hp), one_suit_perm hp]

theorem straight_flush_perm {h₁ h₂ : List Card} (hp : h₁.Perm h₂) :
    straight_flush h₁ = straight_flush h₂ := by
  unfold straight_flush
  rw [royal_flush_perm hp, high_straight_perm hp, low_straight_perm hp, one_suit_perm hp]

theorem flush_perm {h₁ h₂ : List Card} (hp : h₁.Perm h₂) : flush h₁ = flush h₂ := by
  unfold flush
  rw [royal_flush_perm hp, straight_flush_perm hp, one_suit_perm hp]

theorem straight_perm {h₁ h₂ : List Card} (hp : h₁.Perm h₂) : straight h₁ = straight h₂ := by
  unfold straight
  rw [royal_flush_perm hp, one_suit_perm hp, high_straight_perm hp, low_straight_perm hp]

theorem matched_perm {h₁ h₂ : List Card} (hp : h₁.Perm h₂) :
    (get_matched_cards h₁).Perm (get_matched_cards h₂) := by
  have hnum := card_nums_perm hp
  have hcount := hnum.count_eq
  unfold get_matched_cards
  apply List.Perm.dedup
  have hfilter : ((card_nums h₁).filter fun r => (card_nums h₁).count r > 1).Perm
      ((card_nums h₂).filter fun r => (card_nums h₂).count r > 1) := by
    have e : ((card_nums h₂).filter fun r => (card_nums h₁).count r > 1)
        = (card_nums h₂).filter fun r => (card_nums h₂).count r > 1 :=
      List.filter_congr (fun x _ => by rw [hcount x])
    exact e ▸ hnum.filter _
  have e2 : (((card_nums h₂).filter fun r => (card_nums h₂).count r > 1).map
        fun r => ((card_nums h₁).count r, r))
      = ((card_nums h₂).filter fun r => (card_nums h₂).count r > 1).map
        fun r => ((card_nums h₂).count r, r) :=
    List.map_congr_left (fun x _ => by rw [hcount x])
  exact e2 ▸ hfilter.map _

theorem matched2_perm {h₁ h₂ : List Card} (hp : h₁.Perm h₂) :
    (get_matched_cards2 h₁).Perm (get_matched_cards2 h₂) := by
  have hnum := card_nums_perm hp
  have hcount := hnum.count_eq
  unfold get_matched_cards2
  apply List.Perm.dedup
  have e2 : ((card_nums h₂).map fun r => ((card_nums h₁).count r, r))
      = (card_nums h₂).map fun r => ((card_nums h₂).count r, r) :=
    List.map_congr_left (fun x _ => by rw [hcount x])
  exact e2 ▸ hnum.map _

theorem pair_false_of_len {hand : List Card}
    (hne : (get_matched_cards hand).length ≠ 1) : pair hand = false := by
  have hb : ((get_matched_cards hand).length != 1) = true := by simpa using hne
  simp [pair, hb]

theorem three_false_of_len {hand : List Card}
    (hne : (get_matched_cards hand).length ≠ 1) : three_of_a_kind hand = false := by
  have hb : ((get_matched_cards hand).length != 1) = true := by simpa using hne
  simp [three_of_a_kind, hb]

theorem four_false_of_len {hand : List Card}
    (hne : (get_matched_cards hand).length ≠ 1) : four_of_a_kind hand = false := by
  have hb : ((get_matched_cards hand).length != 1) = true := by simpa using hne
  simp [four_of_a_kind, hb]

theorem two_pairs_false_of_len {hand : List Card}
    (hne : (get_matched_cards hand).length ≠ 2) : two_pairs hand = false := by
  have hb : ((get_matched_cards hand).length != 2) = true := by simpa using hne
  simp [two_pairs, hb]

theorem full_house_false_of_len {hand : List Card}
    (hne : (get_matched_cards hand).length ≠ 2) : full_house hand = false := by
  have hb : ((get_matched_cards hand).length != 2) = true := by simpa using hne
  simp [full_house, hb]

theorem pair_perm {h₁ h₂ : List Card} (hp : h₁.Perm h₂) : pair h₁ = pair h₂ := by
  have hm := matched_perm hp
  have hfl := flush_perm hp
  by_cases hl : (get_matched_cards h₁).length = 1
  · obtain ⟨a, ha⟩ := List.length_eq_one.mp hl
    rw [ha] at hm
    have ha2 : get_matched_cards h₂ = [a] := hm.symm.eq_singleton
    simp [pair, ha, ha2, hfl]
  · have hl2 : (get_matched_cards h₂).length ≠ 1 := by rw [← hm.length_eq]; exact hl
    rw [pair_false_of_len hl, pair_false_of_len hl2]

theorem three_perm {h₁ h₂ : List Card} (hp : h₁.Perm h₂) :
    three_of_a_kind h₁ = three_of_a_kind h₂ := by
  have hm := matched_perm hp
  have hfl := flush_perm hp
  by_cases hl : (get_matched_cards h₁).length = 1
  · obtain ⟨a, ha⟩ := List.length_eq_one.mp hl
    rw [ha] at hm
    have ha2 : get_matched_cards h₂ = [a] := hm.symm.eq_singleton
    simp [three_of_a_kind, ha, ha2, hfl]
  · have hl2 : (get_matched_cards h₂).length ≠ 1 := by rw [← hm.length_eq]; exact hl
    rw [three_false_of_len hl, three_false_of_len hl2]

theorem four_perm {h₁ h₂ : List Card} (hp : h₁.Perm h₂) :
    four_of_a_kind h₁ = four_of_a_kind h₂ := by
  have hm := matched_perm hp
  have hfl := flush_perm hp
  by_cases hl : (get_matched_cards h₁).length = 1
  · obtain ⟨a, ha⟩ := List.length_eq_one.mp hl
    rw [ha] at hm
    have ha2 : get_matched_cards h₂ = [a] := hm.symm.eq_singleton
    simp [four_of_a_kind, ha, ha2, hfl]
  · have hl2 : (get_matched_cards h₂).length ≠ 1 := by rw [← hm.length_eq]; exact hl
    rw [four_false_of_len hl, four_false_of_len hl2]

theorem two_pairs_perm {h₁ h₂ : List Card} (hp : h₁.Perm h₂) :
    two_pairs h₁ = two_pairs h₂ := by
  have hm := matched_perm hp
  have hfl := flush_perm hp
  by_cases hl : (get_matched_cards h₁).length = 2
  · obtain ⟨a, b, ha⟩ := List.length_eq_two.mp hl
    rw [ha] at hm
    rcases perm_pair_cases hm with ha2 | ha2 <;>
      simp [two_pairs, ha, ha2, hfl, Bool.and_comm]
  · have hl2 : (get_matched_cards h₂).length ≠ 2 := by rw [← hm.length_eq]; exact hl
    rw [two_pairs_false_of_len hl, two_pairs_false_of_len hl2]

theorem full_house_perm {h₁ h₂ : List Card} (hp : h₁.Perm h₂) :
    full_house h₁ = full_house h₂ := by
  have hm := matched_perm hp
  by_cases hl : (get_matched_cards h₁).length = 2
  · obtain ⟨a, b, ha⟩ := List.length_eq_two.mp hl
    rw [ha] at hm
    rcases perm_pair_cases hm with ha2 | ha2
    · simp [full_house, ha, ha2, pair_perm hp, three_perm hp]
    · simp [full_house, ha, ha2, pair_perm hp, three_perm hp, List.filter_cons]
      by_cases h3a : a.1 = 3 <;> by_cases h3b : b.1 = 3 <;> simp [h3a, h3b]
  · have hl2 : (get_matched_cards h₂).length ≠ 2 := by rw [← hm.length_eq]; exact hl
    rw [full_house_false_of_len hl, full_house_false_of_len hl2]


/-- C9: every classifier predicate is invariant under permutation of the
input hand. -/
theorem c9_classifiers_perm_invariant (h₁ h₂ : List Card) (hp : h₁.Perm h₂) :
    pair h₁ = pair h₂ ∧ two_pairs h₁ = two_pairs h₂ ∧
    three_of_a_kind h₁ = three_of_a_kind h₂ ∧ four_of_a_kind h₁ = four_of_a_kind h₂ ∧
    flush h₁ = flush h₂ ∧ straight h₁ = straight h₂ ∧
    straight_flush h₁ = straight_flush h₂ ∧ full_house h₁ = full_house h₂ ∧
    royal_flush h₁ = royal_flush h₂ :=
  ⟨pair_perm hp, two_pairs_perm hp, three_perm hp, four_perm hp, flush_perm hp,
   straight_perm hp, straight_flush_perm hp, full_house_perm hp, royal_flush_perm hp⟩

/-- Witness for C9 on a concrete hand and its reversal. -/
theorem c9_classifiers_perm_invariant_witness :
    pair_hand.Perm pair_hand.reverse ∧
      (pair pair_hand = pair pair_hand.reverse ∧
       two_pairs pair_hand = two_pairs pair_hand.reverse ∧
       three_of_a_kind pair_hand = three_of_a_kind pair_hand.reverse ∧
       four_of_a_kind pair_hand = four_of_a_kind pair_hand.reverse ∧
       flush pair_hand = flush pair_hand.reverse ∧
       straight pair_hand = straight pair_hand.reverse ∧
       straight_flush pair_hand = straight_flush pair_hand.reverse ∧
       full_house pair_hand = full_house pair_hand.reverse ∧
       royal_flush pair_hand = royal_flush pair_hand.reverse) :=
  ⟨by decide, c9_classifiers_perm_invariant _ _ (by decide)⟩

/-- C10: under the deck invariants (no duplicate cards, deck disjoint from
the board and from every player's cards) and enough cards, `deal_board` burns
one card and deals: with flop=true the deck shrinks by exactly 4 and the board
grows by exactly 3 (flop=false: 2 and 1); the burned card (the last card of
the deck) ends up neither on the board nor in any player's hand; and no
attribute other than `deck` and `community_cards` changes. -/
theorem c10_deal_board_effects (s : GameState) (flop : Bool)
    (hlen : (if flop then 4 else 2) ≤ s.deck.length)
    (hnd : s.deck.Nodup)
    (hcomm : ∀ c ∈ s.deck, c ∉ s.community_cards)
    (hplay : ∀ c ∈ s.deck, ∀ p ∈ s.players, c ∉ (s.table p).cards) :
    ∃ s2, deal_board s flop = .ok s2 ∧
      s2.deck.length + (if flop then 4 else 2) = s.deck.length ∧
      s2.community_cards.length = s.community_cards.length + (if flop then 3 else 1) ∧
      (∀ b, s.deck.getLast? = some b →
        b ∉ s2.community_cards ∧ ∀ p ∈ s2.players, b ∉ (s2.table p).cards) ∧
      s2.players = s.players ∧ s2.buy_in = s.buy_in ∧ s2.table = s.table ∧
      s2.big_blind = s.big_blind ∧ s2.small_blind = s.small_blind ∧
      s2.pot = s.pot ∧ s2.hands_played = s.hands_played ∧
      s2.small_blind_player = s.small_blind_player ∧
      s2.big_blind_player = s.big_blind_player := by
  have h42 : (if flop then 4 else 2) = (if flop then 3 else 1) + 1 := by
    cases flop <;> rfl
  rcases List.eq_nil_or_concat s.deck with hdeck | ⟨l, x, hdeck⟩
  · rw [hdeck, h42] at hlen
    simp at hlen
  · simp only [List.concat_eq_append] at hdeck
    rw [hdeck] at hnd
    have hlen2 : (if flop then 3 else 1) + 1 ≤ l.length + 1 := by
      rw [hdeck, h42, List.length_append, List.length_singleton] at hlen
      exact hlen
    have hk : (if flop then 3 else 1) ≤ l.length := by omega
    have hget := (get_cards_loop_spec (if flop then 3 else 1) l []).1 hk
    have hx_not_l : x ∉ l := by
      rw [List.nodup_append] at hnd
      intro hmem
      exact hnd.2.2 hmem (by simp)
    refine ⟨{ s with
        deck := l.take (l.length - (if flop then 3 else 1)),
        community_cards := s.community_cards ++ l.reverse.take (if flop then 3 else 1) },
      ?_, ?_, ?_, ?_, rfl, rfl, rfl, rfl, rfl, rfl, rfl, rfl, rfl⟩
    · unfold deal_board
      rw [hdeck, pop_last_concat]
      simp [get_cards, hget]
    · rw [hdeck, h42, List.length_append, List.length_singleton]
      simp only [List.length_take]
      omega
    · simp only [List.length_append, List.length_take, List.length_reverse]
      omega
    · intro b hb
      rw [hdeck, List.getLast?_concat] at hb
      have hxb : x = b := by injection hb
      subst hxb
      constructor
      · intro hmem
        rcases List.mem_append.mp hmem with hin | hin
        · exact hcomm x (by rw [hdeck]; exact List.mem_append_right _ (by simp)) hin
        · have hrev : x ∈ l.reverse := List.mem_of_mem_take hin
          exact hx_not_l (List.mem_reverse.mp hrev)
      · intro p hp hmem
        exact hplay x (by rw [hdeck]; exact List.mem_append_right _ (by simp)) p hp hmem


/-- Witness for C10 at the concrete six-card-deck state, flop deal. -/
theorem c10_deal_board_effects_witness :
    ∃ s2, deal_board deal_state true = .ok s2 ∧
      s2.deck.length + (if true then 4 else 2) = deal_state.deck.length ∧
      s2.community_cards.length = deal_state.community_cards.length + (if true then 3 else 1) ∧
      (∀ b, deal_state.deck.getLast? = some b →
        b ∉ s2.community_cards ∧ ∀ p ∈ s2.players, b ∉ (s2.table p).cards) ∧
      s2.players = deal_state.players ∧ s2.buy_in = deal_state.buy_in ∧
      s2.table = deal_state.table ∧
      s2.big_blind = deal_state.big_blind ∧ s2.small_blind = deal_state.small_blind ∧
      s2.pot = deal_state.pot ∧ s2.hands_played = deal_state.hands_played ∧
      s2.small_blind_player = deal_state.small_blind_player ∧
      s2.big_blind_player = deal_state.big_blind_player :=
  c10_deal_board_effects deal_state true (by decide) (by decide) (by decide) (by decide)

/-- The category scan of `winner` falls through when no pooled combination
satisfies any predicate. -/
theorem winner_loop_none (possible : List PlayerFiveCards) :
    ∀ preds : List (List Card → Bool),
      (∀ pfc ∈ possible, ∀ p ∈ preds, p pfc.five_cards = false) →
      winner_loop possible preds = none
  | [], _ => rfl
  | p :: rest, h => by
    have hf : possible.filter (fun pfc => p pfc.five_cards) = [] :=
      List.filter_eq_nil_iff.mpr fun pfc hm => by
        rw [h pfc hm p (by simp)]
        simp
    have ih := winner_loop_none possible rest fun pfc hm q hq => h pfc hm q (by simp [hq])
    simp [winner_loop, hf, ih]

/-- A non-empty list whose elements are all `a` dedups to `[a]`. -/
theorem dedup_eq_singleton_of_all_eq {α : Type} [DecidableEq α] :
    ∀ (l : List α) (a : α), l ≠ [] → (∀ x ∈ l, x = a) → l.dedup = [a]
  | [], _, h, _ => absurd rfl h
  | [x], a, _, hall => by
    have : x = a := hall x (by simp)
    simp [List.dedup, this]
  | x :: y :: t, a, _, hall => by
    have hx : x = a := hall x (by simp)
    have ih : (y :: t).dedup = [a] :=
      dedup_eq_singleton_of_all_eq (y :: t) a (by simp) fun z hz => hall z (by simp [List.mem_cons] at hz ⊢; tauto)
    have hmem : x ∈ y :: t := by
      have hy : y = a := hall y (by simp)
      rw [hx, hy]
      simp
    rw [List.dedup_cons_of_mem hmem, ih]

/-- `len(set(l)) == 1` is the same as all entries being equal. -/
theorem all_equal_iff_dedup_length (l : List Nat) (hne : l ≠ []) :
    all_equal l = true ↔ l.dedup.length = 1 := by
  constructor
  · intro h
    have hall : ∀ x ∈ l, x = l.headD 0 := by
      intro x hx
      have := List.all_eq_true.mp h x hx
      simpa using this
    rw [dedup_eq_singleton_of_all_eq l (l.headD 0) hne hall]
    rfl
  · intro h
    refine List.all_eq_true.mpr fun x hx => ?_
    have heq := eq_of_dedup_length_eq_one h
    have hhead : l.headD 0 ∈ l := by
      rcases l with _ | ⟨a, t⟩
      · exact absurd rfl hne
      · simp
    simpa using heq x hx _ hhead

/-- `npmax` agrees with `List.max?` (with default 0). -/
theorem npmax_eq_max (l : List Nat) : npmax l = (l.max?).getD 0 := by
  cases l <;> rfl

/-- The maximum of a non-empty list is attained. -/
theorem npmax_mem (l : List Nat) (hne : l ≠ []) : npmax l ∈ l := by
  rw [npmax_eq_max]
  cases hm : l.max? with
  | none => exact absurd (List.max?_eq_none_iff.mp hm) hne
  | some a =>
    simpa using List.max?_mem (fun x y => max_choice x y) hm

/-- Scanning positions for the first occurrence of a present value is
`indexOf`: the bridge between `np.argmax` and the spec-side "earliest player
attaining the maximum". -/
theorem find_range_eq_indexOf :
    ∀ (l : List Nat) (v : Nat), v ∈ l →
      ((List.range l.length).find? fun i => l.getD i 0 == v) = some (l.indexOf v)
  | [], v, h => by simp at h
  | a :: t, v, h => by
    by_cases hav : a = v
    · subst hav
      simp [List.range_succ_eq_map, List.find?_cons, List.indexOf_cons_self]
    · have hvt : v ∈ t := by
        rcases List.mem_cons.mp h with h1 | h1
        · exact absurd h1.symm hav
        · exact h1
      have ih := find_range_eq_indexOf t v hvt
      rw [List.length_cons, List.range_succ_eq_map, List.find?_cons]
      have hpred : ((a :: t).getD 0 0 == v) = false := by
        simpa using hav
      rw [hpred]
      rw [List.find?_map]
      have hcomp : ((fun i => (a :: t).getD i 0 == v) ∘ Nat.succ) = fun i => t.getD i 0 == v := by
        funext i
        simp [Function.comp]
      rw [hcomp, ih]
      simp [List.indexOf_cons_ne _ hav]

/-- `first_max_player` picks exactly the `np.argmax` player. -/
theorem first_max_player_eq (players : List String) (f : String → Nat)
    (hne : players ≠ []) :
    first_max_player players (players.map f) =
      .playerName (players.getD (np_argmax (players.map f)) "") := by
  unfold first_max_player np_argmax
  have hlen : players.length = (players.map f).length := (List.length_map _ _).symm
  rw [hlen, find_range_eq_indexOf (players.map f) (npmax (players.map f))
    (npmax_mem _ (by simpa using hne))]


/-- Boolean form of the branch test of `highcard_showdown`. -/
theorem dedup_bne_eq_not_all_equal (l : List Nat) (hne : l ≠ []) :
    (l.dedup.length != 1) = !(all_equal l) := by
  rcases hae : all_equal l with _ | _
  · have hd : l.dedup.length ≠ 1 := by
      intro h
      have := (all_equal_iff_dedup_length l hne).mpr h
      rw [hae] at this
      exact Bool.noConfusion this
    simpa [bne_iff_ne] using hd
  · have h1 := (all_equal_iff_dedup_length l hne).mp hae
    simp [h1]

/-- C4 (amended): when no five-card combination of any non-folded player
satisfies any of the nine predicates, `winner` resolves the showdown from the
hole cards of ALL players (folded included): the earliest-seated player
attaining the maximal highest hole rank wins whenever the highest ranks are
not all equal (kickers are consulted only when every player's highest rank is
equal, not merely the leaders'); if all highest ranks are equal, the earliest
player attaining the maximal lower hole card wins; if those are also all
equal, the result is a tie. -/
theorem c4_highcard_fallback_amended (s : GameState)
    (hplayers : s.players ≠ [])
    (hnone : ∀ pfc ∈ showdown_cards s, ∀ p ∈ poker_hands, p pfc.five_cards = false) :
    winner s = highcard_spec s := by
  have h1 : winner s = highcard_showdown s := by
    unfold winner
    rw [winner_loop_none (showdown_cards s) poker_hands hnone]
    rfl
  rw [h1]
  simp only [highcard_showdown, highcard_spec]
  have hhne : (s.players.map fun p => get_high_card (s.table p).cards) ≠ [] := by
    simpa using hplayers
  have hlne : (s.players.map fun p => ((card_nums (s.table p).cards).min?).getD 0) ≠ [] := by
    simpa using hplayers
  rw [dedup_bne_eq_not_all_equal _ hhne, dedup_bne_eq_not_all_equal _ hlne]
  rw [first_max_player_eq s.players _ hplayers, first_max_player_eq s.players _ hplayers]


/-- Witness for the amended C4 at the three-player high-card state. -/
theorem c4_highcard_fallback_amended_witness :
    hc_state.players ≠ [] ∧
      (∀ pfc ∈ showdown_cards hc_state, ∀ p ∈ poker_hands, p pfc.five_cards = false) ∧
      winner hc_state = highcard_spec hc_state :=
  ⟨by decide, by decide, c4_highcard_fallback_amended hc_state (by decide) (by decide)⟩


/-- `dedup` commutes with mapping an injective function. -/
theorem dedup_map_of_injective {α β : Type} [DecidableEq α] [DecidableEq β]
    {f : α → β} (hf : Function.Injective f) :
    ∀ l : List α, (l.map f).dedup = l.dedup.map f
  | [] => rfl
  | a :: t => by
    by_cases hmem : a ∈ t
    · rw [List.map_cons, List.dedup_cons_of_mem (List.mem_map_of_mem f hmem),
        List.dedup_cons_of_mem hmem, dedup_map_of_injective hf t]
    · have hnm : f a ∉ t.map f := by
        intro hc
        obtain ⟨b, hb, hfb⟩ := List.mem_map.mp hc
        exact hmem (hf hfb ▸ hb)
      rw [List.map_cons, List.dedup_cons_of_not_mem hnm,
        List.dedup_cons_of_not_mem hmem, List.map_cons, dedup_map_of_injective hf t]

/-- `dedup` commutes with `filter`. -/
theorem dedup_filter_comm {α : Type} [DecidableEq α] (p : α → Bool) :
    ∀ l : List α, (l.filter p).dedup = l.dedup.filter p
  | [] => rfl
  | a :: t => by
    by_cases hmem : a ∈ t
    · rw [List.dedup_cons_of_mem hmem]
      by_cases hp : p a
      · rw [List.filter_cons_of_pos hp,
          List.dedup_cons_of_mem (List.mem_filter.mpr ⟨hmem, hp⟩),
          dedup_filter_comm p t]
      · rw [List.filter_cons_of_neg (by simpa using hp), dedup_filter_comm p t]
    · rw [List.dedup_cons_of_not_mem hmem]
      by_cases hp : p a
      · rw [List.filter_cons_of_pos hp,
          List.dedup_cons_of_not_mem (fun hc => hmem (List.mem_filter.mp hc).1),
          List.filter_cons_of_pos hp, dedup_filter_comm p t]
      · rw [List.filter_cons_of_neg (by simpa using hp),
          List.filter_cons_of_neg (by simpa using hp), dedup_filter_comm p t]

/-- `r ↦ (count r, r)` is injective (second component). -/
theorem rank_pair_injective (nums : List Nat) :
    Function.Injective fun r => (nums.count r, r) := by
  intro a b h
  simpa using congrArg Prod.snd h

/-- `get_matched_cards2` lists `(count r, r)` once per distinct rank value. -/
theorem matched2_repr (hand : List Card) :
    get_matched_cards2 hand =
      (card_nums hand).dedup.map fun r => ((card_nums hand).count r, r) := by
  unfold get_matched_cards2
  exact dedup_map_of_injective (rank_pair_injective (card_nums hand)) (card_nums hand)

/-- `get_matched_cards` lists `(count r, r)` once per distinct rank value of
count at least 2. -/
theorem matched_repr (hand : List Card) :
    get_matched_cards hand =
      ((card_nums hand).dedup.filter fun r => (card_nums hand).count r > 1).map
        fun r => ((card_nums hand).count r, r) := by
  unfold get_matched_cards
  rw [dedup_map_of_injective (rank_pair_injective (card_nums hand)),
    dedup_filter_comm]

/-- The count column is sorted descending. -/
theorem count_column_sorted (hand : List Card) :
    (count_column hand).Sorted (· ≥ ·) := by
  unfold count_column sort_rank_count
  have hs := List.sorted_insertionSort rc_ge (get_matched_cards2 hand)
  rw [List.Sorted, List.pairwise_map]
  exact hs.imp fun hab => by unfold rc_ge at hab; omega

/-- Structure of the count column of a 5-card hand: every matched entry has
count at least 2, the matched counts sum to at most 5, and the column is (up
to order) the matched counts padded with 1s up to total 5. -/
theorem count_column_struct (hand : List Card) (hlen : hand.length = 5) :
    (∀ e ∈ get_matched_cards hand, 2 ≤ e.1) ∧
    ((get_matched_cards hand).map Prod.fst).sum ≤ 5 ∧
    (count_column hand).Perm
      (((get_matched_cards hand).map Prod.fst) ++
        List.replicate (5 - ((get_matched_cards hand).map Prod.fst).sum) 1) := by
  set nums := card_nums hand with hnums
  have hnl : nums.length = 5 := by simp [hnums, card_nums, hlen]
  set cnt : Nat → Nat := fun r => nums.count r with hcnt
  -- matched entries have counts at least 2
  have hent : ∀ e ∈ get_matched_cards hand, 2 ≤ e.1 := by
    intro e he
    rw [matched_repr] at he
    obtain ⟨r, hr, hfr⟩ := List.mem_map.mp he
    have := (List.mem_filter.mp hr).2
    rw [← hfr]
    simp only [decide_eq_true_eq] at this
    omega
  -- the filtered split of dedup
  have hsplit : ((nums.dedup.filter fun r => cnt r > 1) ++
      (nums.dedup.filter fun r => !(cnt r > 1 : Bool))).Perm nums.dedup :=
    List.filter_append_perm _ _
  -- counts on the complement are all 1
  have hones : ∀ r ∈ nums.dedup.filter (fun r => !(cnt r > 1 : Bool)), cnt r = 1 := by
    intro r hr
    obtain ⟨hrd, hrp⟩ := List.mem_filter.mp hr
    have hmem : r ∈ nums := List.mem_dedup.mp hrd
    have h1 : 0 < cnt r := List.count_pos_iff.mpr hmem
    simp only [Bool.not_eq_true', decide_eq_false_iff_not] at hrp
    omega
  -- map fst of matched equals map cnt of the filtered dedup
  have hmfst : (get_matched_cards hand).map Prod.fst =
      (nums.dedup.filter fun r => cnt r > 1).map cnt := by
    rw [matched_repr]
    rw [List.map_map]
    rfl
  -- total count sum is the hand length
  have hsum : (nums.dedup.map cnt).sum = 5 := by
    rw [hcnt]
    rw [List.sum_map_count_dedup_eq_length]
    exact hnl
  -- count_column is a permutation of map cnt over dedup
  have hccperm : (count_column hand).Perm (nums.dedup.map cnt) := by
    have h1 : (count_column hand).Perm ((get_matched_cards2 hand).map Prod.fst) := by
      unfold count_column sort_rank_count
      exact (List.perm_insertionSort _ _).map _
    rw [matched2_repr, List.map_map] at h1
    exact h1
  -- assemble
  have hperm2 : (nums.dedup.map cnt).Perm
      (((get_matched_cards hand).map Prod.fst) ++
        (nums.dedup.filter fun r => !(cnt r > 1 : Bool)).map cnt) := by
    rw [hmfst, ← List.map_append]
    exact (hsplit.map cnt).symm
  have hrepl : (nums.dedup.filter fun r => !(cnt r > 1 : Bool)).map cnt =
      List.replicate ((nums.dedup.filter fun r => !(cnt r > 1 : Bool)).length) 1 := by
    rw [List.eq_replicate_iff]
    refine ⟨by simp, ?_⟩
    intro b hb
    obtain ⟨r, hr, hfr⟩ := List.mem_map.mp hb
    rw [← hfr]
    exact hones r hr
  have hlen2 : ((get_matched_cards hand).map Prod.fst).sum +
      (nums.dedup.filter fun r => !(cnt r > 1 : Bool)).length = 5 := by
    have hs2 := hperm2.sum_eq
    rw [hsum, List.sum_append, hrepl, List.sum_replicate, smul_eq_mul, mul_one] at hs2
    omega
  refine ⟨hent, by omega, ?_⟩
  refine hccperm.trans (hperm2.trans ?_)
  rw [hrepl]
  have hn : (nums.dedup.filter fun r => !(cnt r > 1 : Bool)).length =
      5 - ((get_matched_cards hand).map Prod.fst).sum := by omega
  rw [hn]


/-- A sorted-descending rearrangement of the count column is the column. -/
theorem count_column_eq_of_sorted (hand : List Card) (L : List Nat)
    (hperm : (count_column hand).Perm L) (hL : L.Sorted (· ≥ ·)) :
    count_column hand = L :=
  List.eq_of_perm_of_sorted hperm (count_column_sorted hand) hL

/-- A truthy `pair` means exactly one matched entry, of count 2. -/
theorem pair_matched {hand : List Card} (hp : pair hand = true) :
    ∃ x : Nat × Nat, get_matched_cards hand = [x] ∧ x.1 = 2 := by
  simp only [pair] at hp
  by_cases hc : ((get_matched_cards hand).length != 1 || flush hand) = true
  · rw [if_pos hc] at hp
    exact Bool.noConfusion hp
  · rw [if_neg hc] at hp
    have hlen : (get_matched_cards hand).length = 1 := by
      simp only [Bool.or_eq_true, bne_iff_ne] at hc
      push_neg at hc
      exact hc.1
    obtain ⟨x, hx⟩ := List.length_eq_one.mp hlen
    refine ⟨x, hx, ?_⟩
    by_cases hd : (((get_matched_cards hand).headD (0, 0)).1 != 2) = true
    · rw [if_pos hd] at hp
      exact Bool.noConfusion hp
    · simp only [hx, List.headD_cons, bne_iff_ne] at hd
      push_neg at hd
      exact hd

/-- A truthy `three_of_a_kind` means exactly one matched entry, of count 3. -/
theorem three_matched {hand : List Card} (hp : three_of_a_kind hand = true) :
    ∃ x : Nat × Nat, get_matched_cards hand = [x] ∧ x.1 = 3 := by
  simp only [three_of_a_kind] at hp
  by_cases hc : ((get_matched_cards hand).length != 1 || flush hand) = true
  · rw [if_pos hc] at hp
    exact Bool.noConfusion hp
  · rw [if_neg hc] at hp
    have hlen : (get_matched_cards hand).length = 1 := by
      simp only [Bool.or_eq_true, bne_iff_ne] at hc
      push_neg at hc
      exact hc.1
    obtain ⟨x, hx⟩ := List.length_eq_one.mp hlen
    refine ⟨x, hx, ?_⟩
    by_cases hd : (((get_matched_cards hand).headD (0, 0)).1 != 3) = true
    · rw [if_pos hd] at hp
      exact Bool.noConfusion hp
    · simp only [hx, List.headD_cons, bne_iff_ne] at hd
      push_neg at hd
      exact hd

/-- A truthy `four_of_a_kind` means exactly one matched entry, of count 4. -/
theorem four_matched {hand : List Card} (hp : four_of_a_kind hand = true) :
    ∃ x : Nat × Nat, get_matched_cards hand = [x] ∧ x.1 = 4 := by
  simp only [four_of_a_kind] at hp
  by_cases hc : ((get_matched_cards hand).length != 1 || flush hand) = true
  · rw [if_pos hc] at hp
    exact Bool.noConfusion hp
  · rw [if_neg hc] at hp
    have hlen : (get_matched_cards hand).length = 1 := by
      simp only [Bool.or_eq_true, bne_iff_ne] at hc
      push_neg at hc
      exact hc.1
    obtain ⟨x, hx⟩ := List.length_eq_one.mp hlen
    refine ⟨x, hx, ?_⟩
    by_cases hd : (((get_matched_cards hand).headD (0, 0)).1 != 4) = true
    · rw [if_pos hd] at hp
      exact Bool.noConfusion hp
    · simp only [hx, List.headD_cons, bne_iff_ne] at hd
      push_neg at hd
      exact hd

/-- A truthy `two_pairs` means exactly two matched entries, both of count 2. -/
theorem two_pairs_matched {hand : List Card} (hp : two_pairs hand = true) :
    ∃ x y : Nat × Nat, get_matched_cards hand = [x, y] ∧ x.1 = 2 ∧ y.1 = 2 := by
  simp only [two_pairs] at hp
  by_cases hc : ((get_matched_cards hand).length != 2 || flush hand) = true
  · rw [if_pos hc] at hp
    exact Bool.noConfusion hp
  · rw [if_neg hc] at hp
    have hlen : (get_matched_cards hand).length = 2 := by
      simp only [Bool.or_eq_true, bne_iff_ne] at hc
      push_neg at hc
      exact hc.1
    obtain ⟨x, y, hx⟩ := List.length_eq_two.mp hlen
    refine ⟨x, y, hx, ?_⟩
    by_cases hd : (((get_matched_cards hand).headD (0, 0)).1 == 2 &&
        ((get_matched_cards hand).getD 1 (0, 0)).1 == 2) = true
    · simp only [hx, List.headD_cons, List.getD, Bool.and_eq_true, beq_iff_eq] at hd
      simpa using hd
    · rw [if_neg hd] at hp
      exact Bool.noConfusion hp

/-- A truthy `full_house` means exactly two matched entries, one of count 3. -/
theorem full_house_matched {hand : List Card} (hp : full_house hand = true) :
    ∃ x y : Nat × Nat, get_matched_cards hand = [x, y] ∧ (x.1 = 3 ∨ y.1 = 3) := by
  simp only [full_house] at hp
  by_cases hc : ((get_matched_cards hand).length != 2) = true
  · rw [if_pos hc] at hp
    exact Bool.noConfusion hp
  · rw [if_neg hc] at hp
    have hlen : (get_matched_cards hand).length = 2 := by
      simpa using hc
    obtain ⟨x, y, hx⟩ := List.length_eq_two.mp hlen
    refine ⟨x, y, hx, ?_⟩
    by_cases hd : (!((get_matched_cards hand).filter fun rc => rc.1 == 3).isEmpty) = true
    · simp only [hx, List.filter_cons, Bool.not_eq_true] at hd
      by_cases h3a : x.1 = 3
      · exact Or.inl h3a
      · by_cases h3b : y.1 = 3
        · exact Or.inr h3b
        · simp [h3a, h3b] at hd
    · rw [if_neg hd] at hp
      -- falls through to pair && three_of_a_kind, which is false at length 2
      have hfalse : pair hand = false := pair_false_of_len (by omega)
      rw [hfalse] at hp
      exact Bool.noConfusion hp

/-- Count column of a hand with a single matched entry of count `c`. -/
theorem shape_single {hand : List Card} (hlen : hand.length = 5) {x : Nat × Nat}
    (hm : get_matched_cards hand = [x]) (c : Nat) (hc : x.1 = c) (h2c : 2 ≤ c) (hc5 : c ≤ 5) :
    count_column hand = c :: List.replicate (5 - c) 1 := by
  obtain ⟨_, _, hperm⟩ := count_column_struct hand hlen
  rw [hm] at hperm
  simp only [List.map_cons, List.map_nil, hc, List.sum_cons, List.sum_nil, Nat.add_zero] at hperm
  refine count_column_eq_of_sorted _ _ (by simpa using hperm) ?_
  rw [List.Sorted, List.pairwise_cons]
  constructor
  · intro b hb
    have : b = 1 := List.eq_of_mem_replicate hb
    omega
  · have hrep : ∀ n, (List.replicate n (1 : Nat)).Sorted (· ≥ ·) := by
      intro n
      induction n with
      | zero => exact List.Pairwise.nil
      | succ k ih =>
        rw [List.replicate_succ]
        refine List.Pairwise.cons ?_ ih
        intro b hb
        have hb1 : b = 1 := List.eq_of_mem_replicate hb
        omega
    exact hrep _

/-- Count column of a 5-card hand with pairwise distinct rank values. -/
theorem shape_nodup_nums {hand : List Card} (hlen : hand.length = 5)
    (hnn : (card_nums hand).Nodup) : count_column hand = [1, 1, 1, 1, 1] := by
  obtain ⟨_, _, hperm⟩ := count_column_struct hand hlen
  rw [matched_nil_of_nodup hnn] at hperm
  simp only [List.map_nil, List.sum_nil, List.nil_append, Nat.sub_zero] at hperm
  refine count_column_eq_of_sorted _ _ (by simpa using hperm) (by decide)


/-- Count column of a one-pair hand. -/
theorem shape_of_pair {hand : List Card} (hlen : hand.length = 5)
    (hp : pair hand = true) : count_column hand = [2, 1, 1, 1] := by
  obtain ⟨x, hm, hx⟩ := pair_matched hp
  exact shape_single hlen hm 2 hx (by omega) (by omega)

/-- Count column of a three-of-a-kind hand. -/
theorem shape_of_three {hand : List Card} (hlen : hand.length = 5)
    (hp : three_of_a_kind hand = true) : count_column hand = [3, 1, 1] := by
  obtain ⟨x, hm, hx⟩ := three_matched hp
  exact shape_single hlen hm 3 hx (by omega) (by omega)

/-- Count column of a four-of-a-kind hand. -/
theorem shape_of_four {hand : List Card} (hlen : hand.length = 5)
    (hp : four_of_a_kind hand = true) : count_column hand = [4, 1] := by
  obtain ⟨x, hm, hx⟩ := four_matched hp
  exact shape_single hlen hm 4 hx (by omega) (by omega)

/-- Count column of a two-pairs hand. -/
theorem shape_of_two_pairs {hand : List Card} (hlen : hand.length = 5)
    (hp : two_pairs hand = true) : count_column hand = [2, 2, 1] := by
  obtain ⟨x, y, hm, hx, hy⟩ := two_pairs_matched hp
  obtain ⟨_, _, hperm⟩ := count_column_struct hand hlen
  rw [hm] at hperm
  simp only [List.map_cons, List.map_nil, hx, hy, List.sum_cons, List.sum_nil,
    Nat.add_zero] at hperm
  exact count_column_eq_of_sorted _ _ (by simpa using hperm) (by decide)

/-- Count column of a full-house hand. -/
theorem shape_of_full_house {hand : List Card} (hlen : hand.length = 5)
    (hp : full_house hand = true) : count_column hand = [3, 2] := by
  obtain ⟨x, y, hm, h3⟩ := full_house_matched hp
  obtain ⟨hent, hsum, hperm⟩ := count_column_struct hand hlen
  rw [hm] at hperm hent hsum
  have hx2 : 2 ≤ x.1 := hent x (by simp)
  have hy2 : 2 ≤ y.1 := hent y (by simp)
  simp only [List.map_cons, List.map_nil, List.sum_cons, List.sum_nil, Nat.add_zero] at hperm hsum
  rcases h3 with h3 | h3
  · have hy3 : y.1 = 2 := by omega
    rw [h3, hy3] at hperm
    exact count_column_eq_of_sorted _ _ (by simpa using hperm) (by decide)
  · have hx3 : x.1 = 2 := by omega
    rw [h3, hx3] at hperm
    have hswap : ([2, 3] : List Nat).Perm [3, 2] := List.Perm.swap _ _ _
    refine count_column_eq_of_sorted _ _ (.trans (by simpa using hperm) hswap) (by decide)

/-- Components forced by a truthy `royal_flush`. -/
theorem royal_flush_parts {hand : List Card} (hp : royal_flush hand = true) :
    ((card_nums hand).min?.getD 0 ≥ 10) ∧ one_suit hand = true := by
  simp only [royal_flush, royal_flush_py] at hp
  by_cases hc : (((card_nums hand).min?.getD 0) ≥ 10 && one_suit hand) = true
  · simpa using hc
  · rw [if_neg hc] at hp
    exact Bool.noConfusion hp

/-- Components forced by a truthy `straight_flush`. -/
theorem straight_flush_parts {hand : List Card} (hp : straight_flush hand = true) :
    (is_high_ace_straight hand || is_low_ace_straight hand) = true ∧ one_suit hand = true := by
  simp only [straight_flush] at hp
  by_cases hc : (!(royal_flush hand) &&
      (is_high_ace_straight hand || is_low_ace_straight hand)) = true
  · rw [if_pos hc] at hp
    simp only [Bool.and_eq_true] at hc
    exact ⟨hc.2, hp⟩
  · rw [if_neg hc] at hp
    exact Bool.noConfusion hp

/-- A truthy `flush` forces `one_suit`. -/
theorem flush_parts {hand : List Card} (hp : flush hand = true) : one_suit hand = true := by
  simp only [flush, Bool.and_eq_true] at hp
  exact hp.1

/-- A truthy `straight` forces a straight condition. -/
theorem straight_parts {hand : List Card} (hp : straight hand = true) :
    (is_high_ace_straight hand || is_low_ace_straight hand) = true := by
  simp only [straight] at hp
  by_cases hc : (royal_flush hand || one_suit hand) = true
  · rw [if_pos hc] at hp
    exact Bool.noConfusion hp
  · rw [if_neg hc] at hp
    exact hp

/-- Either straight condition forces distinct rank values. -/
theorem nodup_nums_of_straights {hand : List Card}
    (h : (is_high_ace_straight hand || is_low_ace_straight hand) = true) :
    (card_nums hand).Nodup := by
  rcases Bool.or_eq_true_iff.mp h with h1 | h1
  · exact nodup_card_nums_of_high h1
  · exact nodup_card_nums_of_low h1

/-- Two 5-card hands of distinct cards satisfying the same classifier
predicate have the same count column. -/
theorem count_column_uniform {p : List Card → Bool} (hp : p ∈ poker_hands)
    {h₁ h₂ : List Card}
    (hl₁ : h₁.length = 5) (hn₁ : h₁.Nodup) (hl₂ : h₂.length = 5) (hn₂ : h₂.Nodup)
    (ht₁ : p h₁ = true) (ht₂ : p h₂ = true) :
    count_column h₁ = count_column h₂ := by
  have hmem := hp
  simp only [poker_hands, List.mem_cons, List.not_mem_nil, or_false] at hmem
  rcases hmem with rfl | rfl | rfl | rfl | rfl | rfl | rfl | rfl | rfl
  · rw [shape_nodup_nums hl₁ (nodup_card_nums_of_one_suit hn₁ (royal_flush_parts ht₁).2),
      shape_nodup_nums hl₂ (nodup_card_nums_of_one_suit hn₂ (royal_flush_parts ht₂).2)]
  · rw [shape_nodup_nums hl₁ (nodup_nums_of_straights (straight_flush_parts ht₁).1),
      shape_nodup_nums hl₂ (nodup_nums_of_straights (straight_flush_parts ht₂).1)]
  · rw [shape_of_four hl₁ ht₁, shape_of_four hl₂ ht₂]
  · rw [shape_of_full_house hl₁ ht₁, shape_of_full_house hl₂ ht₂]
  · rw [shape_nodup_nums hl₁ (nodup_card_nums_of_one_suit hn₁ (flush_parts ht₁)),
      shape_nodup_nums hl₂ (nodup_card_nums_of_one_suit hn₂ (flush_parts ht₂))]
  · rw [shape_nodup_nums hl₁ (nodup_nums_of_straights (straight_parts ht₁)),
      shape_nodup_nums hl₂ (nodup_nums_of_straights (straight_parts ht₂))]
  · rw [shape_of_three hl₁ ht₁, shape_of_three hl₂ ht₂]
  · rw [shape_of_two_pairs hl₁ ht₁, shape_of_two_pairs hl₂ ht₂]
  · rw [shape_of_pair hl₁ ht₁, shape_of_pair hl₂ ht₂]


/-- The spec tiebreaker stops at a unique candidate. -/
theorem tb_spec_go_single (fuel col : Nat) (c : PlayerFiveCards × List (Nat × Nat)) :
    tb_spec_go fuel [c] col = .combo c.1 := by
  cases fuel <;> rfl


/-- The spec tiebreaker ties when columns run out with 2+ candidates. -/
theorem tb_spec_go_zero_two_le (col : Nat) (cands : List (PlayerFiveCards × List (Nat × Nat)))
    (h : 2 ≤ cands.length) : tb_spec_go 0 cands col = .tie := by
  rcases cands with _ | ⟨c1, _ | ⟨c2, cs⟩⟩
  · simp at h
  · simp at h
  · rfl

/-- One filtering step of the spec tiebreaker with 2+ candidates. -/
theorem tb_spec_go_two_le (fuel col : Nat) (cands : List (PlayerFiveCards × List (Nat × Nat)))
    (h : 2 ≤ cands.length) :
    tb_spec_go (fuel + 1) cands col =
      tb_spec_go fuel (cands.filter fun cand =>
        decide (cand.2.getD col (0, 0) =
          lexmax (cands.map fun cand => cand.2.getD col (0, 0)))) (col + 1) := by
  rcases cands with _ | ⟨c1, _ | ⟨c2, cs⟩⟩
  · simp at h
  · simp at h
  · rfl

/-- Two or more surviving columns mean a tie. -/
theorem tb_match_two_le (pf : Nat → PlayerFiveCards) (final : List (Nat × List Nat))
    (h : 2 ≤ final.length) : tb_match pf final = .tie := by
  rcases final with _ | ⟨c1, _ | ⟨c2, cs⟩⟩
  · simp at h
  · simp at h
  · rfl

/-- A single candidate survives its own maximum. -/
theorem tb_filter_singleton (x : Nat × List Nat) (row : Nat) : tb_filter [x] row = [x] := by
  simp [tb_filter, npmax]

/-- A single candidate survives the whole filtering fold. -/
theorem foldl_tb_filter_singleton (x : Nat × List Nat) :
    ∀ rows : List Nat, List.foldl tb_filter [x] rows = [x]
  | [] => rfl
  | r :: rest => by
    rw [List.foldl_cons, tb_filter_singleton, foldl_tb_filter_singleton x rest]

/-- Folding the descending comparison over pairs with equal counts picks the
rank maximum. -/
theorem lexmax_const_fst (k : Nat) :
    ∀ (xs : List (Nat × Nat)) (a : Nat × Nat), a.1 = k → (∀ y ∈ xs, y.1 = k) →
      xs.foldl (fun a b => if rc_ge b a then b else a) a = (k, (xs.map Prod.snd).foldl max a.2)
  | [], a, ha, _ => by
    simp only [List.foldl_nil, List.map_nil]
    exact Prod.ext ha rfl
  | b :: bs, a, ha, hall => by
    have hb : b.1 = k := hall b (by simp)
    have hstep : (if rc_ge b a then b else a) = (k, max a.2 b.2) := by
      by_cases hle : a.2 ≤ b.2
      · rw [if_pos (by unfold rc_ge; omega)]
        rw [max_eq_right hle]
        exact Prod.ext hb rfl
      · rw [if_neg (by unfold rc_ge; omega)]
        rw [max_eq_left (by omega)]
        exact Prod.ext ha rfl
    rw [List.foldl_cons, hstep,
      lexmax_const_fst k bs (k, max a.2 b.2) rfl (fun y hy => hall y (by simp [hy]))]
    simp

/-- Lexicographic maximum over pairs with a common count is the pair of that
count and the rank maximum. -/
theorem lexmax_cons_const (k : Nat) (x : Nat × Nat) (xs : List (Nat × Nat))
    (hx : x.1 = k) (hxs : ∀ y ∈ xs, y.1 = k) :
    lexmax (x :: xs) = (k, npmax (x.2 :: xs.map Prod.snd)) := by
  unfold lexmax npmax
  exact lexmax_const_fst k xs x hx hxs

/-- Entry of a signature at a column, split into count (from the shared
column) and rank. -/
theorem sig_getD {F : List (Nat × Nat)} {K : List Nat} (col : Nat)
    (hK : F.map Prod.fst = K) (hcol : col < K.length) :
    F.getD col (0, 0) = (K.getD col 0, (F.map Prod.snd).getD col 0) := by
  subst hK
  rw [List.getD_eq_getElem _ _ (by simpa using hcol), List.getD_eq_getElem _ _ hcol,
    List.getD_eq_getElem _ _ (by simpa using hcol)]
  simp only [List.getElem_map]

/-- Equality of pairs with equal first components reduces to the second. -/
theorem decide_pair_eq (a x y : Nat) :
    decide (((a, x) : Nat × Nat) = (a, y)) = (x == y) := by
  by_cases h : x = y
  · subst h
    simp
  · simp [Prod.ext_iff, h]

/-- Core refinement: starting from any surviving index set with a shared
count column, the index-tracking rank-only filtering of the source
`tiebreaker` and the early-stopping `(count, rank)` filtering of the spec
agree column by column. -/
theorem tb_core (F : Nat → List (Nat × Nat)) (pf : Nat → PlayerFiveCards) (K : List Nat) :
    ∀ (fuel col : Nat) (S : List Nat), S ≠ [] →
      (∀ i ∈ S, (F i).map Prod.fst = K) →
      col + fuel = K.length →
      tb_match pf (List.foldl tb_filter (S.map fun i => (i, (F i).map Prod.snd))
          (List.range' col fuel))
        = tb_spec_go fuel (S.map fun i => (pf i, F i)) col
  | 0, col, S, hne, hK, hcol => by
    rcases S with _ | ⟨i, _ | ⟨j, t⟩⟩
    · exact absurd rfl hne
    · simp only [List.map_cons, List.map_nil]
      rw [tb_spec_go_single]
      rfl
    · rw [tb_spec_go_zero_two_le _ _ (by simp)]
      rw [tb_match_two_le _ _ (by simp)]
  | fuel + 1, col, S, hne, hK, hcol => by
    rcases S with _ | ⟨i, _ | ⟨j, t⟩⟩
    · exact absurd rfl hne
    · simp only [List.map_cons, List.map_nil]
      rw [foldl_tb_filter_singleton, tb_spec_go_single]
      rfl
    · have hcol_lt : col < K.length := by omega
      have hval : ∀ i2 ∈ i :: j :: t, (F i2).getD col (0, 0) =
          (K.getD col 0, ((F i2).map Prod.snd).getD col 0) :=
        fun i2 hi2 => sig_getD col (hK i2 hi2) hcol_lt
      set v : Nat → Nat := fun i2 => ((F i2).map Prod.snd).getD col 0 with hv
      set m : Nat := npmax ((i :: j :: t).map v) with hm
      have hlex : lexmax (((i :: j :: t).map fun i2 => (pf i2, F i2)).map
          fun cand => cand.2.getD col (0, 0)) = (K.getD col 0, m) := by
        have e1 : (((i :: j :: t).map fun i2 => (pf i2, F i2)).map
            fun cand => cand.2.getD col (0, 0)) =
            (i :: j :: t).map fun i2 => (K.getD col 0, v i2) := by
          rw [List.map_map]
          refine List.map_congr_left fun i2 hi2 => ?_
          exact hval i2 hi2
        rw [e1, List.map_cons]
        rw [lexmax_cons_const (K.getD col 0) _ _ rfl (fun y hy => by
          obtain ⟨i2, hi2, hfy⟩ := List.mem_map.mp hy
          rw [← hfy])]
        congr 1
        simp only [hm, List.map_cons, List.map_map]
        rfl
      set keep : Nat → Bool := fun i2 => v i2 == m with hkeep
      set S2 : List Nat := (i :: j :: t).filter keep with hS2
      have hS2ne : S2 ≠ [] := by
        have hmem : m ∈ (i :: j :: t).map v := npmax_mem _ (by simp)
        obtain ⟨i0, hi0, hvi0⟩ := List.mem_map.mp hmem
        refine List.ne_nil_of_mem (a := i0) ?_
        rw [hS2]
        exact List.mem_filter.mpr ⟨hi0, by simp [hkeep, hvi0]⟩
      have hcode : tb_filter ((i :: j :: t).map fun i2 => (i2, (F i2).map Prod.snd)) col =
          S2.map fun i2 => (i2, (F i2).map Prod.snd) := by
        unfold tb_filter
        have e2 : (((i :: j :: t).map fun i2 => (i2, (F i2).map Prod.snd)).map
            fun c => c.2.getD col 0) = (i :: j :: t).map v := by
          rw [List.map_map]
          rfl
        rw [e2, ← hm, List.filter_map]
        rfl
      have hspec : (((i :: j :: t).map fun i2 => (pf i2, F i2)).filter fun cand =>
            decide (cand.2.getD col (0, 0) =
              lexmax (((i :: j :: t).map fun i2 => (pf i2, F i2)).map
                fun cand => cand.2.getD col (0, 0)))) =
          S2.map fun i2 => (pf i2, F i2) := by
        rw [hlex, List.filter_map, hS2]
        congr 1
        refine List.filter_congr fun i2 hi2 => ?_
        show decide ((F i2).getD col (0, 0) = (K.getD col 0, m)) = keep i2
        rw [hval i2 hi2, decide_pair_eq]
      rw [List.range'_succ, List.foldl_cons, hcode]
      rw [tb_spec_go_two_le _ _ _ (by simp), hspec]
      exact tb_core F pf K fuel (col + 1) S2 hS2ne
        (fun i2 hi2 => hK i2 (List.mem_of_mem_filter (by rw [hS2] at hi2; exact hi2)))
        (by omega)


/-- A map re-indexed through `List.range`. -/
theorem map_eq_range_map {α β : Type} (l : List α) (f : α → β) (d : α) :
    l.map f = (List.range l.length).map fun i => f (l.getD i d) := by
  refine List.ext_getElem (by simp) ?_
  intro i h1 h2
  simp only [List.getElem_map, List.getElem_range]
  rw [List.getD_eq_getElem l d (by simpa using h1)]

/-- C3 (amended): on every non-empty pool of 5-card combinations of pairwise
distinct cards that all satisfy one common classifier predicate (the pool's
best category), the source `tiebreaker` computes exactly the spec's
column-wise filtering: signatures are the `(count, rank)` lists sorted
descending by count then rank, each column retains the candidates attaining
the maximum over the remaining ones, a unique survivor's (player, combination)
pair is returned, and otherwise a bare tie marker (carrying no players) is
returned. -/
theorem c3_tiebreaker_refines_spec (hands : List PlayerFiveCards)
    (hne : hands ≠ [])
    (hcards : ∀ pfc ∈ hands, pfc.five_cards.length = 5 ∧ pfc.five_cards.Nodup)
    (hcat : ∃ p ∈ poker_hands, ∀ pfc ∈ hands, p pfc.five_cards = true) :
    tiebreaker hands = tiebreaker_spec hands := by
  obtain ⟨p, hpmem, hpall⟩ := hcat
  have hhead : hands.headD ⟨"", []⟩ ∈ hands := by
    rcases hands with _ | ⟨h0, t⟩
    · exact absurd rfl hne
    · simp
  have hmemD : ∀ i ∈ List.range hands.length, hands.getD i ⟨"", []⟩ ∈ hands := by
    intro i hi
    rw [List.getD_eq_getElem _ _ (by simpa using hi)]
    exact List.getElem_mem _
  have hK : ∀ i ∈ List.range hands.length,
      (sort_rank_count (hands.getD i ⟨"", []⟩).five_cards).map Prod.fst =
        count_column (hands.headD ⟨"", []⟩).five_cards := by
    intro i hi
    have h1 := hcards _ (hmemD i hi)
    have h2 := hcards _ hhead
    exact count_column_uniform hpmem h1.1 h1.2 h2.1 h2.2 (hpall _ (hmemD i hi)) (hpall _ hhead)
  have hrows : ((hands.map fun h => rank_signature h.five_cards).headD []).length =
      (count_column (hands.headD ⟨"", []⟩).five_cards).length := by
    rcases hands with _ | ⟨h0, t⟩
    · exact absurd rfl hne
    · simp [rank_signature, count_column]
  have hinit : ((List.range hands.length).map fun i =>
        (i, (hands.map fun h => rank_signature h.five_cards).getD i [])) =
      (List.range hands.length).map fun i =>
        (i, (sort_rank_count (hands.getD i ⟨"", []⟩).five_cards).map Prod.snd) := by
    refine List.map_congr_left fun i hi => ?_
    have hi2 : i < hands.length := by simpa using hi
    congr 1
    rw [List.getD_eq_getElem _ _ (by simpa using hi2), List.getElem_map,
      List.getD_eq_getElem _ _ hi2]
    rfl
  have e1 : tiebreaker hands =
      tb_match (fun i => hands.getD i ⟨"", []⟩)
        (List.foldl tb_filter
          ((List.range hands.length).map fun i =>
            (i, (sort_rank_count (hands.getD i ⟨"", []⟩).five_cards).map Prod.snd))
          (List.range' 0 (count_column (hands.headD ⟨"", []⟩).five_cards).length)) := by
    simp only [tiebreaker]
    rw [hinit, hrows,
      List.range_eq_range' (count_column (hands.headD ⟨"", []⟩).five_cards).length]
    rfl
  have e2 : tiebreaker_spec hands =
      tb_spec_go (count_column (hands.headD ⟨"", []⟩).five_cards).length
        ((List.range hands.length).map fun i =>
          (hands.getD i ⟨"", []⟩, sort_rank_count (hands.getD i ⟨"", []⟩).five_cards)) 0 := by
    simp only [tiebreaker_spec]
    rw [map_eq_range_map hands (fun h => (h, sort_rank_count h.five_cards)) ⟨"", []⟩]
    have hl : (sort_rank_count ((hands.headD ⟨"", []⟩).five_cards)).length =
        (count_column (hands.headD ⟨"", []⟩).five_cards).length := by
      simp [count_column]
    rw [hl]
  rw [e1, e2]
  exact tb_core (fun i => sort_rank_count (hands.getD i ⟨"", []⟩).five_cards)
    (fun i => hands.getD i ⟨"", []⟩)
    (count_column (hands.headD ⟨"", []⟩).five_cards)
    (count_column (hands.headD ⟨"", []⟩).five_cards).length 0
    (List.range hands.length)
    (by
      intro hcontra
      have hzero : hands.length = 0 := by simpa using congrArg List.length hcontra
      exact hne (List.length_eq_zero.mp hzero))
    hK
    (by omega)


/-- Counterexample to C3 as stated: the tie report carries NO players — two
pools held by different players (P1, P2 versus P3, P4) produce the very same
result, the bare `'Tie'` string. -/
theorem c3_tie_result_carries_no_players :
    tiebreaker tie_poolA = .tie ∧ tiebreaker tie_poolB = .tie ∧
      tie_poolA.map PlayerFiveCards.player ≠ tie_poolB.map PlayerFiveCards.player :=
  ⟨by decide, by decide, by decide⟩

/-- Witness for the amended C3 at a concrete two-hand one-pair pool. -/
theorem c3_tiebreaker_refines_spec_witness :
    kicker_pool ≠ [] ∧
      (∀ pfc ∈ kicker_pool, pfc.five_cards.length = 5 ∧ pfc.five_cards.Nodup) ∧
      (∀ pfc ∈ kicker_pool, pair pfc.five_cards = true) ∧
      tiebreaker kicker_pool = tiebreaker_spec kicker_pool :=
  ⟨by decide, by decide, by decide,
    c3_tiebreaker_refines_spec kicker_pool (by decide) (by decide)
      ⟨pair, by simp [poker_hands], by decide⟩⟩


end TH
namespace TH

theorem filter_rank_card {h : Finset Card} {M : Multiset Rank} (hm : rmul h = M) (r : Rank) :
    (h.filter fun c => c.rank = r).card = M.count r := by
  rw [← hm]
  unfold rmul
  rw [Multiset.count_map, Finset.card_def, Finset.filter_val]
  congr 1
  exact Multiset.filter_congr fun c _ => eq_comm

theorem image_suit_card (h : Finset Card) (r : Rank) :
    ((h.filter fun c => c.rank = r).image Card.suit).card =
      (h.filter fun c => c.rank = r).card := by
  apply Finset.card_image_of_injOn
  intro c₁ h₁ c₂ h₂ hs
  have hr₁ := (Finset.mem_filter.mp h₁).2
  have hr₂ := (Finset.mem_filter.mp h₂).2
  cases c₁
  cases c₂
  simp_all

theorem jf_filter_eq (f : (r : Rank) → r ∈ (Finset.univ : Finset Rank) → Finset Suit) (r : Rank) :
    (((Finset.univ : Finset Card).filter fun c => c.suit ∈ f c.rank (Finset.mem_univ _)).filter
        fun c => c.rank = r) =
      (f r (Finset.mem_univ r)).image fun s => (⟨r, s⟩ : Card) := by
  ext c
  simp only [Finset.mem_filter, Finset.mem_univ, true_and, Finset.mem_image]
  constructor
  · rintro ⟨hs, hr⟩
    subst hr
    exact ⟨c.suit, hs, by cases c; rfl⟩
  · rintro ⟨s, hs, rfl⟩
    exact ⟨hs, rfl⟩

theorem fiber_card (M : Multiset Rank) :
    (rank_fiber M).card = Finset.prod Finset.univ fun r => Nat.choose 4 (M.count r) := by
  classical
  have hpi : ((Finset.univ : Finset Rank).pi fun r =>
      (Finset.univ : Finset Suit).powersetCard (M.count r)).card =
      Finset.prod Finset.univ fun r => Nat.choose 4 (M.count r) := by
    rw [Finset.card_pi]
    refine Finset.prod_congr rfl fun r _ => ?_
    rw [Finset.card_powersetCard]
    congr 1
  rw [← hpi]
  refine Finset.card_bij'
    (fun (h : Finset Card) (_ : h ∈ rank_fiber M) =>
      fun (r : Rank) (_ : r ∈ (Finset.univ : Finset Rank)) =>
        (h.filter fun c => c.rank = r).image Card.suit)
    (fun (f : (r : Rank) → r ∈ (Finset.univ : Finset Rank) → Finset Suit)
        (_ : f ∈ (Finset.univ : Finset Rank).pi fun r =>
          (Finset.univ : Finset Suit).powersetCard (M.count r)) =>
      (Finset.univ : Finset Card).filter fun c => c.suit ∈ f c.rank (Finset.mem_univ _))
    ?_ ?_ ?_ ?_
  · -- forward lands in the pi set
    intro h hh
    have hm : rmul h = M := (Finset.mem_filter.mp hh).2
    rw [Finset.mem_pi]
    intro r _
    rw [Finset.mem_powersetCard]
    exact ⟨Finset.subset_univ _, by rw [image_suit_card, filter_rank_card hm]⟩
  · -- backward lands in the fiber
    intro f hf
    rw [Finset.mem_pi] at hf
    refine Finset.mem_filter.mpr ⟨Finset.mem_univ _, ?_⟩
    refine Multiset.ext.mpr fun r => ?_
    have h1 : (((Finset.univ : Finset Card).filter fun c =>
          c.suit ∈ f c.rank (Finset.mem_univ _)).filter fun c => c.rank = r).card =
        (rmul ((Finset.univ : Finset Card).filter fun c =>
          c.suit ∈ f c.rank (Finset.mem_univ _))).count r :=
      filter_rank_card rfl r
    rw [← h1, jf_filter_eq]
    rw [Finset.card_image_of_injOn (fun s₁ _ s₂ _ hs => by simpa using hs)]
    have := hf r (Finset.mem_univ r)
    rw [Finset.mem_powersetCard] at this
    exact this.2
  · -- j (i h) = h
    intro h hh
    ext c
    simp only [Finset.mem_filter, Finset.mem_univ, true_and, Finset.mem_image]
    constructor
    · rintro ⟨c2, ⟨hc2h, hc2r⟩, hs⟩
      have hcc : c2 = c := by
        cases c2
        cases c
        simp_all
      rw [← hcc]
      exact hc2h
    · intro hc
      exact ⟨c, ⟨hc, rfl⟩, rfl⟩
  · -- i (j f) = f
    intro f hf
    funext r hr
    beta_reduce
    rw [jf_filter_eq]
    rw [Finset.image_image]
    have : (Card.suit ∘ fun s => (⟨r, s⟩ : Card)) = id := rfl
    rw [this, Finset.image_id]


theorem count_finset_val {α : Type} [DecidableEq α] (T : Finset α) (r : α) :
    T.val.count r = if r ∈ T then 1 else 0 := by
  by_cases h : r ∈ T
  · rw [if_pos h]
    exact Multiset.count_eq_one_of_mem T.nodup h
  · rw [if_neg h]
    exact Multiset.count_eq_zero_of_not_mem h

theorem count_shape_single (c : Nat) (a : Rank) (T : Finset Rank) (r : Rank) :
    (Multiset.replicate c a + T.val).count r =
      (if r = a then c else 0) + (if r ∈ T then 1 else 0) := by
  rw [Multiset.count_add, Multiset.count_replicate, count_finset_val]
  congr 1
  by_cases h : r = a
  · subst h
    simp
  · rw [if_neg h, if_neg fun hh => h hh.symm]

theorem multiset_shape_single {M : Multiset Rank} {a : Rank} {c : Nat}
    (hcard : Multiset.card M = 5) (hc : M.count a = c) (h2 : 2 ≤ c)
    (hother : ∀ b : Rank, b ≠ a → M.count b ≤ 1) :
    ∃ T : Finset Rank, a ∉ T ∧ T.card = 5 - c ∧ M = Multiset.replicate c a + T.val := by
  refine ⟨M.toFinset.erase a, Finset.not_mem_erase a _, ?_, ?_⟩
  · -- card: count a + (number of other distinct values) = 5
    have hM : M = Multiset.replicate c a + (M.toFinset.erase a).val := ?_
    · have := congrArg Multiset.card hM
      rw [hcard, Multiset.card_add, Multiset.card_replicate] at this
      have hcv : Multiset.card (M.toFinset.erase a).val = (M.toFinset.erase a).card := rfl
      omega
    · refine Multiset.ext.mpr fun r => ?_
      rw [count_shape_single]
      by_cases hr : r = a
      · subst hr
        rw [if_pos rfl, if_neg (Finset.not_mem_erase r _)]
        omega
      · rw [if_neg hr]
        have hmem : r ∈ M.toFinset.erase a ↔ 1 ≤ M.count r := by
          rw [Finset.mem_erase]
          simp [hr, Multiset.one_le_count_iff_mem]
        have hle := hother r hr
        by_cases h1 : 1 ≤ M.count r
        · rw [if_pos (hmem.mpr h1)]
          omega
        · rw [if_neg (fun hx => h1 (hmem.mp hx))]
          omega
  · refine Multiset.ext.mpr fun r => ?_
    rw [count_shape_single]
    by_cases hr : r = a
    · subst hr
      rw [if_pos rfl, if_neg (Finset.not_mem_erase r _)]
      omega
    · rw [if_neg hr]
      have hmem : r ∈ M.toFinset.erase a ↔ 1 ≤ M.count r := by
        rw [Finset.mem_erase]
        simp [hr, Multiset.one_le_count_iff_mem]
      have hle := hother r hr
      by_cases h1 : 1 ≤ M.count r
      · rw [if_pos (hmem.mpr h1)]
        omega
      · rw [if_neg (fun hx => h1 (hmem.mp hx))]
        omega


theorem filter_eq_singleton {α : Type} [DecidableEq α] {p : α → Bool} :
    ∀ {l : List α}, l.Nodup → ∀ {x : α}, x ∈ l → p x = true →
      (∀ y ∈ l, p y = true → y = x) → l.filter p = [x]
  | [], _, x, hx, _, _ => by simp at hx
  | a :: t, hnd, x, hx, hpx, huniq => by
    rcases List.mem_cons.mp hx with rfl | hxt
    · rw [List.filter_cons_of_pos hpx]
      have ht : t.filter p = [] := by
        refine List.filter_eq_nil_iff.mpr fun y hy hpy => ?_
        have : y = x := huniq y (by simp [hy]) hpy
        subst this
        exact (List.nodup_cons.mp hnd).1 hy
      rw [ht]
    · have hax : a ≠ x := by
        intro h
        subst h
        exact (List.nodup_cons.mp hnd).1 hxt
      have hpa : p a = false := by
        rcases hpa : p a with _ | _
        · rfl
        · exact absurd (huniq a (by simp) hpa) hax
      rw [List.filter_cons_of_neg (by simp [hpa])]
      exact filter_eq_singleton (List.nodup_cons.mp hnd).2 hxt hpx
        fun y hy hpy => huniq y (by simp [hy]) hpy


theorem nodup_two_mem {α : Type} [DecidableEq α] {L : List α} (hnd : L.Nodup) {x y : α}
    (hxy : x ≠ y) (hmem : ∀ z, z ∈ L ↔ z = x ∨ z = y) :
    L = [x, y] ∨ L = [y, x] := by
  have hcount : ∀ a, List.count a [x, y] = List.count a L := by
    intro a
    have hcL : List.count a L = if a ∈ L then 1 else 0 := by
      by_cases h : a ∈ L
      · rw [if_pos h]
        exact List.count_eq_one_of_mem hnd h
      · rw [if_neg h]
        exact List.count_eq_zero.mpr h
    rw [hcL]
    by_cases hax : a = x
    · subst hax
      have hmm : a ∈ L := (hmem a).mpr (Or.inl rfl)
      rw [if_pos hmm]
      simp [List.count_cons, hxy]
    · by_cases hay : a = y
      · subst hay
        have hmm : a ∈ L := (hmem a).mpr (Or.inr rfl)
        rw [if_pos hmm]
        have hne : ¬(a = x) := fun h => hxy h.symm
        simp [List.count_cons, hne]
      · have hmm : a ∉ L := fun hc => by
          rcases (hmem a).mp hc with h | h
          · exact hax h
          · exact hay h
        rw [if_neg hmm]
        simp [List.count_cons, hax, hay]
  exact perm_pair_cases (List.perm_iff_count.mpr hcount)


theorem map_eq_singleton_inv {α β : Type} {f : α → β} :
    ∀ {l : List α} {x : β}, l.map f = [x] → ∃ w, l = [w] ∧ f w = x
  | [], x, h => by simp at h
  | [w], x, h => by
    simp only [List.map_cons, List.map_nil, List.cons.injEq, and_true] at h
    exact ⟨w, rfl, h⟩
  | a :: b :: t, x, h => by simp at h

theorem map_eq_pair_inv {α β : Type} {f : α → β} :
    ∀ {l : List α} {x y : β}, l.map f = [x, y] →
      ∃ w₁ w₂, l = [w₁, w₂] ∧ f w₁ = x ∧ f w₂ = y
  | [], x, y, h => by simp at h
  | [w], x, y, h => by simp at h
  | [w₁, w₂], x, y, h => by
    simp only [List.map_cons, List.map_nil, List.cons.injEq, and_true] at h
    exact ⟨w₁, w₂, rfl, h.1, h.2⟩
  | a :: b :: c :: t, x, y, h => by simp at h

theorem matched_single_counts {l : List Card} {x : Nat × Nat}
    (hm : get_matched_cards l = [x]) :
    (card_nums l).count x.2 = x.1 ∧ 2 ≤ x.1 ∧
      ∀ y : Nat, y ≠ x.2 → (card_nums l).count y ≤ 1 := by
  rw [matched_repr] at hm
  obtain ⟨w, hw, hfw⟩ := map_eq_singleton_inv hm
  have hw2 : w = x.2 := by simpa using congrArg Prod.snd hfw
  have hw1 : (card_nums l).count w = x.1 := by simpa using congrArg Prod.fst hfw
  have hwmem : w ∈ (card_nums l).dedup.filter fun r => (card_nums l).count r > 1 := by
    rw [hw]
    simp
  have hwgt := (List.mem_filter.mp hwmem).2
  simp only [decide_eq_true_eq] at hwgt
  subst hw2
  refine ⟨hw1, by omega, fun y hy => ?_⟩
  by_contra hc
  have hygt : (card_nums l).count y > 1 := by omega
  have hymem : y ∈ (card_nums l).dedup.filter fun r => (card_nums l).count r > 1 := by
    refine List.mem_filter.mpr ⟨List.mem_dedup.mpr ?_, by simpa using hygt⟩
    exact List.count_pos_iff.mp (by omega)
  rw [hw] at hymem
  simp only [List.mem_singleton] at hymem
  exact hy hymem

theorem matched_of_counts_single {l : List Card} {rn c : Nat}
    (hc : (card_nums l).count rn = c) (h2 : 2 ≤ c)
    (hother : ∀ y : Nat, y ≠ rn → (card_nums l).count y ≤ 1) :
    get_matched_cards l = [(c, rn)] := by
  rw [matched_repr]
  have hfs : ((card_nums l).dedup.filter fun r => (card_nums l).count r > 1) = [rn] := by
    refine filter_eq_singleton (List.nodup_dedup _) ?_ (by simpa using by omega) ?_
    · exact List.mem_dedup.mpr (List.count_pos_iff.mp (by omega))
    · intro y hy hpy
      simp only [decide_eq_true_eq] at hpy
      by_contra hne
      have := hother y hne
      omega
  rw [hfs, List.map_cons, List.map_nil, hc]

theorem matched_double_counts {l : List Card} {x y : Nat × Nat}
    (hm : get_matched_cards l = [x, y]) :
    (card_nums l).count x.2 = x.1 ∧ (card_nums l).count y.2 = y.1 ∧
      2 ≤ x.1 ∧ 2 ≤ y.1 ∧ x.2 ≠ y.2 ∧
      ∀ z : Nat, z ≠ x.2 → z ≠ y.2 → (card_nums l).count z ≤ 1 := by
  rw [matched_repr] at hm
  obtain ⟨w₁, w₂, hw, hf₁, hf₂⟩ := map_eq_pair_inv hm
  have hw₁2 : w₁ = x.2 := by simpa using congrArg Prod.snd hf₁
  have hw₂2 : w₂ = y.2 := by simpa using congrArg Prod.snd hf₂
  have hw₁1 : (card_nums l).count w₁ = x.1 := by simpa using congrArg Prod.fst hf₁
  have hw₂1 : (card_nums l).count w₂ = y.1 := by simpa using congrArg Prod.fst hf₂
  have hndf : ((card_nums l).dedup.filter fun r => (card_nums l).count r > 1).Nodup :=
    List.Nodup.filter _ (List.nodup_dedup _)
  have hne : w₁ ≠ w₂ := by
    rw [hw] at hndf
    simp only [List.nodup_cons, List.mem_singleton] at hndf
    exact hndf.1
  have hmemf : ∀ z, z ∈ ((card_nums l).dedup.filter fun r => (card_nums l).count r > 1) →
      z = w₁ ∨ z = w₂ := by
    intro z hz
    rw [hw] at hz
    simpa using hz
  have hgt₁ : (card_nums l).count w₁ > 1 := by
    have : w₁ ∈ (card_nums l).dedup.filter fun r => (card_nums l).count r > 1 := by
      rw [hw]
      simp
    simpa using (List.mem_filter.mp this).2
  have hgt₂ : (card_nums l).count w₂ > 1 := by
    have : w₂ ∈ (card_nums l).dedup.filter fun r => (card_nums l).count r > 1 := by
      rw [hw]
      simp
    simpa using (List.mem_filter.mp this).2
  subst hw₁2
  subst hw₂2
  refine ⟨hw₁1, hw₂1, by omega, by omega, hne, fun z hz₁ hz₂ => ?_⟩
  by_contra hc
  have hzgt : (card_nums l).count z > 1 := by omega
  have hzmem : z ∈ (card_nums l).dedup.filter fun r => (card_nums l).count r > 1 := by
    refine List.mem_filter.mpr ⟨List.mem_dedup.mpr ?_, by simpa using hzgt⟩
    exact List.count_pos_iff.mp (by omega)
  rcases hmemf z hzmem with h | h
  · exact hz₁ h
  · exact hz₂ h

theorem matched_of_counts_double {l : List Card} {a b ca cb : Nat}
    (hca : (card_nums l).count a = ca) (hcb : (card_nums l).count b = cb)
    (h2a : 2 ≤ ca) (h2b : 2 ≤ cb) (hab : a ≠ b)
    (hother : ∀ z : Nat, z ≠ a → z ≠ b → (card_nums l).count z ≤ 1) :
    get_matched_cards l = [(ca, a), (cb, b)] ∨
      get_matched_cards l = [(cb, b), (ca, a)] := by
  rw [matched_repr]
  have hLmem : ∀ z, z ∈ ((card_nums l).dedup.filter fun r => (card_nums l).count r > 1) ↔
      z = a ∨ z = b := by
    intro z
    constructor
    · intro hz
      obtain ⟨hzd, hzp⟩ := List.mem_filter.mp hz
      simp only [decide_eq_true_eq] at hzp
      by_contra hcon
      push_neg at hcon
      have := hother z hcon.1 hcon.2
      omega
    · rintro (rfl | rfl)
      · refine List.mem_filter.mpr ⟨List.mem_dedup.mpr ?_, by simp; omega⟩
        exact List.count_pos_iff.mp (by omega)
      · refine List.mem_filter.mpr ⟨List.mem_dedup.mpr ?_, by simp; omega⟩
        exact List.count_pos_iff.mp (by omega)
  rcases nodup_two_mem (List.Nodup.filter _ (List.nodup_dedup _)) hab hLmem with hL | hL
  · rw [hL]
    left
    rw [List.map_cons, List.map_cons, List.map_nil, hca, hcb]
  · rw [hL]
    right
    rw [List.map_cons, List.map_cons, List.map_nil, hca, hcb]



theorem mem_all_hands {h : Finset Card} : h ∈ all_hands ↔ h.card = 5 :=
  Finset.mem_powersetCard_univ

theorem hand_list_coe (h : Finset Card) : (hand_list h : Multiset Card) = h.val :=
  Finset.sort_eq card_le h

theorem hand_list_nodup (h : Finset Card) : (hand_list h).Nodup :=
  Finset.sort_nodup card_le h

theorem hand_list_length (h : Finset Card) : (hand_list h).length = h.card :=
  Finset.length_sort card_le

theorem rmul_card (h : Finset Card) : Multiset.card (rmul h) = h.card := by
  unfold rmul
  rw [Multiset.card_map]
  rfl

theorem rmul_coe (h : Finset Card) :
    rmul h = ((hand_list h).map Card.rank : Multiset Rank) := by
  unfold rmul
  rw [← hand_list_coe h]
  rfl

theorem nums_count (h : Finset Card) (r : Rank) :
    (card_nums (hand_list h)).count (rank_to_number r) = (rmul h).count r := by
  rw [rmul_coe, Multiset.coe_count]
  unfold card_nums
  rw [show (fun c : Card => rank_to_number c.rank) = rank_to_number ∘ Card.rank from rfl,
    ← List.map_map]
  exact List.count_map_of_injective _ rank_to_number (fun a b => rank_to_number_inj a b) r

theorem filter_rank_list (R : Finset Rank) :
    ((rank_list.filter fun r => decide (r ∈ R)) : Multiset Rank) = R.val := by
  refine ((Multiset.coe_nodup.mpr (List.Nodup.filter _ (by decide))).ext R.nodup).mpr fun r => ?_
  simp only [Multiset.mem_coe, List.mem_filter, decide_eq_true_eq, Finset.mem_val]
  constructor
  · exact fun hx => hx.2
  · intro hr
    refine ⟨?_, hr⟩
    have : ∀ a : Rank, a ∈ rank_list := by decide
    exact this r

theorem nums_of_coe (R : Finset Rank) :
    (nums_of R : Multiset Nat) = R.val.map rank_to_number := by
  unfold nums_of
  rw [← Multiset.map_coe, filter_rank_list]

theorem nums_perm_of_rmul {h : Finset Card} {R : Finset Rank} (hR : rmul h = R.val) :
    (card_nums (hand_list h)).Perm (nums_of R) := by
  rw [← Multiset.coe_eq_coe]
  rw [nums_of_coe, ← hR, rmul_coe, Multiset.map_coe]
  unfold card_nums
  rw [List.map_map]
  rfl


theorem psi_card (R : Finset Rank) (s : Suit) : (psi R s).card = R.card := by
  unfold psi
  exact Finset.card_image_of_injective R (fun a b hab => by injection hab)

theorem mem_psi {R : Finset Rank} {s : Suit} {c : Card} :
    c ∈ psi R s ↔ c.rank ∈ R ∧ c.suit = s := by
  unfold psi
  rw [Finset.mem_image]
  constructor
  · rintro ⟨r, hr, rfl⟩
    exact ⟨hr, rfl⟩
  · rintro ⟨hr, hs⟩
    subst hs
    exact ⟨c.rank, hr, rfl⟩

theorem rmul_psi (R : Finset Rank) (s : Suit) : rmul (psi R s) = R.val := by
  unfold rmul psi
  rw [Finset.image_val,
    Multiset.dedup_eq_self.mpr (Multiset.Nodup.map (fun a b hab => by injection hab) R.nodup),
    Multiset.map_map]
  exact Multiset.map_id _

theorem dedup_eq_singleton {α : Type} [DecidableEq α] {l : List α} {a : α} (ha : a ∈ l)
    (hall : ∀ b ∈ l, b = a) : l.dedup = [a] := by
  have h1 : ∀ b ∈ l.dedup, b = a := fun b hb => hall b (List.mem_dedup.mp hb)
  have h2 : a ∈ l.dedup := List.mem_dedup.mpr ha
  cases hd : l.dedup with
  | nil =>
    rw [hd] at h2
    simp at h2
  | cons x t =>
    have hx : x = a := h1 x (by rw [hd]; simp)
    have hnd := l.nodup_dedup
    rw [hd] at hnd
    cases t with
    | nil => rw [hx]
    | cons y u =>
      have hy : y = a := h1 y (by rw [hd]; simp)
      rw [List.nodup_cons] at hnd
      exact absurd (by rw [hx, hy]; simp : x ∈ y :: u) hnd.1

theorem one_suit_of_all_eq {l : List Card} (hne : l ≠ []) {s : Suit}
    (hall : ∀ c ∈ l, c.suit = s) : one_suit l = true := by
  unfold one_suit
  have hs : s ∈ l.map Card.suit := by
    obtain ⟨c, hc⟩ := List.exists_mem_of_ne_nil l hne
    exact List.mem_map.mpr ⟨c, hc, hall c hc⟩
  have hall2 : ∀ b ∈ l.map Card.suit, b = s := by
    intro b hb
    obtain ⟨c, hc, rfl⟩ := List.mem_map.mp hb
    exact hall c hc
  rw [dedup_eq_singleton hs hall2]
  rfl

theorem one_suited_decomp {h : Finset Card} (hm : h ∈ all_hands)
    (hos : one_suit (hand_list h) = true) :
    ∃ (R : Finset Rank) (s : Suit), R.card = 5 ∧ h = psi R s := by
  have hlen : (hand_list h).length = 5 := by rw [hand_list_length, mem_all_hands.mp hm]
  have hne : hand_list h ≠ [] := by
    intro he
    rw [he] at hlen
    simp at hlen
  obtain ⟨c0, hc0⟩ := List.exists_mem_of_ne_nil _ hne
  unfold one_suit at hos
  have h1 : ((hand_list h).map Card.suit).dedup.length = 1 := by simpa using hos
  have hsuits := eq_of_dedup_length_eq_one h1
  have hall : ∀ c ∈ hand_list h, c.suit = c0.suit := by
    intro c hc
    exact hsuits c.suit (List.mem_map_of_mem _ hc) c0.suit (List.mem_map_of_mem _ hc0)
  refine ⟨h.image Card.rank, c0.suit, ?_, ?_⟩
  · rw [Finset.card_image_of_injOn, mem_all_hands.mp hm]
    intro x hx y hy hxy
    have hxl : x ∈ hand_list h := (Finset.mem_sort card_le).mpr hx
    have hyl : y ∈ hand_list h := (Finset.mem_sort card_le).mpr hy
    have hxs := hall _ hxl
    have hys := hall _ hyl
    cases x
    cases y
    simp only at hxy hxs hys
    rw [hxy, hxs, hys]
  · refine Finset.ext fun c => ?_
    rw [mem_psi, Finset.mem_image]
    constructor
    · intro hc
      exact ⟨⟨c, hc, rfl⟩, hall c ((Finset.mem_sort card_le).mpr hc)⟩
    · rintro ⟨⟨c', hc', hr⟩, hs⟩
      have hcs : c'.suit = c0.suit := hall c' ((Finset.mem_sort card_le).mpr hc')
      have hcc : c' = c := by
        cases c
        cases c'
        simp only at hr hs hcs ⊢
        rw [hr, hcs, hs]
      rwa [← hcc]

theorem psi_inj {R R' : Finset Rank} {s t : Suit} (hR : R.Nonempty)
    (he : psi R s = psi R' t) : R = R' ∧ s = t := by
  obtain ⟨r0, hr0⟩ := hR
  have h0 : (⟨r0, s⟩ : Card) ∈ psi R s := mem_psi.mpr ⟨hr0, rfl⟩
  rw [he] at h0
  have hs : s = t := (mem_psi.mp h0).2
  subst hs
  refine ⟨?_, rfl⟩
  ext r
  constructor
  · intro hr
    have hmm : (⟨r, s⟩ : Card) ∈ psi R s := mem_psi.mpr ⟨hr, rfl⟩
    rw [he] at hmm
    exact (mem_psi.mp hmm).1
  · intro hr
    have hmm : (⟨r, s⟩ : Card) ∈ psi R' s := mem_psi.mpr ⟨hr, rfl⟩
    rw [← he] at hmm
    exact (mem_psi.mp hmm).1

theorem psi_all_suit (R : Finset Rank) (s : Suit) :
    ∀ c ∈ hand_list (psi R s), c.suit = s := by
  intro c hc
  exact (mem_psi.mp ((Finset.mem_sort card_le).mp hc)).2

theorem one_suit_psi {R : Finset Rank} (s : Suit) (hR : R.card = 5) :
    one_suit (hand_list (psi R s)) = true := by
  refine one_suit_of_all_eq ?_ (psi_all_suit R s)
  intro he
  have := hand_list_length (psi R s)
  rw [he, psi_card, hR] at this
  simp at this

theorem straights_bridge {h : Finset Card} {R : Finset Rank} (hR : rmul h = R.val) :
    (is_high_ace_straight (hand_list h) || is_low_ace_straight (hand_list h)) = straightsR R := by
  simp only [is_high_ace_straight, is_low_ace_straight, straightsR]
  rw [insertionSort_eq_of_perm (nums_perm_of_rmul hR),
    insertionSort_eq_of_perm ((nums_perm_of_rmul hR).map _)]

theorem min_bridge {h : Finset Card} {R : Finset Rank} (hR : rmul h = R.val) :
    (card_nums (hand_list h)).min? = (nums_of R).min? :=
  min_perm (nums_perm_of_rmul hR)


theorem count_by_shapes {I_ : Type} [DecidableEq I_] (I : Finset I_) (Mof : I_ → Multiset Rank)
    (P : Finset Card → Bool)
    (hinj : ∀ i ∈ I, ∀ j ∈ I, Mof i = Mof j → i = j)
    (hcard : ∀ i ∈ I, Multiset.card (Mof i) = 5)
    (hchar : ∀ h ∈ all_hands, (P h = true ↔ ∃ i ∈ I, rmul h = Mof i)) :
    (all_hands.filter fun h => P h = true).card =
      ∑ i ∈ I, ∏ r : Rank, Nat.choose 4 ((Mof i).count r) := by
  have hset : (all_hands.filter fun h => P h = true) = I.biUnion fun i => rank_fiber (Mof i) := by
    refine Finset.ext fun h => ?_
    rw [Finset.mem_filter, Finset.mem_biUnion]
    constructor
    · rintro ⟨hm, hp⟩
      obtain ⟨i, hi, hri⟩ := (hchar h hm).mp hp
      refine ⟨i, hi, ?_⟩
      unfold rank_fiber
      rw [Finset.mem_filter]
      exact ⟨Finset.mem_univ h, hri⟩
    · rintro ⟨i, hi, hf⟩
      unfold rank_fiber at hf
      rw [Finset.mem_filter] at hf
      have hri : rmul h = Mof i := hf.2
      have hm : h ∈ all_hands := by
        rw [mem_all_hands]
        have hc5 := hcard i hi
        rw [← hri, rmul_card] at hc5
        exact hc5
      exact ⟨hm, (hchar h hm).mpr ⟨i, hi, hri⟩⟩
  rw [hset, Finset.card_biUnion]
  · exact Finset.sum_congr rfl fun i _ => fiber_card (Mof i)
  · intro i hi j hj hij
    rw [Finset.disjoint_left]
    intro h hhi hhj
    unfold rank_fiber at hhi hhj
    rw [Finset.mem_filter] at hhi hhj
    exact hij (hinj i hi j hj (hhi.2.symm.trans hhj.2))

theorem one_suited_count (P : Finset Card → Bool) (SR : Finset (Finset Rank))
    (hc5 : ∀ R ∈ SR, R.card = 5)
    (hchar : ∀ h ∈ all_hands, (P h = true ↔ ∃ R ∈ SR, ∃ s : Suit, h = psi R s)) :
    (all_hands.filter fun h => P h = true).card = SR.card * 4 := by
  have h4 : (Finset.univ : Finset Suit).card = 4 := rfl
  rw [← h4, ← Finset.card_product]
  refine (Finset.card_bij (fun p _ => psi p.1 p.2) ?_ ?_ ?_).symm
  · rintro ⟨R, s⟩ hp
    rw [Finset.mem_product] at hp
    have hR5 := hc5 R hp.1
    have hm : psi R s ∈ all_hands := by
      rw [mem_all_hands, psi_card]
      exact hR5
    rw [Finset.mem_filter]
    exact ⟨hm, (hchar _ hm).mpr ⟨R, hp.1, s, rfl⟩⟩
  · rintro ⟨R, s⟩ hp ⟨R', s'⟩ hp' he
    rw [Finset.mem_product] at hp
    have hne : R.Nonempty := Finset.card_pos.mp (by rw [hc5 R hp.1]; omega)
    obtain ⟨h1, h2⟩ := psi_inj hne he
    rw [Prod.mk.injEq]
    exact ⟨h1, h2⟩
  · intro h hh
    rw [Finset.mem_filter] at hh
    obtain ⟨R, hR, s, rfl⟩ := (hchar h hh.1).mp hh.2
    exact ⟨⟨R, s⟩, Finset.mem_product.mpr ⟨hR, Finset.mem_univ s⟩, rfl⟩


theorem sum_count_univ (M : Multiset Rank) : (∑ r : Rank, M.count r) = Multiset.card M := by
  rw [← Multiset.toFinset_sum_count_eq M]
  refine (Finset.sum_subset (Finset.subset_univ _) ?_).symm
  intro x _ hx
  rw [Multiset.count_eq_zero]
  exact fun hmem => hx (Multiset.mem_toFinset.mpr hmem)

theorem count_shape_pair (c d : Nat) (a b : Rank) (r : Rank) :
    (Multiset.replicate c a + Multiset.replicate d b).count r =
      (if r = a then c else 0) + (if r = b then d else 0) := by
  rw [Multiset.count_add, Multiset.count_replicate, Multiset.count_replicate]
  split_ifs <;> subst_vars <;> simp_all

theorem count_shape_twopair (P : Finset Rank) (k : Rank) (r : Rank) :
    (P.val + P.val + Multiset.replicate 1 k).count r =
      (if r ∈ P then 2 else 0) + (if r = k then 1 else 0) := by
  rw [Multiset.count_add, Multiset.count_add, count_finset_val, Multiset.count_replicate]
  split_ifs <;> subst_vars <;> simp_all

theorem not_one_suit_of_count_two {h : Finset Card} {a : Rank}
    (hc : 2 ≤ (rmul h).count a) : one_suit (hand_list h) = false := by
  have hl := hand_list_nodup h
  have hcc : 2 ≤ ((hand_list h).map Card.rank).count a := by
    rw [rmul_coe] at hc
    rwa [Multiset.coe_count] at hc
  have hfl : 2 ≤ ((hand_list h).filter fun c => Card.rank c == a).length := by
    rw [← List.countP_eq_length_filter]
    simp only [List.count, List.countP_map] at hcc
    exact hcc
  rcases hF : (hand_list h).filter fun c => Card.rank c == a with _ | ⟨x, rest1⟩
  · rw [hF] at hfl
    simp at hfl
  rcases rest1 with _ | ⟨y, rest⟩
  · rw [hF] at hfl
    simp at hfl
  have hnodF : ((hand_list h).filter fun c => Card.rank c == a).Nodup := hl.filter _
  rw [hF] at hnodF
  have hxy : x ≠ y := by
    rw [List.nodup_cons] at hnodF
    exact fun he => hnodF.1 (he ▸ List.mem_cons_self y rest)
  have hxm : x ∈ (hand_list h).filter fun c => Card.rank c == a := by
    rw [hF]
    simp
  have hym : y ∈ (hand_list h).filter fun c => Card.rank c == a := by
    rw [hF]
    simp
  have hxa : x.rank = a := by simpa using (List.mem_filter.mp hxm).2
  have hya : y.rank = a := by simpa using (List.mem_filter.mp hym).2
  have hxl : x ∈ hand_list h := (List.mem_filter.mp hxm).1
  have hyl : y ∈ hand_list h := (List.mem_filter.mp hym).1
  have hsuit : x.suit ≠ y.suit := by
    intro hs
    refine hxy ?_
    cases x
    cases y
    simp only at hxa hya hs
    rw [hxa, hya, hs]
  by_contra hcon
  rw [Bool.not_eq_false] at hcon
  unfold one_suit at hcon
  have h1 : ((hand_list h).map Card.suit).dedup.length = 1 := by simpa using hcon
  exact hsuit (eq_of_dedup_length_eq_one h1 x.suit (List.mem_map_of_mem _ hxl) y.suit
    (List.mem_map_of_mem _ hyl))

theorem counts_other_nums {h : Finset Card} {a : Rank}
    (hoth : ∀ r : Rank, r ≠ a → (rmul h).count r ≤ 1) :
    ∀ y : Nat, y ≠ rank_to_number a → (card_nums (hand_list h)).count y ≤ 1 := by
  intro y hy
  by_cases hmem : y ∈ card_nums (hand_list h)
  · obtain ⟨c, hc, hcy⟩ := List.mem_map.mp hmem
    have hra : c.rank ≠ a := fun he => hy (by rw [← hcy, he])
    rw [← hcy, nums_count]
    exact hoth c.rank hra
  · rw [List.count_eq_zero.mpr hmem]
    omega

theorem counts_other_nums2 {h : Finset Card} {a b : Rank}
    (hoth : ∀ r : Rank, r ≠ a → r ≠ b → (rmul h).count r ≤ 1) :
    ∀ y : Nat, y ≠ rank_to_number a → y ≠ rank_to_number b →
      (card_nums (hand_list h)).count y ≤ 1 := by
  intro y hya hyb
  by_cases hmem : y ∈ card_nums (hand_list h)
  · obtain ⟨c, hc, hcy⟩ := List.mem_map.mp hmem
    have hra : c.rank ≠ a := fun he => hya (by rw [← hcy, he])
    have hrb : c.rank ≠ b := fun he => hyb (by rw [← hcy, he])
    rw [← hcy, nums_count]
    exact hoth c.rank hra hrb
  · rw [List.count_eq_zero.mpr hmem]
    omega


theorem multiset_shape_pair {M : Multiset Rank} {a b : Rank} (hab : a ≠ b)
    (hcard : Multiset.card M = 5) (hca : M.count a = 3) (hcb : M.count b = 2)
    (hother : ∀ r : Rank, r ≠ a → r ≠ b → M.count r ≤ 1) :
    M = Multiset.replicate 3 a + Multiset.replicate 2 b := by
  have hzero : ∀ r : Rank, r ≠ a → r ≠ b → M.count r = 0 := by
    have hsum := sum_count_univ M
    rw [hcard] at hsum
    rw [← Finset.sum_sdiff (Finset.subset_univ ({a, b} : Finset Rank))] at hsum
    have hin : (∑ r ∈ ({a, b} : Finset Rank), M.count r) = 5 := by
      rw [Finset.sum_insert (by simpa using hab), Finset.sum_singleton, hca, hcb]
    have hout : (∑ r ∈ Finset.univ \ ({a, b} : Finset Rank), M.count r) = 0 := by omega
    intro r hra hrb
    have hrm : r ∈ Finset.univ \ ({a, b} : Finset Rank) := by
      rw [Finset.mem_sdiff]
      simp [hra, hrb]
    have hle : M.count r ≤ ∑ x ∈ Finset.univ \ ({a, b} : Finset Rank), M.count x :=
      Finset.single_le_sum (fun i _ => Nat.zero_le (M.count i)) hrm
    omega
  refine Multiset.ext.mpr fun r => ?_
  rw [count_shape_pair]
  by_cases hra : r = a
  · subst hra
    rw [if_pos rfl, if_neg hab, hca]
  · by_cases hrb : r = b
    · subst hrb
      rw [if_neg hra, if_pos rfl, hcb]
    · rw [if_neg hra, if_neg hrb, hzero r hra hrb]

theorem multiset_shape_twopair {M : Multiset Rank} {a b : Rank} (hab : a ≠ b)
    (hcard : Multiset.card M = 5) (hca : M.count a = 2) (hcb : M.count b = 2)
    (hother : ∀ r : Rank, r ≠ a → r ≠ b → M.count r ≤ 1) :
    ∃ k : Rank, k ≠ a ∧ k ≠ b ∧ M.count k = 1 ∧
      M = ({a, b} : Finset Rank).val + ({a, b} : Finset Rank).val + Multiset.replicate 1 k := by
  have hsum := sum_count_univ M
  rw [hcard] at hsum
  rw [← Finset.sum_sdiff (Finset.subset_univ ({a, b} : Finset Rank))] at hsum
  have hin : (∑ r ∈ ({a, b} : Finset Rank), M.count r) = 4 := by
    rw [Finset.sum_insert (by simpa using hab), Finset.sum_singleton, hca, hcb]
  have hout : (∑ r ∈ Finset.univ \ ({a, b} : Finset Rank), M.count r) = 1 := by omega
  obtain ⟨k, hkm, hkpos⟩ : ∃ k ∈ Finset.univ \ ({a, b} : Finset Rank), M.count k ≠ 0 := by
    by_contra hc
    push_neg at hc
    rw [Finset.sum_eq_zero hc] at hout
    exact absurd hout one_ne_zero.symm
  have hka : k ≠ a := by
    rw [Finset.mem_sdiff] at hkm
    intro he
    exact hkm.2 (by simp [he])
  have hkb : k ≠ b := by
    rw [Finset.mem_sdiff] at hkm
    intro he
    exact hkm.2 (by simp [he])
  have hk1 : M.count k = 1 := by
    have := hother k hka hkb
    omega
  have hzero : ∀ r : Rank, r ≠ a → r ≠ b → r ≠ k → M.count r = 0 := by
    intro r hra hrb hrk
    have herase := Finset.sum_erase_add (Finset.univ \ ({a, b} : Finset Rank))
      (fun x => M.count x) hkm
    simp only at herase
    rw [hout, hk1] at herase
    have hrm : r ∈ (Finset.univ \ ({a, b} : Finset Rank)).erase k := by
      rw [Finset.mem_erase, Finset.mem_sdiff]
      simp [hra, hrb, hrk]
    have hle : M.count r ≤ ∑ x ∈ (Finset.univ \ ({a, b} : Finset Rank)).erase k, M.count x :=
      Finset.single_le_sum (fun i _ => Nat.zero_le (M.count i)) hrm
    omega
  refine ⟨k, hka, hkb, hk1, ?_⟩
  refine Multiset.ext.mpr fun r => ?_
  rw [count_shape_twopair]
  by_cases hra : r = a
  · subst hra
    rw [if_pos (by simp), if_neg fun he => hka he.symm, hca]
  · by_cases hrb : r = b
    · subst hrb
      rw [if_pos (by simp), if_neg fun he => hkb he.symm, hcb]
    · by_cases hrk : r = k
      · subst hrk
        rw [if_neg (by simp [hka, hkb]), if_pos rfl, hk1]
      · rw [if_neg (by simp [hra, hrb]), if_neg hrk, hzero r hra hrb hrk]


theorem Mof_single_inj {c : Nat} (hc : 2 ≤ c) {a a' : Rank} {T T' : Finset Rank}
    (ha : a ∉ T) (ha' : a' ∉ T')
    (he : Multiset.replicate c a + T.val = Multiset.replicate c a' + T'.val) :
    a = a' ∧ T = T' := by
  have hcnt : ∀ r : Rank, (if r = a then c else 0) + (if r ∈ T then 1 else 0) =
      (if r = a' then c else 0) + (if r ∈ T' then 1 else 0) := by
    intro r
    rw [← count_shape_single, ← count_shape_single, he]
  have haa : a = a' := by
    by_contra hne
    have h1 := hcnt a
    rw [if_pos rfl, if_neg ha, if_neg hne] at h1
    by_cases ht : a ∈ T'
    · rw [if_pos ht] at h1
      omega
    · rw [if_neg ht] at h1
      omega
  subst haa
  refine ⟨rfl, ?_⟩
  ext r
  have h2 := hcnt r
  by_cases hr : r = a
  · subst hr
    constructor
    · intro hmem
      exact absurd hmem ha
    · intro hmem
      exact absurd hmem ha'
  · rw [if_neg hr] at h2
    by_cases h3 : r ∈ T <;> by_cases h4 : r ∈ T' <;> simp [h3, h4] at h2 ⊢

theorem Mof_fh_inj {a b a' b' : Rank} (hab : a ≠ b) (hab' : a' ≠ b')
    (he : Multiset.replicate 3 a + Multiset.replicate 2 b =
      Multiset.replicate 3 a' + Multiset.replicate 2 b') : a = a' ∧ b = b' := by
  have hcnt : ∀ r : Rank, (if r = a then 3 else 0) + (if r = b then 2 else 0) =
      (if r = a' then 3 else 0) + (if r = b' then 2 else 0) := by
    intro r
    rw [← count_shape_pair, ← count_shape_pair, he]
  have haa : a = a' := by
    by_contra hne
    have h1 := hcnt a
    rw [if_pos rfl, if_neg hab, if_neg hne] at h1
    by_cases h2 : a = b'
    · rw [if_pos h2] at h1
      omega
    · rw [if_neg h2] at h1
      omega
  subst haa
  refine ⟨rfl, ?_⟩
  by_contra hne
  have h1 := hcnt b
  rw [if_neg fun he2 => hab he2.symm, if_pos rfl, if_neg hne] at h1
  omega

theorem Mof_tp_inj {P P' : Finset Rank} {k k' : Rank} (hk : k ∉ P) (hk' : k' ∉ P')
    (he : P.val + P.val + Multiset.replicate 1 k =
      P'.val + P'.val + Multiset.replicate 1 k') :
    P = P' ∧ k = k' := by
  have hcnt : ∀ r : Rank, (if r ∈ P then 2 else 0) + (if r = k then 1 else 0) =
      (if r ∈ P' then 2 else 0) + (if r = k' then 1 else 0) := by
    intro r
    rw [← count_shape_twopair, ← count_shape_twopair, he]
  have hmem : ∀ r : Rank, r ∈ P → r ∈ P' := by
    intro r hr
    have hrk : r ≠ k := fun he2 => hk (he2 ▸ hr)
    have h1 := hcnt r
    rw [if_pos hr, if_neg hrk] at h1
    by_contra hnp
    rw [if_neg hnp] at h1
    by_cases h5 : r = k'
    · rw [if_pos h5] at h1
      omega
    · rw [if_neg h5] at h1
      omega
  have hmem' : ∀ r : Rank, r ∈ P' → r ∈ P := by
    intro r hr
    have hrk : r ≠ k' := fun he2 => hk' (he2 ▸ hr)
    have h1 := hcnt r
    rw [if_pos hr, if_neg hrk] at h1
    by_contra hnp
    rw [if_neg hnp] at h1
    by_cases h5 : r = k
    · rw [if_pos h5] at h1
      omega
    · rw [if_neg h5] at h1
      omega
  have hPP : P = P' := Finset.ext fun r => ⟨hmem r, hmem' r⟩
  subst hPP
  refine ⟨rfl, ?_⟩
  by_contra hne
  have h1 := hcnt k
  rw [if_neg hk, if_pos rfl, if_neg hne] at h1
  omega

theorem prod_choose_shape_single (c : Nat) (a : Rank) (T : Finset Rank) (ha : a ∉ T) :
    (∏ r : Rank, Nat.choose 4 ((Multiset.replicate c a + T.val).count r)) =
      Nat.choose 4 c * 4 ^ T.card := by
  have hout : ∀ x ∈ Finset.univ, x ∉ insert a T →
      Nat.choose 4 ((Multiset.replicate c a + T.val).count x) = 1 := by
    intro x _ hx
    rw [Finset.mem_insert] at hx
    push_neg at hx
    rw [count_shape_single, if_neg hx.1, if_neg hx.2]
    rfl
  rw [← Finset.prod_subset (Finset.subset_univ (insert a T)) hout, Finset.prod_insert ha]
  congr 1
  · rw [count_shape_single, if_pos rfl, if_neg ha, Nat.add_zero]
  · have h2 : ∀ r ∈ T, Nat.choose 4 ((Multiset.replicate c a + T.val).count r) = 4 := by
      intro r hr
      have hra : r ≠ a := fun he2 => ha (he2 ▸ hr)
      rw [count_shape_single, if_neg hra, if_pos hr]
      rfl
    rw [Finset.prod_congr rfl h2, Finset.prod_const]

theorem prod_choose_shape_fh {a b : Rank} (hab : a ≠ b) :
    (∏ r : Rank,
      Nat.choose 4 ((Multiset.replicate 3 a + Multiset.replicate 2 b).count r)) = 24 := by
  have hout : ∀ x ∈ Finset.univ, x ∉ ({a, b} : Finset Rank) →
      Nat.choose 4 ((Multiset.replicate 3 a + Multiset.replicate 2 b).count x) = 1 := by
    intro x _ hx
    rw [Finset.mem_insert, Finset.mem_singleton] at hx
    push_neg at hx
    rw [count_shape_pair, if_neg hx.1, if_neg hx.2]
    rfl
  rw [← Finset.prod_subset (Finset.subset_univ ({a, b} : Finset Rank)) hout,
    Finset.prod_insert (by simpa using hab), Finset.prod_singleton,
    count_shape_pair, if_pos rfl, if_neg hab,
    count_shape_pair, if_neg fun he2 => hab he2.symm, if_pos rfl]
  rfl

theorem prod_choose_shape_tp {P : Finset Rank} {k : Rank} (hk : k ∉ P) (hP : P.card = 2) :
    (∏ r : Rank,
      Nat.choose 4 ((P.val + P.val + Multiset.replicate 1 k).count r)) = 144 := by
  have hout : ∀ x ∈ Finset.univ, x ∉ insert k P →
      Nat.choose 4 ((P.val + P.val + Multiset.replicate 1 k).count x) = 1 := by
    intro x _ hx
    rw [Finset.mem_insert] at hx
    push_neg at hx
    rw [count_shape_twopair, if_neg hx.2, if_neg hx.1]
    rfl
  rw [← Finset.prod_subset (Finset.subset_univ (insert k P)) hout, Finset.prod_insert hk]
  have hk4 : Nat.choose 4 ((P.val + P.val + Multiset.replicate 1 k).count k) = 4 := by
    rw [count_shape_twopair, if_neg hk, if_pos rfl]
    rfl
  have h6 : ∀ r ∈ P, Nat.choose 4 ((P.val + P.val + Multiset.replicate 1 k).count r) = 6 := by
    intro r hr
    have hrk : r ≠ k := fun he2 => hk (he2 ▸ hr)
    rw [count_shape_twopair, if_pos hr, if_neg hrk]
    rfl
  rw [hk4, Finset.prod_congr rfl h6, Finset.prod_const, hP]
  rfl

theorem card_rank_univ : (Finset.univ : Finset Rank).card = 13 := rfl

theorem card_sigma_powerset (k : Nat) :
    ((Finset.univ : Finset Rank).sigma fun a => (Finset.univ.erase a).powersetCard k).card =
      13 * Nat.choose 12 k := by
  rw [Finset.card_sigma]
  have he : ∀ a ∈ (Finset.univ : Finset Rank),
      ((Finset.univ.erase a).powersetCard k).card = Nat.choose 12 k := by
    intro a _
    rw [Finset.card_powersetCard, Finset.card_erase_of_mem (Finset.mem_univ a), card_rank_univ]
  rw [Finset.sum_congr rfl he, Finset.sum_const, card_rank_univ, smul_eq_mul]

theorem card_offdiag_rank : (Finset.univ : Finset Rank).offDiag.card = 156 := by
  rw [Finset.offDiag_card, card_rank_univ]

theorem card_tp_index :
    (((Finset.univ : Finset Rank).powersetCard 2).sigma fun P => Finset.univ \ P).card =
      858 := by
  rw [Finset.card_sigma]
  have he : ∀ P ∈ (Finset.univ : Finset Rank).powersetCard 2,
      (Finset.univ \ P).card = 11 := by
    intro P hP
    rw [Finset.card_sdiff (Finset.subset_univ P), card_rank_univ,
      (Finset.mem_powersetCard.mp hP).2]
  rw [Finset.sum_congr rfl he, Finset.sum_const, Finset.card_powersetCard, card_rank_univ,
    smul_eq_mul]
  rfl


theorem flush_false_of_not_one_suit {l : List Card} (hos : one_suit l = false) :
    flush l = false := by
  simp [flush, hos]

theorem single_char (c : Nat) (hc : 2 ≤ c)
    {pred : List Card → Bool}
    (helim : ∀ l : List Card, pred l = true →
      ∃ x : Nat × Nat, get_matched_cards l = [x] ∧ x.1 = c)
    (hintro : ∀ (l : List Card) (n : Nat), get_matched_cards l = [(c, n)] →
      flush l = false → pred l = true)
    (h : Finset Card) (hm : h ∈ all_hands) :
    (pred (hand_list h) = true ↔
      ∃ i ∈ (Finset.univ : Finset Rank).sigma
          fun a => (Finset.univ.erase a).powersetCard (5 - c),
        rmul h = Multiset.replicate c i.1 + i.2.val) := by
  constructor
  · intro hp
    obtain ⟨x, hmx, hx1⟩ := helim _ hp
    obtain ⟨hcnt, h2x, hother⟩ := matched_single_counts hmx
    have hmemx : x.2 ∈ card_nums (hand_list h) := by
      refine List.count_pos_iff.mp ?_
      omega
    obtain ⟨cd, hcmem, hcy⟩ := List.mem_map.mp hmemx
    have hca : (rmul h).count cd.rank = c := by
      rw [← nums_count, hcy, hcnt, hx1]
    have hoth : ∀ r : Rank, r ≠ cd.rank → (rmul h).count r ≤ 1 := by
      intro r hr
      rw [← nums_count]
      exact hother _ fun he => hr (rank_to_number_inj _ _ (by rw [he, hcy]))
    obtain ⟨T, haT, hTcard, hshape⟩ :=
      multiset_shape_single (by rw [rmul_card, mem_all_hands.mp hm]) hca (by omega) hoth
    refine ⟨⟨cd.rank, T⟩, ?_, hshape⟩
    rw [Finset.mem_sigma, Finset.mem_powersetCard]
    refine ⟨Finset.mem_univ _, ?_, hTcard⟩
    intro t ht
    have ht2 : t ∈ T := ht
    refine Finset.mem_erase.mpr ⟨?_, Finset.mem_univ t⟩
    intro he
    have he2 : t = cd.rank := he
    exact haT (he2 ▸ ht2)
  · rintro ⟨i, hi, hshape⟩
    obtain ⟨a, T⟩ := i
    rw [Finset.mem_sigma, Finset.mem_powersetCard] at hi
    dsimp only at hshape hi
    obtain ⟨-, hsub, hTk⟩ := hi
    have haT : a ∉ T := fun hmem => (Finset.mem_erase.mp (hsub hmem)).1 rfl
    have hca : (rmul h).count a = c := by
      rw [hshape, count_shape_single, if_pos rfl, if_neg haT]
      omega
    have hoth : ∀ r : Rank, r ≠ a → (rmul h).count r ≤ 1 := by
      intro r hr
      rw [hshape, count_shape_single, if_neg hr]
      by_cases ht : r ∈ T
      · rw [if_pos ht]
      · rw [if_neg ht]
        omega
    have hmnum : (card_nums (hand_list h)).count (rank_to_number a) = c := by
      rw [nums_count]
      exact hca
    have hmatched := matched_of_counts_single hmnum hc (counts_other_nums hoth)
    have h2c : 2 ≤ (rmul h).count a := by omega
    have hflush : flush (hand_list h) = false :=
      flush_false_of_not_one_suit (not_one_suit_of_count_two h2c)
    exact hintro _ _ hmatched hflush


theorem sigma_not_mem {a : Rank} {T : Finset Rank} {k : Nat}
    (h : T ⊆ Finset.univ.erase a ∧ T.card = k) : a ∉ T :=
  fun hmem => (Finset.mem_erase.mp (h.1 hmem)).1 rfl

theorem single_count (c : Nat) (hc : 2 ≤ c) (hc5 : c ≤ 5)
    (pred : List Card → Bool)
    (helim : ∀ l : List Card, pred l = true →
      ∃ x : Nat × Nat, get_matched_cards l = [x] ∧ x.1 = c)
    (hintro : ∀ (l : List Card) (n : Nat), get_matched_cards l = [(c, n)] →
      flush l = false → pred l = true) :
    (all_hands.filter fun h => pred (hand_list h) = true).card =
      13 * Nat.choose 12 (5 - c) * (Nat.choose 4 c * 4 ^ (5 - c)) := by
  rw [count_by_shapes
      ((Finset.univ : Finset Rank).sigma fun a => (Finset.univ.erase a).powersetCard (5 - c))
      (fun i => Multiset.replicate c i.1 + i.2.val)
      (fun h => pred (hand_list h)) ?hinj ?hcard ?hchar]
  case hinj =>
    intro i hi j hj he
    rw [Finset.mem_sigma, Finset.mem_powersetCard] at hi hj
    have haT : i.1 ∉ i.2 := sigma_not_mem hi.2
    have hbT : j.1 ∉ j.2 := sigma_not_mem hj.2
    obtain ⟨h1, h2⟩ := Mof_single_inj hc haT hbT he
    exact Sigma.ext h1 (heq_of_eq h2)
  case hcard =>
    intro i hi
    rw [Finset.mem_sigma, Finset.mem_powersetCard] at hi
    rw [Multiset.card_add, Multiset.card_replicate]
    have hTv : Multiset.card i.2.val = i.2.card := rfl
    rw [hTv, hi.2.2]
    omega
  case hchar =>
    intro h hm
    exact single_char c hc helim hintro h hm
  have hconst : ∀ i ∈ (Finset.univ : Finset Rank).sigma
      fun a => (Finset.univ.erase a).powersetCard (5 - c),
      (∏ r : Rank, Nat.choose 4 ((Multiset.replicate c i.1 + i.2.val).count r)) =
        Nat.choose 4 c * 4 ^ (5 - c) := by
    intro i hi
    rw [Finset.mem_sigma, Finset.mem_powersetCard] at hi
    rw [prod_choose_shape_single c i.1 i.2 (sigma_not_mem hi.2), hi.2.2]
  rw [Finset.sum_congr rfl hconst, Finset.sum_const, card_sigma_powerset, smul_eq_mul]


theorem fh_char (h : Finset Card) (hm : h ∈ all_hands) :
    (full_house (hand_list h) = true ↔
      ∃ i ∈ (Finset.univ : Finset Rank).offDiag,
        rmul h = Multiset.replicate 3 i.1 + Multiset.replicate 2 i.2) := by
  constructor
  · intro hp
    obtain ⟨x, y, hmxy, h3⟩ := full_house_matched hp
    obtain ⟨hcx, hcy, h2x, h2y, hxyne, hother⟩ := matched_double_counts hmxy
    have hlen : (hand_list h).length = 5 := by rw [hand_list_length, mem_all_hands.mp hm]
    have hsum := (count_column_struct (hand_list h) hlen).2.1
    rw [hmxy] at hsum
    simp only [List.map_cons, List.map_nil, List.sum_cons, List.sum_nil] at hsum
    have hmx : x.2 ∈ card_nums (hand_list h) := List.count_pos_iff.mp (by omega)
    have hmy : y.2 ∈ card_nums (hand_list h) := List.count_pos_iff.mp (by omega)
    obtain ⟨cx, hcxm, hcxe⟩ := List.mem_map.mp hmx
    obtain ⟨cy, hcym, hcye⟩ := List.mem_map.mp hmy
    have hrne : cx.rank ≠ cy.rank := fun he => hxyne (by rw [← hcxe, ← hcye, he])
    have hcax : (rmul h).count cx.rank = x.1 := by rw [← nums_count, hcxe, hcx]
    have hcay : (rmul h).count cy.rank = y.1 := by rw [← nums_count, hcye, hcy]
    have hothr : ∀ r : Rank, r ≠ cx.rank → r ≠ cy.rank → (rmul h).count r ≤ 1 := by
      intro r h1 h2
      rw [← nums_count]
      exact hother _ (fun he => h1 (rank_to_number_inj _ _ (by rw [he, hcxe])))
        (fun he => h2 (rank_to_number_inj _ _ (by rw [he, hcye])))
    have hcard5 : Multiset.card (rmul h) = 5 := by rw [rmul_card, mem_all_hands.mp hm]
    rcases h3 with h3 | h3
    · have hy2e : y.1 = 2 := by omega
      refine ⟨(cx.rank, cy.rank),
        Finset.mem_offDiag.mpr ⟨Finset.mem_univ _, Finset.mem_univ _, hrne⟩, ?_⟩
      exact multiset_shape_pair hrne hcard5 (by rw [hcax, h3]) (by rw [hcay, hy2e]) hothr
    · have hx2e : x.1 = 2 := by omega
      refine ⟨(cy.rank, cx.rank),
        Finset.mem_offDiag.mpr ⟨Finset.mem_univ _, Finset.mem_univ _, hrne.symm⟩, ?_⟩
      exact multiset_shape_pair hrne.symm hcard5 (by rw [hcay, h3]) (by rw [hcax, hx2e])
        fun r h1 h2 => hothr r h2 h1
  · rintro ⟨i, hi, hshape⟩
    obtain ⟨a, b⟩ := i
    rw [Finset.mem_offDiag] at hi
    dsimp only at hshape hi
    have hab : a ≠ b := hi.2.2
    have hca : (rmul h).count a = 3 := by
      rw [hshape, count_shape_pair, if_pos rfl, if_neg hab]
    have hcb : (rmul h).count b = 2 := by
      rw [hshape, count_shape_pair, if_neg fun he => hab he.symm, if_pos rfl]
    have hoth : ∀ r : Rank, r ≠ a → r ≠ b → (rmul h).count r ≤ 1 := by
      intro r h1 h2
      rw [hshape, count_shape_pair, if_neg h1, if_neg h2]
      omega
    have hna : (card_nums (hand_list h)).count (rank_to_number a) = 3 := by
      rw [nums_count]
      exact hca
    have hnb : (card_nums (hand_list h)).count (rank_to_number b) = 2 := by
      rw [nums_count]
      exact hcb
    have hne : rank_to_number a ≠ rank_to_number b :=
      fun he => hab (rank_to_number_inj _ _ he)
    have hmm := matched_of_counts_double hna hnb (by omega) (by omega) hne
      (counts_other_nums2 hoth)
    rcases hmm with hmm | hmm
    · simp [full_house, hmm]
    · simp [full_house, hmm]

theorem fh_hands_count :
    (all_hands.filter fun h => full_houseF h = true).card = 3744 := by
  have he : (all_hands.filter fun h => full_houseF h = true) =
      all_hands.filter fun h => full_house (hand_list h) = true := rfl
  rw [he, count_by_shapes (Finset.univ : Finset Rank).offDiag
      (fun i => Multiset.replicate 3 i.1 + Multiset.replicate 2 i.2)
      (fun h => full_house (hand_list h)) ?hinj ?hcard fh_char]
  case hinj =>
    intro i hi j hj hmof
    rw [Finset.mem_offDiag] at hi hj
    obtain ⟨h1, h2⟩ := Mof_fh_inj hi.2.2 hj.2.2 hmof
    exact Prod.ext h1 h2
  case hcard =>
    intro i _
    rw [Multiset.card_add, Multiset.card_replicate, Multiset.card_replicate]
  have hconst : ∀ i ∈ (Finset.univ : Finset Rank).offDiag,
      (∏ r : Rank,
        Nat.choose 4 ((Multiset.replicate 3 i.1 + Multiset.replicate 2 i.2).count r)) = 24 := by
    intro i hi
    rw [Finset.mem_offDiag] at hi
    exact prod_choose_shape_fh hi.2.2
  rw [Finset.sum_congr rfl hconst, Finset.sum_const, card_offdiag_rank, smul_eq_mul]


theorem tp_char (h : Finset Card) (hm : h ∈ all_hands) :
    (two_pairs (hand_list h) = true ↔
      ∃ i ∈ ((Finset.univ : Finset Rank).powersetCard 2).sigma fun P => Finset.univ \ P,
        rmul h = i.1.val + i.1.val + Multiset.replicate 1 i.2) := by
  constructor
  · intro hp
    obtain ⟨x, y, hmxy, hx2, hy2⟩ := two_pairs_matched hp
    obtain ⟨hcx, hcy, h2x, h2y, hxyne, hother⟩ := matched_double_counts hmxy
    have hmx : x.2 ∈ card_nums (hand_list h) := List.count_pos_iff.mp (by omega)
    have hmy : y.2 ∈ card_nums (hand_list h) := List.count_pos_iff.mp (by omega)
    obtain ⟨cx, hcxm, hcxe⟩ := List.mem_map.mp hmx
    obtain ⟨cy, hcym, hcye⟩ := List.mem_map.mp hmy
    have hrne : cx.rank ≠ cy.rank := fun he => hxyne (by rw [← hcxe, ← hcye, he])
    have hcax : (rmul h).count cx.rank = 2 := by rw [← nums_count, hcxe, hcx, hx2]
    have hcay : (rmul h).count cy.rank = 2 := by rw [← nums_count, hcye, hcy, hy2]
    have hothr : ∀ r : Rank, r ≠ cx.rank → r ≠ cy.rank → (rmul h).count r ≤ 1 := by
      intro r h1 h2
      rw [← nums_count]
      exact hother _ (fun he => h1 (rank_to_number_inj _ _ (by rw [he, hcxe])))
        (fun he => h2 (rank_to_number_inj _ _ (by rw [he, hcye])))
    have hcard5 : Multiset.card (rmul h) = 5 := by rw [rmul_card, mem_all_hands.mp hm]
    obtain ⟨k, hka, hkb, hk1, hshape⟩ :=
      multiset_shape_twopair hrne hcard5 hcax hcay hothr
    refine ⟨⟨{cx.rank, cy.rank}, k⟩, ?_, hshape⟩
    rw [Finset.mem_sigma]
    constructor
    · rw [Finset.mem_powersetCard]
      refine ⟨Finset.subset_univ _, ?_⟩
      rw [Finset.card_insert_of_not_mem (by simpa using hrne), Finset.card_singleton]
    · rw [Finset.mem_sdiff]
      exact ⟨Finset.mem_univ _, by simp [hka, hkb]⟩
  · rintro ⟨i, hi, hshape⟩
    obtain ⟨P, k⟩ := i
    rw [Finset.mem_sigma, Finset.mem_powersetCard, Finset.mem_sdiff] at hi
    dsimp only at hshape hi
    obtain ⟨⟨-, hP2⟩, -, hkP⟩ := hi
    obtain ⟨a, b, hab, hPab⟩ := Finset.card_eq_two.mp hP2
    subst hPab
    have hka : k ≠ a := fun he => hkP (by simp [he])
    have hkb : k ≠ b := fun he => hkP (by simp [he])
    have hca : (rmul h).count a = 2 := by
      rw [hshape, count_shape_twopair, if_pos (by simp), if_neg fun he => hka he.symm]
    have hcb : (rmul h).count b = 2 := by
      rw [hshape, count_shape_twopair, if_pos (by simp), if_neg fun he => hkb he.symm]
    have hoth : ∀ r : Rank, r ≠ a → r ≠ b → (rmul h).count r ≤ 1 := by
      intro r h1 h2
      rw [hshape, count_shape_twopair, if_neg (by simp [h1, h2])]
      by_cases h3 : r = k
      · rw [if_pos h3]
      · rw [if_neg h3]
        omega
    have hna : (card_nums (hand_list h)).count (rank_to_number a) = 2 := by
      rw [nums_count]
      exact hca
    have hnb : (card_nums (hand_list h)).count (rank_to_number b) = 2 := by
      rw [nums_count]
      exact hcb
    have hne : rank_to_number a ≠ rank_to_number b :=
      fun he => hab (rank_to_number_inj _ _ he)
    have hmm := matched_of_counts_double hna hnb (by omega) (by omega) hne
      (counts_other_nums2 hoth)
    have h2c : 2 ≤ (rmul h).count a := by omega
    have hflush := flush_false_of_not_one_suit (not_one_suit_of_count_two h2c)
    rcases hmm with hmm | hmm
    · simp [two_pairs, hmm, hflush]
    · simp [two_pairs, hmm, hflush]

theorem tp_hands_count :
    (all_hands.filter fun h => two_pairsF h = true).card = 123552 := by
  have he : (all_hands.filter fun h => two_pairsF h = true) =
      all_hands.filter fun h => two_pairs (hand_list h) = true := rfl
  rw [he, count_by_shapes
      (((Finset.univ : Finset Rank).powersetCard 2).sigma fun P => Finset.univ \ P)
      (fun i => i.1.val + i.1.val + Multiset.replicate 1 i.2)
      (fun h => two_pairs (hand_list h)) ?hinj ?hcard tp_char]
  case hinj =>
    intro i hi j hj hmof
    rw [Finset.mem_sigma, Finset.mem_sdiff] at hi hj
    obtain ⟨h1, h2⟩ := Mof_tp_inj hi.2.2 hj.2.2 hmof
    exact Sigma.ext h1 (heq_of_eq h2)
  case hcard =>
    intro i hi
    rw [Finset.mem_sigma, Finset.mem_powersetCard] at hi
    rw [Multiset.card_add, Multiset.card_add, Multiset.card_replicate]
    have hPv : Multiset.card i.1.val = i.1.card := rfl
    rw [hPv, hi.1.2]
  have hconst : ∀ i ∈ ((Finset.univ : Finset Rank).powersetCard 2).sigma
      fun P => Finset.univ \ P,
      (∏ r : Rank,
        Nat.choose 4 ((i.1.val + i.1.val + Multiset.replicate 1 i.2).count r)) = 144 := by
    intro i hi
    rw [Finset.mem_sigma, Finset.mem_powersetCard, Finset.mem_sdiff] at hi
    exact prod_choose_shape_tp hi.2.2 hi.1.2
  rw [Finset.sum_congr rfl hconst, Finset.sum_const, card_tp_index, smul_eq_mul]


theorem pair_hands_count :
    (all_hands.filter fun h => pairF h = true).card = 1098240 := by
  have he : (all_hands.filter fun h => pairF h = true) =
      all_hands.filter fun h => pair (hand_list h) = true := rfl
  rw [he, single_count 2 (by omega) (by omega) pair
    (fun l hp => pair_matched hp)
    (fun l n hmf hf => by simp [pair, hmf, hf])]
  decide

theorem three_hands_count :
    (all_hands.filter fun h => three_of_a_kindF h = true).card = 54912 := by
  have he : (all_hands.filter fun h => three_of_a_kindF h = true) =
      all_hands.filter fun h => three_of_a_kind (hand_list h) = true := rfl
  rw [he, single_count 3 (by omega) (by omega) three_of_a_kind
    (fun l hp => three_matched hp)
    (fun l n hmf hf => by simp [three_of_a_kind, hmf, hf])]
  decide

theorem four_hands_count :
    (all_hands.filter fun h => four_of_a_kindF h = true).card = 624 := by
  have he : (all_hands.filter fun h => four_of_a_kindF h = true) =
      all_hands.filter fun h => four_of_a_kind (hand_list h) = true := rfl
  rw [he, single_count 4 (by omega) (by omega) four_of_a_kind
    (fun l hp => four_matched hp)
    (fun l n hmf hf => by simp [four_of_a_kind, hmf, hf])]
  decide



theorem rtn_injective : Function.Injective rank_to_number := by
  intro a b hab
  exact rank_to_number_inj a b hab

theorem g_low_injective : Function.Injective g_low := by
  intro a b
  revert a b
  decide

theorem set_from_map {R S : Finset Rank}
    (heq : Multiset.map rank_to_number R.val = Multiset.map rank_to_number S.val) : R = S :=
  Finset.val_inj.mp (Multiset.map_injective rtn_injective heq)

theorem set_from_map_low {R S : Finset Rank}
    (heq : Multiset.map g_low R.val = Multiset.map g_low S.val) : R = S :=
  Finset.val_inj.mp (Multiset.map_injective g_low_injective heq)

theorem length_five_cases {α : Type} {l : List α} (hl : l.length = 5) :
    ∃ a b c d e, l = [a, b, c, d, e] := by
  rcases l with _ | ⟨a, l⟩
  · simp at hl
  rcases l with _ | ⟨b, l⟩
  · simp at hl
  rcases l with _ | ⟨c, l⟩
  · simp at hl
  rcases l with _ | ⟨d, l⟩
  · simp at hl
  rcases l with _ | ⟨e, l⟩
  · simp at hl
  rcases l with _ | ⟨f, l⟩
  · exact ⟨a, b, c, d, e, rfl⟩
  · simp at hl

theorem diffs_five {a b c d e : Nat} (h : diffs_all_one [a, b, c, d, e] = true) :
    b = a + 1 ∧ c = a + 2 ∧ d = a + 3 ∧ e = a + 4 := by
  simp only [diffs_all_one, Bool.and_eq_true, beq_iff_eq] at h
  omega

theorem rtn_bounds : ∀ r : Rank, 2 ≤ rank_to_number r ∧ rank_to_number r ≤ 14 := by
  decide

theorem g_low_bounds : ∀ r : Rank, 1 ≤ g_low r ∧ g_low r ≤ 13 := by
  decide


theorem straightsR_mem_run {R : Finset Rank} (h5 : R.card = 5)
    (hs : straightsR R = true) : R ∈ run_sets := by
  have hcoe := nums_of_coe R
  have hlen : (nums_of R).length = 5 := by
    have hc := congrArg Multiset.card hcoe
    simp only [Multiset.coe_card, Multiset.card_map] at hc
    rw [hc, show Multiset.card R.val = R.card from rfl, h5]
  rw [straightsR, Bool.or_eq_true] at hs
  rcases hs with hs | hs
  · have hLlen : ((nums_of R).insertionSort (· ≤ ·)).length = 5 := by
      rw [List.length_insertionSort]
      exact hlen
    obtain ⟨a, b, c, d, e, hLe⟩ := length_five_cases hLlen
    rw [hLe] at hs
    obtain ⟨hb, hc2, hd, he2⟩ := diffs_five hs
    subst hb
    subst hc2
    subst hd
    subst he2
    have hperm : (((nums_of R).insertionSort (· ≤ ·) : List Nat) : Multiset Nat) =
        Multiset.map rank_to_number R.val := by
      rw [← hcoe]
      exact Multiset.coe_eq_coe.mpr (List.perm_insertionSort _ _)
    rw [hLe] at hperm
    have hmem_a : a ∈ Multiset.map rank_to_number R.val := by
      rw [← hperm]
      simp
    have hmem_e : a + 4 ∈ Multiset.map rank_to_number R.val := by
      rw [← hperm]
      simp
    obtain ⟨ra, hra, hrae⟩ := Multiset.mem_map.mp hmem_a
    obtain ⟨re, hre, href⟩ := Multiset.mem_map.mp hmem_e
    have hb1 := rtn_bounds ra
    have hb2 := rtn_bounds re
    have ha2 : 2 ≤ a := by omega
    have ha10 : a ≤ 10 := by omega
    interval_cases a
    · have hR : R = ({.r2, .r3, .r4, .r5, .r6} : Finset Rank) :=
        set_from_map (hperm.symm.trans (by decide))
      rw [hR]
      decide
    · have hR : R = ({.r3, .r4, .r5, .r6, .r7} : Finset Rank) :=
        set_from_map (hperm.symm.trans (by decide))
      rw [hR]
      decide
    · have hR : R = ({.r4, .r5, .r6, .r7, .r8} : Finset Rank) :=
        set_from_map (hperm.symm.trans (by decide))
      rw [hR]
      decide
    · have hR : R = ({.r5, .r6, .r7, .r8, .r9} : Finset Rank) :=
        set_from_map (hperm.symm.trans (by decide))
      rw [hR]
      decide
    · have hR : R = ({.r6, .r7, .r8, .r9, .r10} : Finset Rank) :=
        set_from_map (hperm.symm.trans (by decide))
      rw [hR]
      decide
    · have hR : R = ({.r7, .r8, .r9, .r10, .rJ} : Finset Rank) :=
        set_from_map (hperm.symm.trans (by decide))
      rw [hR]
      decide
    · have hR : R = ({.r8, .r9, .r10, .rJ, .rQ} : Finset Rank) :=
        set_from_map (hperm.symm.trans (by decide))
      rw [hR]
      decide
    · have hR : R = ({.r9, .r10, .rJ, .rQ, .rK} : Finset Rank) :=
        set_from_map (hperm.symm.trans (by decide))
      rw [hR]
      decide
    · have hR : R = ({.r10, .rJ, .rQ, .rK, .rA} : Finset Rank) :=
        set_from_map (hperm.symm.trans (by decide))
      rw [hR]
      decide
  · have hLlen : (((nums_of R).map fun n => if n == 14 then 1 else n).insertionSort
        (· ≤ ·)).length = 5 := by
      rw [List.length_insertionSort, List.length_map]
      exact hlen
    obtain ⟨a, b, c, d, e, hLe⟩ := length_five_cases hLlen
    rw [hLe] at hs
    obtain ⟨hb, hc2, hd, he2⟩ := diffs_five hs
    subst hb
    subst hc2
    subst hd
    subst he2
    have hperm : ((((nums_of R).map fun n => if n == 14 then 1 else n).insertionSort
        (· ≤ ·) : List Nat) : Multiset Nat) = Multiset.map g_low R.val := by
      have hp1 : ((((nums_of R).map fun n => if n == 14 then 1 else n).insertionSort
          (· ≤ ·) : List Nat) : Multiset Nat) =
          (((nums_of R).map fun n => if n == 14 then 1 else n : List Nat) : Multiset Nat) :=
        Multiset.coe_eq_coe.mpr (List.perm_insertionSort _ _)
      rw [hp1, ← Multiset.map_coe, hcoe, Multiset.map_map]
      rfl
    rw [hLe] at hperm
    have hmem_a : a ∈ Multiset.map g_low R.val := by
      rw [← hperm]
      simp
    have hmem_e : a + 4 ∈ Multiset.map g_low R.val := by
      rw [← hperm]
      simp
    obtain ⟨ra, hra, hrae⟩ := Multiset.mem_map.mp hmem_a
    obtain ⟨re, hre, href⟩ := Multiset.mem_map.mp hmem_e
    have hb1 := g_low_bounds ra
    have hb2 := g_low_bounds re
    have ha1 : 1 ≤ a := by omega
    have ha9 : a ≤ 9 := by omega
    interval_cases a
    · have hR : R = ({.rA, .r2, .r3, .r4, .r5} : Finset Rank) :=
        set_from_map_low (hperm.symm.trans (by decide))
      rw [hR]
      decide
    · have hR : R = ({.r2, .r3, .r4, .r5, .r6} : Finset Rank) :=
        set_from_map_low (hperm.symm.trans (by decide))
      rw [hR]
      decide
    · have hR : R = ({.r3, .r4, .r5, .r6, .r7} : Finset Rank) :=
        set_from_map_low (hperm.symm.trans (by decide))
      rw [hR]
      decide
    · have hR : R = ({.r4, .r5, .r6, .r7, .r8} : Finset Rank) :=
        set_from_map_low (hperm.symm.trans (by decide))
      rw [hR]
      decide
    · have hR : R = ({.r5, .r6, .r7, .r8, .r9} : Finset Rank) :=
        set_from_map_low (hperm.symm.trans (by decide))
      rw [hR]
      decide
    · have hR : R = ({.r6, .r7, .r8, .r9, .r10} : Finset Rank) :=
        set_from_map_low (hperm.symm.trans (by decide))
      rw [hR]
      decide
    · have hR : R = ({.r7, .r8, .r9, .r10, .rJ} : Finset Rank) :=
        set_from_map_low (hperm.symm.trans (by decide))
      rw [hR]
      decide
    · have hR : R = ({.r8, .r9, .r10, .rJ, .rQ} : Finset Rank) :=
        set_from_map_low (hperm.symm.trans (by decide))
      rw [hR]
      decide
    · have hR : R = ({.r9, .r10, .rJ, .rQ, .rK} : Finset Rank) :=
        set_from_map_low (hperm.symm.trans (by decide))
      rw [hR]
      decide

theorem run_straightsR : ∀ S ∈ run_sets, straightsR S = true := by
  intro S hS
  simp only [run_sets, Finset.mem_insert, Finset.mem_singleton] at hS
  rcases hS with rfl | rfl | rfl | rfl | rfl | rfl | rfl | rfl | rfl | rfl <;> decide


theorem minge10_iff {R : Finset Rank} (h5 : R.card = 5) :
    minge10 R = true ↔ R = royal_set := by
  constructor
  · intro hm
    rw [minge10, decide_eq_true_eq] at hm
    have hsub : R ⊆ royal_set := by
      intro r hr
      have hmemn : rank_to_number r ∈ nums_of R := by
        rw [← Multiset.mem_coe, nums_of_coe]
        exact Multiset.mem_map_of_mem _ (Finset.mem_val.mpr hr)
      cases hmin : (nums_of R).min? with
      | none =>
        rw [List.min?_eq_none_iff] at hmin
        rw [hmin] at hmemn
        simp at hmemn
      | some m =>
        obtain ⟨-, hle⟩ := List.min?_eq_some_iff'.mp hmin
        have hmr := hle _ hmemn
        have h10 : 10 ≤ m := by
          rw [hmin] at hm
          simpa using hm
        exact (by decide : ∀ x : Rank, 10 ≤ rank_to_number x → x ∈ royal_set) r (by omega)
    exact Finset.eq_of_subset_of_card_le hsub (by rw [h5]; decide)
  · intro hR
    subst hR
    decide


theorem royal_iff (l : List Card) :
    royal_flush l = true ↔ (10 ≤ (card_nums l).min?.getD 0 ∧ one_suit l = true) := by
  rw [royal_flush, royal_flush_py]
  split
  · next hcond =>
    simp only [Option.getD_some, true_iff]
    simpa using hcond
  · next hcond =>
    simp only [Option.getD_none]
    constructor
    · intro hcontra
      exact Bool.noConfusion hcontra
    · intro hcontra
      exact absurd (by simpa using hcontra) hcond

theorem sf_iff (l : List Card) :
    straight_flush l = true ↔
      (royal_flush l = false ∧
        (is_high_ace_straight l || is_low_ace_straight l) = true ∧ one_suit l = true) := by
  simp only [straight_flush]
  split
  · next hcond =>
    rw [Bool.and_eq_true, Bool.not_eq_true'] at hcond
    constructor
    · intro hos
      exact ⟨hcond.1, hcond.2, hos⟩
    · intro hh
      exact hh.2.2
  · next hcond =>
    rw [Bool.and_eq_true, Bool.not_eq_true'] at hcond
    constructor
    · intro hcontra
      exact Bool.noConfusion hcontra
    · rintro ⟨h1, h2, -⟩
      exact absurd ⟨h1, h2⟩ hcond

theorem flush_iff (l : List Card) :
    flush l = true ↔
      (one_suit l = true ∧ straight_flush l = false ∧ royal_flush l = false) := by
  simp only [flush, Bool.and_eq_true, Bool.not_eq_true', Bool.or_eq_false_iff]

theorem straight_iff (l : List Card) :
    straight l = true ↔
      (one_suit l = false ∧ (is_high_ace_straight l || is_low_ace_straight l) = true) := by
  rw [straight]
  split
  · next hcond =>
    constructor
    · intro hcontra
      exact Bool.noConfusion hcontra
    · rintro ⟨hos, -⟩
      rcases (by simpa using hcond : royal_flush l = true ∨ one_suit l = true) with hr | ho
      · have hr2 := ((royal_iff l).mp hr).2
        rw [hr2] at hos
        exact Bool.noConfusion hos
      · rw [ho] at hos
        exact Bool.noConfusion hos
  · next hcond =>
    have hcond2 : royal_flush l = false ∧ one_suit l = false := by
      rcases h1 : royal_flush l
      · rcases h2 : one_suit l
        · exact ⟨rfl, rfl⟩
        · exact absurd (by rw [h1, h2]; rfl) hcond
      · exact absurd (by rw [h1]; rfl) hcond
    constructor
    · intro hstr
      exact ⟨hcond2.2, hstr⟩
    · rintro ⟨-, hstr⟩
      exact hstr


theorem run_sets_card : ∀ R ∈ run_sets, R.card = 5 := by
  intro R hR
  simp only [run_sets, Finset.mem_insert, Finset.mem_singleton] at hR
  rcases hR with rfl | rfl | rfl | rfl | rfl | rfl | rfl | rfl | rfl | rfl <;> decide

theorem prod_choose_val (R : Finset Rank) :
    (∏ r : Rank, Nat.choose 4 (R.val.count r)) = 4 ^ R.card := by
  have hout : ∀ x ∈ Finset.univ, x ∉ R → Nat.choose 4 (R.val.count x) = 1 := by
    intro x _ hx
    rw [count_finset_val, if_neg hx]
    rfl
  rw [← Finset.prod_subset (Finset.subset_univ R) hout]
  have h4 : ∀ r ∈ R, Nat.choose 4 (R.val.count r) = 4 := by
    intro r hr
    rw [count_finset_val, if_pos hr]
    rfl
  rw [Finset.prod_congr rfl h4, Finset.prod_const]

theorem royal_char (h : Finset Card) (hm : h ∈ all_hands) :
    (royal_flush (hand_list h) = true ↔
      ∃ R ∈ ({royal_set} : Finset (Finset Rank)), ∃ s : Suit, h = psi R s) := by
  rw [royal_iff]
  constructor
  · rintro ⟨hmin, hos⟩
    obtain ⟨R, s, hR5, hps⟩ := one_suited_decomp hm hos
    have hRm : rmul h = R.val := by rw [hps, rmul_psi]
    have hminge : minge10 R = true := by
      rw [minge10, decide_eq_true_eq, ← min_bridge hRm]
      exact hmin
    have hRroyal : R = royal_set := (minge10_iff hR5).mp hminge
    exact ⟨R, by rw [Finset.mem_singleton, hRroyal], s, hps⟩
  · rintro ⟨R, hR, s, rfl⟩
    rw [Finset.mem_singleton] at hR
    subst hR
    have h5 : royal_set.card = 5 := by decide
    have hRm : rmul (psi royal_set s) = royal_set.val := rmul_psi _ _
    refine ⟨?_, one_suit_psi s h5⟩
    rw [min_bridge hRm]
    have hg : minge10 royal_set = true := by decide
    rw [minge10, decide_eq_true_eq] at hg
    exact hg

theorem royal_hands_count :
    (all_hands.filter fun h => royal_flushF h = true).card = 4 := by
  have he : (all_hands.filter fun h => royal_flushF h = true) =
      all_hands.filter fun h => royal_flush (hand_list h) = true := rfl
  rw [he, one_suited_count _ ({royal_set} : Finset (Finset Rank)) ?hc5 royal_char,
    Finset.card_singleton]
  case hc5 =>
    intro R hR
    rw [Finset.mem_singleton] at hR
    subst hR
    decide

theorem sf_char (h : Finset Card) (hm : h ∈ all_hands) :
    (straight_flush (hand_list h) = true ↔
      ∃ R ∈ run_sets.erase royal_set, ∃ s : Suit, h = psi R s) := by
  rw [sf_iff]
  constructor
  · rintro ⟨hroyal, hstr, hos⟩
    obtain ⟨R, s, hR5, hps⟩ := one_suited_decomp hm hos
    have hRm : rmul h = R.val := by rw [hps, rmul_psi]
    have hsR : straightsR R = true := by
      rw [← straights_bridge hRm]
      exact hstr
    have hrun : R ∈ run_sets := straightsR_mem_run hR5 hsR
    have hnroyal : R ≠ royal_set := by
      intro he2
      have hminge : minge10 R = true := by
        rw [he2]
        decide
      rw [minge10, decide_eq_true_eq] at hminge
      have hro : royal_flush (hand_list h) = true := (royal_iff _).mpr
        ⟨by rw [min_bridge hRm]; exact hminge, hos⟩
      rw [hro] at hroyal
      exact Bool.noConfusion hroyal
    exact ⟨R, Finset.mem_erase.mpr ⟨hnroyal, hrun⟩, s, hps⟩
  · rintro ⟨R, hR, s, rfl⟩
    rw [Finset.mem_erase] at hR
    have hR5 : R.card = 5 := run_sets_card _ hR.2
    have hRm : rmul (psi R s) = R.val := rmul_psi _ _
    have hos := one_suit_psi s hR5
    refine ⟨?_, ?_, hos⟩
    · rw [← Bool.not_eq_true]
      intro hroyal
      have hmin := ((royal_iff _).mp hroyal).1
      have hminge : minge10 R = true := by
        rw [minge10, decide_eq_true_eq, ← min_bridge hRm]
        exact hmin
      exact hR.1 ((minge10_iff hR5).mp hminge)
    · rw [straights_bridge hRm]
      exact run_straightsR R hR.2

theorem sf_hands_count :
    (all_hands.filter fun h => straight_flushF h = true).card = 36 := by
  have he : (all_hands.filter fun h => straight_flushF h = true) =
      all_hands.filter fun h => straight_flush (hand_list h) = true := rfl
  rw [he, one_suited_count _ (run_sets.erase royal_set) ?hc5 sf_char,
    Finset.card_erase_of_mem (by decide)]
  · have h10 : run_sets.card = 10 := by decide
    rw [h10]
  case hc5 =>
    intro R hR
    exact run_sets_card _ (Finset.mem_erase.mp hR).2

theorem flush_char (h : Finset Card) (hm : h ∈ all_hands) :
    (flush (hand_list h) = true ↔
      ∃ R ∈ Finset.univ.powersetCard 5 \ run_sets, ∃ s : Suit, h = psi R s) := by
  rw [flush_iff]
  constructor
  · rintro ⟨hos, hsf, hroyal⟩
    obtain ⟨R, s, hR5, hps⟩ := one_suited_decomp hm hos
    have hRm : rmul h = R.val := by rw [hps, rmul_psi]
    have hnrun : R ∉ run_sets := by
      intro hrun
      have hstr : (is_high_ace_straight (hand_list h) ||
          is_low_ace_straight (hand_list h)) = true := by
        rw [straights_bridge hRm]
        exact run_straightsR R hrun
      have hsf2 : straight_flush (hand_list h) = true := (sf_iff _).mpr ⟨hroyal, hstr, hos⟩
      rw [hsf2] at hsf
      exact Bool.noConfusion hsf
    exact ⟨R, Finset.mem_sdiff.mpr ⟨Finset.mem_powersetCard_univ.mpr hR5, hnrun⟩, s, hps⟩
  · rintro ⟨R, hR, s, rfl⟩
    rw [Finset.mem_sdiff, Finset.mem_powersetCard_univ] at hR
    have hR5 := hR.1
    have hRm : rmul (psi R s) = R.val := rmul_psi _ _
    have hos := one_suit_psi s hR5
    have hstrF : straightsR R = false := by
      rcases hq : straightsR R
      · rfl
      · exact absurd (straightsR_mem_run hR5 hq) hR.2
    have hroyalF : royal_flush (hand_list (psi R s)) = false := by
      rw [← Bool.not_eq_true]
      intro hroyal
      have hmin := ((royal_iff _).mp hroyal).1
      have hminge : minge10 R = true := by
        rw [minge10, decide_eq_true_eq, ← min_bridge hRm]
        exact hmin
      have hRr := (minge10_iff hR5).mp hminge
      refine hR.2 ?_
      rw [hRr]
      decide
    have hsfF : straight_flush (hand_list (psi R s)) = false := by
      rw [← Bool.not_eq_true]
      intro hsf
      have hstr := ((sf_iff _).mp hsf).2.1
      rw [straights_bridge hRm, hstrF] at hstr
      exact Bool.noConfusion hstr
    exact ⟨hos, hsfF, hroyalF⟩

theorem flush_hands_count :
    (all_hands.filter fun h => flushF h = true).card = 5108 := by
  have he : (all_hands.filter fun h => flushF h = true) =
      all_hands.filter fun h => flush (hand_list h) = true := rfl
  have hsub : run_sets ⊆ Finset.univ.powersetCard 5 := by
    intro R hR
    exact Finset.mem_powersetCard_univ.mpr (run_sets_card R hR)
  rw [he, one_suited_count _ (Finset.univ.powersetCard 5 \ run_sets) ?hc5 flush_char,
    Finset.card_sdiff hsub, Finset.card_powersetCard, card_rank_univ]
  · have h10 : run_sets.card = 10 := by decide
    rw [h10]
    decide
  case hc5 =>
    intro R hR
    exact Finset.mem_powersetCard_univ.mp (Finset.mem_sdiff.mp hR).1


theorem straightsB_char (h : Finset Card) (hm : h ∈ all_hands) :
    ((is_high_ace_straight (hand_list h) || is_low_ace_straight (hand_list h)) = true ↔
      ∃ R ∈ run_sets, rmul h = R.val) := by
  constructor
  · intro hs
    have hnn : (card_nums (hand_list h)).Nodup := nodup_nums_of_straights hs
    have hrn : ((hand_list h).map Card.rank).Nodup := by
      have hmm : ((hand_list h).map Card.rank).map rank_to_number =
          card_nums (hand_list h) := by
        rw [List.map_map]
        rfl
      rw [← hmm] at hnn
      exact List.Nodup.of_map _ hnn
    have hmul_nodup : (rmul h).Nodup := by
      rw [rmul_coe]
      exact Multiset.coe_nodup.mpr hrn
    have hRval : ((rmul h).toFinset).val = rmul h := by
      rw [Multiset.toFinset_val]
      exact Multiset.dedup_eq_self.mpr hmul_nodup
    have hR5 : ((rmul h).toFinset).card = 5 := by
      have hcv : ((rmul h).toFinset).card = Multiset.card ((rmul h).toFinset).val := rfl
      rw [hcv, hRval, rmul_card, mem_all_hands.mp hm]
    have hsR : straightsR ((rmul h).toFinset) = true := by
      rw [← straights_bridge hRval.symm]
      exact hs
    exact ⟨(rmul h).toFinset, straightsR_mem_run hR5 hsR, hRval.symm⟩
  · rintro ⟨R, hR, hRm⟩
    rw [straights_bridge hRm]
    exact run_straightsR R hR

theorem strA_count :
    (all_hands.filter fun h =>
      (is_high_ace_straight (hand_list h) || is_low_ace_straight (hand_list h)) = true).card
      = 10240 := by
  rw [count_by_shapes run_sets Finset.val
      (fun h => is_high_ace_straight (hand_list h) || is_low_ace_straight (hand_list h))
      ?hinj ?hcard straightsB_char]
  case hinj =>
    intro i _ j _ he
    exact Finset.val_inj.mp he
  case hcard =>
    intro i hi
    have hcv : Multiset.card i.val = i.card := rfl
    rw [hcv, run_sets_card i hi]
  have hconst : ∀ R ∈ run_sets, (∏ r : Rank, Nat.choose 4 (R.val.count r)) = 1024 := by
    intro R hR
    rw [prod_choose_val, run_sets_card R hR]
    rfl
  rw [Finset.sum_congr rfl hconst, Finset.sum_const, smul_eq_mul]
  have h10 : run_sets.card = 10 := by decide
  rw [h10]

theorem strOS_char (h : Finset Card) (hm : h ∈ all_hands) :
    (((is_high_ace_straight (hand_list h) || is_low_ace_straight (hand_list h)) &&
        one_suit (hand_list h)) = true ↔
      ∃ R ∈ run_sets, ∃ s : Suit, h = psi R s) := by
  rw [Bool.and_eq_true]
  constructor
  · rintro ⟨hstr, hos⟩
    obtain ⟨R, s, hR5, hps⟩ := one_suited_decomp hm hos
    have hRm : rmul h = R.val := by rw [hps, rmul_psi]
    have hsR : straightsR R = true := by
      rw [← straights_bridge hRm]
      exact hstr
    exact ⟨R, straightsR_mem_run hR5 hsR, s, hps⟩
  · rintro ⟨R, hR, s, rfl⟩
    have hR5 := run_sets_card R hR
    have hRm := rmul_psi R s
    refine ⟨?_, one_suit_psi s hR5⟩
    rw [straights_bridge hRm]
    exact run_straightsR R hR

theorem strOS_count :
    (all_hands.filter fun h =>
      ((is_high_ace_straight (hand_list h) || is_low_ace_straight (hand_list h)) &&
        one_suit (hand_list h)) = true).card = 40 := by
  rw [one_suited_count _ run_sets run_sets_card strOS_char]
  have h10 : run_sets.card = 10 := by decide
  rw [h10]

theorem straight_hands_count :
    (all_hands.filter fun h => straightF h = true).card = 10200 := by
  have he : (all_hands.filter fun h => straightF h = true) =
      all_hands.filter fun h => straight (hand_list h) = true := rfl
  have hset : (all_hands.filter fun h => straight (hand_list h) = true) =
      (all_hands.filter fun h =>
        (is_high_ace_straight (hand_list h) || is_low_ace_straight (hand_list h)) = true) \
      (all_hands.filter fun h =>
        ((is_high_ace_straight (hand_list h) || is_low_ace_straight (hand_list h)) &&
          one_suit (hand_list h)) = true) := by
    refine Finset.ext fun h => ?_
    rw [Finset.mem_sdiff, Finset.mem_filter, Finset.mem_filter, Finset.mem_filter]
    constructor
    · rintro ⟨hm, hst⟩
      obtain ⟨hos, hstr⟩ := (straight_iff _).mp hst
      refine ⟨⟨hm, hstr⟩, ?_⟩
      rintro ⟨-, hand2⟩
      rw [Bool.and_eq_true, hos] at hand2
      exact Bool.noConfusion hand2.2
    · rintro ⟨⟨hm, hstr⟩, hnot⟩
      refine ⟨hm, (straight_iff _).mpr ⟨?_, hstr⟩⟩
      rcases hos : one_suit (hand_list h)
      · rfl
      · refine absurd ⟨hm, ?_⟩ hnot
        rw [Bool.and_eq_true]
        exact ⟨hstr, hos⟩
  have hsub : (all_hands.filter fun h =>
        ((is_high_ace_straight (hand_list h) || is_low_ace_straight (hand_list h)) &&
          one_suit (hand_list h)) = true) ⊆
      all_hands.filter fun h =>
        (is_high_ace_straight (hand_list h) || is_low_ace_straight (hand_list h)) = true := by
    intro h hh
    rw [Finset.mem_filter] at hh ⊢
    rw [Bool.and_eq_true] at hh
    exact ⟨hh.1, hh.2.1⟩
  rw [he, hset, Finset.card_sdiff hsub, strA_count, strOS_count]


theorem all_hands_card : all_hands.card = 2598960 := by
  have he : all_hands = Finset.univ.powersetCard 5 := rfl
  rw [he, Finset.card_powersetCard]
  have hc : (Finset.univ : Finset Card).card = 52 := rfl
  rw [hc, Nat.choose_eq_descFactorial_div_factorial]
  decide

/-- C2: enumerating all C(52,5) = 2,598,960 five-card subsets of the 52-card
deck, each classifier predicate is truthy on exactly the canonical number of
hands: royal flush 4, straight flush 36, four of a kind 624, full house 3744,
flush 5108, straight 10200, three of a kind 54912, two pairs 123552,
pair 1098240. -/
theorem c2_classifier_counts :
    all_hands.card = 2598960 ∧
    (all_hands.filter fun h => royal_flushF h = true).card = 4 ∧
    (all_hands.filter fun h => straight_flushF h = true).card = 36 ∧
    (all_hands.filter fun h => four_of_a_kindF h = true).card = 624 ∧
    (all_hands.filter fun h => full_houseF h = true).card = 3744 ∧
    (all_hands.filter fun h => flushF h = true).card = 5108 ∧
    (all_hands.filter fun h => straightF h = true).card = 10200 ∧
    (all_hands.filter fun h => three_of_a_kindF h = true).card = 54912 ∧
    (all_hands.filter fun h => two_pairsF h = true).card = 123552 ∧
    (all_hands.filter fun h => pairF h = true).card = 1098240 :=
  ⟨all_hands_card, royal_hands_count, sf_hands_count, four_hands_count, fh_hands_count,
   flush_hands_count, straight_hands_count, three_hands_count, tp_hands_count,
   pair_hands_count⟩

end TH
